import Mathlib

/-!
Verification of the core of a grammar-driven syntax-highlighting tokenizer
(`src/prism.ts`): the `tokenize` / `matchGrammar` engine over a doubly linked
list of fragments, the grammar-composition helpers `extend` / `insertBefore`
with their depth-first reference rewrite, and the greedy-pattern global-flag
rewrite.

Strings of the host language are modelled as `List Char` (UTF-16 code units
are irrelevant to the claims; only lengths, concatenation and slicing are
used).  `s.slice(a, b)` becomes `jsSlice`, `s.length` becomes `List.length`.
-/

/-- JS strings, as lists of code units. -/
abbrev Str := List Char

/-- `s.slice(a, b)` for `0 ≤ a ≤ b` (the only shapes used by the source). -/
def jsSlice (s : Str) (a b : Nat) : Str := (s.take b).drop a

/-- `s.slice(a)`. -/
def jsSliceFrom (s : Str) (a : Nat) : Str := s.drop a

namespace Flags

/-!
Model of a host `RegExp` for the purposes of the flag rewrite at
`matchGrammar` (prism.ts:378-383):

```ts
if (greedy && !patternObj.pattern.global) {
  const flags = patternObj.pattern.toString().match(/[imsuy]*$/)?.[0] ?? "";
  patternObj.pattern = RegExp(patternObj.pattern.source, flags + "g");
}
```

A `RegExp` object is represented by its `source` text and its `flags` string.
The host's `flags` accessor always reports flags in the fixed order
`d g i m s u v y`, which the constructor model `RegExpC` reproduces.
`toString()` is `"/" + source + "/" + flags`.
-/

structure JSRegExp where
  source : Str
  flags : Str
deriving DecidableEq

/-- The `global` getter: whether the flags contain `g`. -/
def globalF (r : JSRegExp) : Bool := r.flags.contains 'g'

/-- `RegExp.prototype.toString`. -/
def toStringR (r : JSRegExp) : Str := '/' :: r.source ++ '/' :: r.flags

/-- The order in which the host `flags` accessor reports flags. -/
def flagOrder : Str := ['d', 'g', 'i', 'm', 's', 'u', 'v', 'y']

/-- `RegExp(source, fl)`: the constructed object reports its flags in the
canonical order (duplicate or unknown flags would throw; the callers below
never produce them). -/
def RegExpC (source : Str) (fl : Str) : JSRegExp :=
  ⟨source, flagOrder.filter (fun c => fl.contains c)⟩

def isImsuy (c : Char) : Bool :=
  c = 'i' || c = 'm' || c = 's' || c = 'u' || c = 'y'

/-- `str.match(/[imsuy]*$/)[0]`: the longest suffix of `str` made of
`i m s u y` characters (the leftmost position at which `[imsuy]*$` matches). -/
def imsuySuffix (s : Str) : Str := (s.reverse.takeWhile isImsuy).reverse

/-- prism.ts:378-383 — give a greedy pattern the stateful `g` flag. -/
def ensureGlobal (p : JSRegExp) : JSRegExp :=
  if !(globalF p) then
    let flags := imsuySuffix (toStringR p)
    RegExpC p.source (flags ++ ['g'])
  else p

end Flags

namespace Compose

/-!
Heap model for the grammar-composition helpers (`languages.extend`,
`languages.insertBefore`, `languages.DFS`, prism.ts:99-247).  These helpers
work with JavaScript object identity (`value === old`), so grammars are
modelled as objects in an addressed heap:

* `JVal` — a JavaScript value: a reference to an Object, a reference to an
  Array, or a primitive-like leaf (`RegExp` objects, strings, booleans —
  everything `util.type` reports as neither `"Object"` nor `"Array"`, so the
  DFS never descends into it).  Distinct leaves carry distinct ids.
* `HObj` — the heap cell: either an ordered string-keyed record (`fields`,
  JS insertion-order object semantics) or an ordered array (`elems`).
* `Heap` — an association from addresses to cells plus an allocation bound.
-/

abbrev Addr := Nat

inductive JVal where
  | obj (a : Addr)
  | arr (a : Addr)
  | prim (id : Nat)
deriving DecidableEq

inductive HObj where
  | fields (l : List (Str × JVal))
  | elems (l : List JVal)
deriving DecidableEq

structure Heap where
  mem : List (Addr × HObj)
  fresh : Addr
deriving DecidableEq

def updMem : List (Addr × HObj) → Addr → HObj → List (Addr × HObj)
  | [], a, o => [(a, o)]
  | (a', o') :: rest, a, o =>
    if a' = a then (a, o) :: rest else (a', o') :: updMem rest a o

def Heap.get (h : Heap) (a : Addr) : Option HObj :=
  h.mem.lookup a

def Heap.set (h : Heap) (a : Addr) (o : HObj) : Heap :=
  ⟨updMem h.mem a o, h.fresh⟩

def Heap.alloc (h : Heap) (o : HObj) : Heap × Addr :=
  (⟨updMem h.mem h.fresh o, h.fresh + 1⟩, h.fresh)

/-- `o[k] = v` on an insertion-ordered record: replace in place, else append. -/
def assign : List (Str × JVal) → Str → JVal → List (Str × JVal)
  | [], k, v => [(k, v)]
  | (k', v') :: rest, k, v =>
    if k' = k then (k, v) :: rest else (k', v') :: assign rest k v

/-- `o.hasOwnProperty(k)`. -/
def keyMem (l : List (Str × JVal)) (k : Str) : Bool :=
  l.any (fun kv => kv.1 = k)

/-- `o[k]` for a record. -/
def getKey : List (Str × JVal) → Str → Option JVal
  | [], _ => none
  | (k', v) :: rest, k => if k' = k then some v else getKey rest k

/-- The record stored at address `a` (empty if the address holds no record). -/
def fieldsAt (h : Heap) (a : Addr) : List (Str × JVal) :=
  match h.get a with
  | some (.fields l) => l
  | _ => []

/-- The record a value refers to (`for (const k in v)` iterates nothing when
`v` is not an object). -/
def fieldsOf (h : Heap) (v : JVal) : List (Str × JVal) :=
  match v with
  | .obj a => fieldsAt h a
  | _ => []

/-- Decimal digit string of a natural number (JS array indices as keys). -/
def natStr (n : Nat) : Str := (Nat.toDigits 10 n)

/-- The keyed entries a `for (const i in o)` loop sees: record fields, or
array elements keyed by their decimal index. -/
def entriesOf : HObj → List (Str × JVal)
  | .fields l => l
  | .elems l => (l.enum.map fun vi => (natStr vi.1, vi.2))

/-- Replace the value of entry `i` (the DFS callback's `this[key] = ret`;
object keys are unique, so positional update agrees with keyed update). -/
def setEntryAt : HObj → Nat → JVal → HObj
  | .fields l, i, v => .fields (l.enum.map fun jkv =>
      if jkv.1 = i then (jkv.2.1, v) else jkv.2)
  | .elems l, i, v => .elems (l.enum.map fun jv =>
      if jv.1 = i then v else jv.2)

def containerAddr : JVal → Option Addr
  | .obj a => some a
  | .arr a => some a
  | .prim _ => none

def cellEntries (h : Heap) (v : JVal) : List (Str × JVal) :=
  match containerAddr v with
  | some a => match h.get a with
              | some o => entriesOf o
              | none => []
  | none => []

def setEntry (h : Heap) (v : JVal) (i : Nat) (nv : JVal) : Heap :=
  match containerAddr v with
  | some a => match h.get a with
              | some o => h.set a (setEntryAt o i nv)
              | none => h
  | none => h

/-- The DFS callback, modelled by its action: given the key and current value
of an entry, optionally provide a replacement value for that entry.  The one
relevant callback (prism.ts:216-220) only ever performs `this[key] = ret`. -/
abbrev CB := Str → JVal → Option JVal

/-- One level of `languages.DFS` (prism.ts:226-247): iterate the entries of
the container `cv` from position `i` on (`rem` entries remain), invoking the
callback, re-reading the possibly-replaced value, and recursing (via `rec`,
the depth-limited DFS) into unvisited Objects and Arrays, threading the
shared `visited` set (keyed by object identity, i.e. the address). -/
def dfsEntries (cb : CB) (rec : Heap → JVal → List Addr → Heap × List Addr) :
    Nat → Heap → JVal → Nat → List Addr → Heap × List Addr
  | 0, h, _, _, vis => (h, vis)
  | rem+1, h, cv, i, vis =>
    match (cellEntries h cv).get? i with
    | none => (h, vis)
    | some (k, v0) =>
      let h1 := match cb k v0 with
                | some nv => setEntry h cv i nv
                | none => h
      let property := match (cellEntries h1 cv).get? i with
                      | some kv => kv.2
                      | none => v0
      let (h2, vis2) :=
        match containerAddr property with
        | some a =>
          if vis.contains a then (h1, vis)
          else rec h1 property (a :: vis)
        | none => (h1, vis)
      dfsEntries cb rec rem h2 cv (i+1) vis2

/-- Depth-limited `languages.DFS`.  The fuel only limits recursion depth; the
chosen fuel is proven sufficient for the one call site. -/
def DFS (cb : CB) : Nat → Heap → JVal → List Addr → Heap × List Addr
  | 0, h, _, vis => (h, vis)
  | fuel+1, h, v, vis =>
    dfsEntries cb (DFS cb fuel) (cellEntries h v).length h v 0 vis

def valAddrs : JVal → List Addr
  | .obj a => [a]
  | .arr a => [a]
  | .prim _ => []

def objAddrs (o : HObj) : List Addr :=
  ((entriesOf o).map (fun kv => valAddrs kv.2)).flatten

/-- Every address referred to from some stored value (with multiplicity). -/
def refAddrs (h : Heap) : List Addr :=
  (h.mem.map (fun ao => objAddrs ao.2)).flatten

/-- One step of the `ret`-building loop of `insertBefore` (prism.ts:195-210):
on reaching `before`, copy every entry of `insert`; then copy the target
entry unless its key occurs in `insert`. -/
def stepIBF (insertFields : List (Str × JVal)) (before : Str)
    (acc : List (Str × JVal)) (tv : Str × JVal) : List (Str × JVal) :=
  let acc1 := if tv.1 = before then
      insertFields.foldl (fun a kv => assign a kv.1 kv.2) acc
    else acc
  if keyMem insertFields tv.1 then acc1 else assign acc1 tv.1 tv.2

/-- The `ret`-building loop of `insertBefore`: iterate the target's entries
in order, starting from the empty object. -/
def insertBeforeFields (insertFields : List (Str × JVal)) (before : Str)
    (gfields : List (Str × JVal)) : List (Str × JVal) :=
  gfields.foldl (stepIBF insertFields before) []

/-- The one callback `insertBefore` passes to the DFS (prism.ts:216-220):
replace a field holding the old grammar object by the new one, unless the
key is the `inside` id. -/
def cbR (old newV : JVal) (inside : Str) : CB := fun key value =>
  if value = old ∧ ¬ key = inside then some newV else none

/-- prism.ts:184-223 — `languages.insertBefore(inside, before, insert, root)`.
`langs` is the address of the `languages` registry object (the DFS always
walks the registry, whatever `root` is). -/
def insertBefore (h : Heap) (langs : Addr) (inside before : Str)
    (insertV : JVal) (rootA : Addr) : Heap × Addr :=
  let grammar := (getKey (fieldsAt h rootA) inside).getD (.prim 0)
  let insertFields := fieldsOf h insertV
  let retFields := insertBeforeFields insertFields before (fieldsOf h grammar)
  let allocRes := h.alloc (.fields retFields)
  let h1 := allocRes.1
  let retA := allocRes.2
  let old := grammar
  let h2 := h1.set rootA (.fields (assign (fieldsAt h1 rootA) inside (.obj retA)))
  let dfsRes := DFS (cbR old (.obj retA) inside) ((refAddrs h2).length + 1)
    h2 (.obj langs) []
  (dfsRes.1, retA)

/-- One step of `structuredClone`'s graph copy: clone a value, threading the
already-cloned map (`memo`, source address to clone address) so that shared
and cyclic references are preserved.  `rec` clones at smaller depth. -/
def cloneFields (rec : Heap → List (Addr × Addr) → JVal → Heap × List (Addr × Addr) × JVal) :
    Heap → List (Addr × Addr) → List (Str × JVal) →
    Heap × List (Addr × Addr) × List (Str × JVal)
  | h, memo, [] => (h, memo, [])
  | h, memo, (k, v) :: rest =>
    let r1 := rec h memo v
    let r2 := cloneFields rec r1.1 r1.2.1 rest
    (r2.1, r2.2.1, (k, r1.2.2) :: r2.2.2)

def cloneElems (rec : Heap → List (Addr × Addr) → JVal → Heap × List (Addr × Addr) × JVal) :
    Heap → List (Addr × Addr) → List JVal →
    Heap × List (Addr × Addr) × List JVal
  | h, memo, [] => (h, memo, [])
  | h, memo, v :: rest =>
    let r1 := rec h memo v
    let r2 := cloneElems rec r1.1 r1.2.1 rest
    (r2.1, r2.2.1, r1.2.2 :: r2.2.2)

/-- One step of `structuredClone`: clone one value, delegating nested values
to `rec` (the clone at smaller depth).  Primitive-like leaves (including
`RegExp` objects, whose identity no caller inspects) are copied by value;
an object already in `memo` reuses its clone (shared references and
cycles). -/
def scloneStep (rec : Heap → List (Addr × Addr) → JVal → Heap × List (Addr × Addr) × JVal)
    (h : Heap) (memo : List (Addr × Addr)) (v : JVal) :
    Heap × List (Addr × Addr) × JVal :=
  match v with
  | .prim i => (h, memo, .prim i)
  | .obj a =>
    match memo.lookup a with
    | some a2 => (h, memo, .obj a2)
    | none =>
      let al := h.alloc (.fields [])
      let r := match al.1.get a with
        | some (.fields l) => cloneFields rec al.1 ((a, al.2) :: memo) l
        | _ => (al.1, (a, al.2) :: memo, [])
      (r.1.set al.2 (.fields r.2.2), r.2.1, .obj al.2)
  | .arr a =>
    match memo.lookup a with
    | some a2 => (h, memo, .arr a2)
    | none =>
      let al := h.alloc (.elems [])
      let r := match al.1.get a with
        | some (.elems l) => cloneElems rec al.1 ((a, al.2) :: memo) l
        | _ => (al.1, (a, al.2) :: memo, [])
      (r.1.set al.2 (.elems r.2.2), r.2.1, .arr al.2)

/-- Depth-limited `structuredClone` over the heap. -/
def scloneV : Nat → Heap → List (Addr × Addr) → JVal → Heap × List (Addr × Addr) × JVal
  | 0, h, memo, v => (h, memo, v)
  | fuel+1, h, memo, v => scloneStep (scloneV fuel) h memo v

/-- prism.ts:99-107 — `languages.extend(id, redef)`: deep-clone
`languages[id]`, then `lang[key] = redef[key]` for each key of `redef`.
Returns the updated heap and the clone. -/
def extend (h : Heap) (langs : Addr) (id : Str) (redefV : JVal) : Heap × JVal :=
  let langV := (getKey (fieldsAt h langs) id).getD (.prim 0)
  let r := scloneV ((refAddrs h).length + 2) h [] langV
  let h1 := r.1
  let lang := r.2.2
  let h2 := match containerAddr lang with
    | some a => (fieldsOf h redefV).foldl
        (fun hh kv => hh.set a (.fields (assign (fieldsAt hh a) kv.1 kv.2))) h1
    | none => h1
  (h2, lang)

/-- The keys of a record, in iteration order. -/
def keys (l : List (Str × JVal)) : List Str := l.map Prod.fst

/-- Reachability through stored values, used to state what "anywhere in the
grammar registry" means for the reference-rewrite property. -/
inductive Reaches (h : Heap) : Addr → Addr → Prop where
  | refl (a : Addr) : Reaches h a a
  | step {a b c : Addr} (hr : Reaches h a b)
      (ho : ∃ o, h.get b = some o ∧ ∃ kv ∈ entriesOf o, valAddrs kv.2 = [c]) :
      Reaches h a c

/-- The keyed entries of the heap cell at address `a` (empty when `a` holds
no cell). -/
def entriesAt (h : Heap) (a : Addr) : List (Str × JVal) :=
  match h.get a with
  | some o => entriesOf o
  | none => []

/-- Positionwise relation describing what the DFS rewrite may do to one cell
entry: the key is kept, and the value is either unchanged, or was `old` under
a key other than `inside` and became `newV`. -/
def entryRelO (old newV : JVal) (inside : Str) :
    Option (Str × JVal) → Option (Str × JVal) → Prop
  | none, none => True
  | some kv, some kv2 =>
      kv2.1 = kv.1 ∧ (kv2.2 = kv.2 ∨ (kv.2 = old ∧ kv2.2 = newV ∧ ¬ kv.1 = inside))
  | _, _ => False

/-- Heap evolution achieved by the DFS rewrite: the allocation frontier is
unchanged and every entry of every cell evolves by `entryRelO`. -/
def HRel (old newV : JVal) (inside : Str) (h h2 : Heap) : Prop :=
  h2.fresh = h.fresh ∧
  ∀ a j, entryRelO old newV inside ((entriesAt h a).get? j) ((entriesAt h2 a).get? j)

/-- An entry has been rewritten: it can hold the old grammar object only
under the key `inside`. -/
def entGood (old : JVal) (inside : Str) (kv : Str × JVal) : Prop :=
  kv.2 = old → kv.1 = inside

/-- Every address stored anywhere in the heap lies in `U`. -/
def refIn (h : Heap) (U : Finset Addr) : Prop := ∀ b ∈ refAddrs h, b ∈ U

/-- Everything `DFS` guarantees at fuel `f`: the heap evolves by `entryRelO`
only and the visited set grows; moreover, when the fuel dominates the number
of unvisited addresses of `U`, stored addresses stay inside `U`, the walked
container's entries are all rewritten with their referents visited, and every
newly visited cell likewise has all entries rewritten and referents
visited. -/
def DFSok (old newV : JVal) (inside : Str) (U : Finset Addr) (f : Nat) : Prop :=
  ∀ h v vis h2 vis2, DFS (cbR old newV inside) f h v vis = (h2, vis2) →
    HRel old newV inside h h2 ∧
    (∀ b ∈ vis, b ∈ vis2) ∧
    (refIn h U → (U \ vis.toFinset).card + 1 ≤ f →
      refIn h2 U ∧
      (∀ kv ∈ cellEntries h2 v,
        entGood old inside kv ∧ ∀ b ∈ valAddrs kv.2, b ∈ vis2) ∧
      (∀ a ∈ vis2, a ∈ vis ∨
        ∀ kv ∈ entriesAt h2 a,
          entGood old inside kv ∧ ∀ b ∈ valAddrs kv.2, b ∈ vis2))

/-- What one `dfsEntries` walk from position `i` with `rem` remaining steps
guarantees, with `rec` at fuel `f`: same shape as `DFSok`, with the walked
container rewritten on the positions the walk covers. -/
def dfsConc (old newV : JVal) (inside : Str) (U : Finset Addr) (f rem : Nat)
    (h : Heap) (cv : JVal) (i : Nat) (vis : List Addr)
    (h2 : Heap) (vis2 : List Addr) : Prop :=
  HRel old newV inside h h2 ∧
  (∀ b ∈ vis, b ∈ vis2) ∧
  (refIn h U → (U \ vis.toFinset).card ≤ f →
    refIn h2 U ∧
    (∀ j kv, i ≤ j → j < i + rem → (cellEntries h2 cv).get? j = some kv →
      entGood old inside kv ∧ ∀ b ∈ valAddrs kv.2, b ∈ vis2) ∧
    (∀ a ∈ vis2, a ∈ vis ∨
      ∀ kv ∈ entriesAt h2 a,
        entGood old inside kv ∧ ∀ b ∈ valAddrs kv.2, b ∈ vis2))

/-- A concrete four-cell registry: the registry object `10` holds the grammar
`base` (cell `20`) and a second grammar `other` (cell `30`) that itself has a
field named `base` referencing cell `20`; cell `25` is the object to
insert. -/
def c5heap : Heap :=
  ⟨[(10, .fields [("base".toList, .obj 20), ("other".toList, .obj 30)]),
    (20, .fields [("a".toList, .prim 1)]),
    (25, .fields [("x".toList, .prim 5)]),
    (30, .fields [("base".toList, .obj 20)])], 40⟩

end Compose

namespace Engine

/-!
Model of the tokenizer engine (prism.ts:274-576).

* Host regexes are modelled extensionally by `RegExpFn`: the behaviour of
  `lastIndex = pos; re.exec(text)` is a pure function of `(text, pos)`
  (prism.ts:326-341 always resets `lastIndex` before `exec`), together with
  the `global` flag — a non-global `exec` ignores `lastIndex` and searches
  from 0.  The well-formedness field records what every host regex
  guarantees: the match starts at or after the search origin, lies inside
  the subject, and the first capture group is no longer than the match.
  `match[0]` is always `subject.slice(index, index + len)`, so it is
  represented by the pair `(index, len)`.
* The doubly linked list (prism.ts:520-576) is a pointer heap: nodes are
  addresses, `node` maps an address to its record, `fresh` is the allocation
  bound.  `head = 0`, `tail = 1`.
* Loops and recursion are driven by fuel; fuel exhaustion (and the spots
  where the source would dereference `null`) are reported through the exit
  flag so every theorem can quantify over all fuels.
* The source mutates its grammar argument in two idempotent ways (inlining
  `rest`, prism.ts:275-282, and the greedy `g`-flag rewrite,
  prism.ts:378-383).  The model recomputes both per use, which produces the
  same behaviour; the syntactic side of the flag rewrite is verified
  separately in the `Flags` namespace.
-/

structure MatchRes where
  index : Nat
  len : Nat
  lb : Nat
deriving DecidableEq

structure RegExpFn where
  execAt : Str → Nat → Option MatchRes
  globalFlag : Bool
  wf : ∀ s pos m, execAt s pos = some m →
    pos ≤ m.index ∧ m.index + m.len ≤ s.length ∧ m.lb ≤ m.len

/-- `pattern.lastIndex = pos; pattern.exec(text)`. -/
def execJS (r : RegExpFn) (s : Str) (pos : Nat) : Option MatchRes :=
  r.execAt s (if r.globalFlag then pos else 0)

/-- prism.ts:326-341 — anchor the regex at `pos` and apply the Prism
lookbehind adjustment (shift the start past group 1 and drop those
characters from the match). -/
def matchPattern (pattern : RegExpFn) (pos : Nat) (text : Str)
    (lookbehind : Bool) : Option MatchRes :=
  match execJS pattern text pos with
  | some m =>
    if lookbehind && decide (0 < m.lb) then
      some ⟨m.index + m.lb, m.len - m.lb, m.lb⟩
    else some m
  | none => none

/-- The semantic effect of prism.ts:378-383: recompiling with the `g` flag
yields a regex with the same search behaviour that honours `lastIndex`. -/
def ensureGlobalE (r : RegExpFn) : RegExpFn :=
  if r.globalFlag then r else ⟨r.execAt, true, r.wf⟩

/-- A token's `alias`: a string or an array of strings. -/
inductive AliasV where
  | str (s : Str)
  | arr (l : List Str)
deriving DecidableEq

mutual
/-- A grammar entry's pattern: a bare regex (shorthand for `{pattern}`) or a
full `GrammarToken` object.  `inside := none` covers both an absent and a
`null` `inside` (both falsy at prism.ts:482). -/
inductive PatternObj where
  | re (pattern : RegExpFn)
  | obj (pattern : RegExpFn) (lookbehind greedy : Bool)
      (aliasO : Option AliasV) (inside : Option GrammarE)

/-- A grammar value: one pattern or an array of patterns. -/
inductive RuleV where
  | single (p : PatternObj)
  | many (ps : List PatternObj)

/-- An ordered grammar: its entries plus the optional reserved `rest`
sub-grammar. -/
inductive GrammarE where
  | mk (entries : List (Str × RuleV)) (rest : Option GrammarE)
end

def PatternObj.patternR : PatternObj → RegExpFn
  | .re r => r
  | .obj r _ _ _ _ => r

def PatternObj.lookbehindB : PatternObj → Bool
  | .re _ => false
  | .obj _ lb _ _ _ => lb

def PatternObj.greedyB : PatternObj → Bool
  | .re _ => false
  | .obj _ _ g _ _ => g

def PatternObj.aliasOf : PatternObj → Option AliasV
  | .re _ => none
  | .obj _ _ _ a _ => a

def PatternObj.insideOf : PatternObj → Option GrammarE
  | .re _ => none
  | .obj _ _ _ _ i => i

def GrammarE.entriesG : GrammarE → List (Str × RuleV)
  | .mk e _ => e

def GrammarE.restG : GrammarE → Option GrammarE
  | .mk _ r => r

mutual
/-- prism.ts:303-311 — a produced token. -/
inductive TokenV where
  | mk (type : Str) (content : TokContent) (aliasV : AliasV) (length : Nat)

/-- A token's `content`: a plain string or a nested token stream. -/
inductive TokContent where
  | str (s : Str)
  | stream (l : List Frag)

/-- One element of a token stream / one linked-list value. -/
inductive Frag where
  | str (s : Str)
  | token (t : TokenV)
end

/-- The `Token` constructor: `length` is derived from `matchedString` at
construction time (prism.ts:308-309) and there is no code that assigns to
it afterwards. -/
def TokenC (type : Str) (content : TokContent) (aliasV : AliasV)
    (matchedString : Str) : TokenV :=
  .mk type content aliasV matchedString.length

def TokenV.typeOf : TokenV → Str
  | .mk t _ _ _ => t

def TokenV.contentOf : TokenV → TokContent
  | .mk _ c _ _ => c

def TokenV.aliasOf : TokenV → AliasV
  | .mk _ _ a _ => a

def TokenV.lengthOf : TokenV → Nat
  | .mk _ _ _ n => n

/-- `value.length` of a fragment. -/
def Frag.lengthF : Frag → Nat
  | .str s => s.length
  | .token t => t.lengthOf

/-- A linked-list node: `value` is `null` exactly on the sentinels. -/
structure NodeR where
  value : Option Frag
  prev : Option Nat
  next : Option Nat

/-- The doubly linked list as a pointer heap.  `length` is the mutable
counter field of the source class. -/
structure LL where
  node : Nat → NodeR
  headA : Nat
  tailA : Nat
  fresh : Nat
  length : Nat

/-- `new LinkedList()` (prism.ts:526-530). -/
def newLL : LL where
  node := fun a =>
    if a = 1 then ⟨none, some 0, none⟩ else ⟨none, none, none⟩
  headA := 0
  tailA := 1
  fresh := 2
  length := 0

def LL.setNode (l : LL) (a : Nat) (n : NodeR) : LL :=
  ⟨fun x => if x = a then n else l.node x, l.headA, l.tailA, l.fresh, l.length⟩

/-- `currentNode?.value?.length ?? 0`. -/
def nodeLen (l : LL) : Option Nat → Nat
  | some a =>
    match (l.node a).value with
    | some f => f.lengthF
    | none => 0
  | none => 0

/-- `node?.next ?? null`. -/
def nodeNext (l : LL) : Option Nat → Option Nat
  | some a => (l.node a).next
  | none => none

/-- prism.ts:535-549 — insert a new node after `node`, returning it. -/
def addAfter (list : LL) (node : Nat) (value : Frag) : LL × Nat :=
  let next := (list.node node).next
  let newA := list.fresh
  let l1 := list.setNode newA ⟨some value, some node, next⟩
  let nodeRec := l1.node node
  let l2 := l1.setNode node ⟨nodeRec.value, nodeRec.prev, some newA⟩
  let l3 := match next with
    | some nx =>
      let nxRec := l2.node nx
      l2.setNode nx ⟨nxRec.value, some newA, nxRec.next⟩
    | none => l2
  (⟨l3.node, l3.headA, l3.tailA, newA + 1, l3.length + 1⟩, newA)

/-- The counting loop of `removeRange` (prism.ts:559-562): walk up to `count`
nodes, stopping at the tail sentinel; returns the surviving successor and the
number of nodes walked. -/
def removeWalk (list : LL) : Nat → Option Nat → Option Nat × Nat
  | 0, next => (next, 0)
  | count+1, next =>
    if next = some list.tailA then (next, 0)
    else
      let r := removeWalk list count (nodeNext list next)
      (r.1, r.2 + 1)

/-- prism.ts:554-566 — unlink up to `count` nodes after `node`. -/
def removeRange (list : LL) (node : Nat) (count : Nat) : LL :=
  let w := removeWalk list count ((list.node node).next)
  let next := w.1
  let i := w.2
  let nodeRec := list.node node
  let l1 := list.setNode node ⟨nodeRec.value, nodeRec.prev, next⟩
  let l2 := match next with
    | some nx =>
      let nxRec := l1.node nx
      l1.setNode nx ⟨nxRec.value, some node, nxRec.next⟩
    | none => l1
  ⟨l2.node, l2.headA, l2.tailA, l2.fresh, l2.length - i⟩

/-- prism.ts:568-576 — collect the non-sentinel values.  `node?.value &&`
keeps only truthy values, so the empty string is skipped.  The walk ends only
on reaching the tail sentinel; `none` reports that the source loop never
terminates (it walks `node = node?.next ?? null` forever once the chain ends
in `null`). -/
def toArrayWalk (list : LL) : Nat → Option Nat → Option (List Frag)
  | 0, _ => none
  | fuel+1, node =>
    if node = some list.tailA then some []
    else
      match node with
      | some a =>
        match toArrayWalk list fuel ((list.node a).next) with
        | some rest =>
          match (list.node a).value with
          | some (.str s) => some (if s.isEmpty then rest else .str s :: rest)
          | some (.token t) => some (.token t :: rest)
          | none => some rest
        | none => none
      | none => toArrayWalk list fuel none

def toArray (list : LL) : Option (List Frag) :=
  toArrayWalk list list.fresh ((list.node list.headA).next)

/-- The mutable rematch record (prism.ts:343-346). -/
structure Rm where
  cause : Str
  reach : Nat
deriving DecidableEq

/-- `token + "," + j`. -/
def causeStr (token : Str) (j : Nat) : Str :=
  token ++ ',' :: Nat.toDigits 10 j

/-- The mutable state a `matchGrammar` call threads: the list and the
(possibly updated) rematch record of the caller. -/
structure MGSt where
  list : LL
  rem : Option Rm

/-- How a piece of the engine finished. -/
inductive MGOut where
  | norm
  | ret
  | fuel
  | err
deriving DecidableEq

/-- How one execution of the cursor-loop body finished. -/
inductive BodyK where
  | advance (node : Option Nat) (pos : Nat)
  | brk
  | ret
  | fuelK
  | errK
deriving DecidableEq

/-- The recursive entry points, stratified by depth. -/
structure Rec where
  tokenizeR : Str → GrammarE → List Frag × MGOut
  matchGrammarR : Str → LL → List (Str × RuleV) → Nat → Nat → Option Rm →
    MGSt × MGOut

/-- The per-pattern context of the cursor loop (prism.ts:372-385). -/
structure PatCtx where
  text : Str
  grammar : List (Str × RuleV)
  token : Str
  j : Nat
  inside : Option GrammarE
  lookbehind : Bool
  greedy : Bool
  aliasO : Option AliasV
  pattern : RegExpFn

/-- The `while (from >= p)` walk of prism.ts:424-429: find the node
containing the (absolute) match start.  Returns the node and the running
total `p`, or `none` if the walk never ends (the source would loop forever;
unreachable in well-formed states). -/
def findStart (l : LL) : Nat → Nat → Option Nat → Nat → Option (Option Nat × Nat)
  | 0, _, _, _ => none
  | fuel+1, frm, curr, p =>
    if frm ≥ p then
      let curr2 := nodeNext l curr
      findStart l fuel frm curr2 (p + nodeLen l curr2)
    else some (curr, p)

/-- The span walk of prism.ts:439-448: count the nodes affected by a greedy
match (continuing past the match end through a trailing string node).
Returns `(removeCount, p)` starting from the given accumulator. -/
def findEnd (l : LL) : Nat → Nat → Option Nat → Nat → Nat → Option (Nat × Nat)
  | 0, _, _, _, _ => none
  | fuel+1, toEnd, k, p, cnt =>
    if k = some l.tailA then some (cnt, p)
    else
      let isStr := match k with
        | some a =>
          match (l.node a).value with
          | some (.str _) => true
          | _ => false
        | none => false
      if p < toEnd ∨ isStr = true then
        findEnd l fuel toEnd (nodeNext l k) (p + nodeLen l k) (cnt + 1)
      else some (cnt, p)

/-- prism.ts:460-514 — the splice: carve `strv` (the text being replaced,
whose removal starts at `curr`) into `before ++ matchStr ++ after`, unlink
the `removeCount` spanned nodes, insert the new token (tokenizing `matchStr`
with `inside` if present), re-insert the remainder, and, if more than one
node was removed, run the nested rematch pass. -/
def splice (rc : Rec) (pc : PatCtx) (st : MGSt) (curr : Option Nat)
    (pos : Nat) (strv : Str) (fromRel : Nat) (matchStr : Str)
    (removeCount : Nat) : MGSt × BodyK :=
  let before := jsSlice strv 0 fromRel
  let after := jsSliceFrom strv (fromRel + matchStr.length)
  let reach := pos + strv.length
  let rem1 : Option Rm := match st.rem with
    | some rm => if reach > rm.reach then some ⟨rm.cause, reach⟩ else some rm
    | none => none
  let removeFrom : Option Nat := match curr with
    | some a => (st.list.node a).prev
    | none => none
  let br := match removeFrom with
    | some rf =>
      if before.isEmpty then (st.list, removeFrom, pos)
      else
        let r := addAfter st.list rf (.str before)
        (r.1, some r.2, pos + before.length)
    | none => (st.list, removeFrom, pos)
  let list1 := br.1
  let removeFrom1 := br.2.1
  let pos1 := br.2.2
  let list2 := match removeFrom1 with
    | some rf => removeRange list1 rf removeCount
    | none => list1
  let inner := match pc.inside with
    | some g => let r := rc.tokenizeR matchStr g
                (TokContent.stream r.1, r.2)
    | none => (TokContent.str matchStr, MGOut.norm)
  match inner.2 with
  | .norm =>
    let wrapped := TokenC pc.token inner.1 ((pc.aliasO).getD (.str [])) matchStr
    match removeFrom1 with
    | some rf =>
      let ar := addAfter list2 rf (.token wrapped)
      let tokA := ar.2
      let list3 := ar.1
      let list4 := if after.isEmpty then list3
        else (addAfter list3 tokA (.str after)).1
      if removeCount > 1 then
        match (list4.node tokA).prev with
        | some pv =>
          let nested := rc.matchGrammarR pc.text list4 pc.grammar pv pos1
            (some ⟨causeStr pc.token pc.j, reach⟩)
          match nested.2 with
          | .norm | .ret =>
            let rem2 : Option Rm := match rem1, nested.1.rem with
              | some rm, some nr =>
                if nr.reach > rm.reach then some ⟨rm.cause, nr.reach⟩ else some rm
              | r, _ => r
            (⟨nested.1.list, rem2⟩, .advance (some tokA) pos1)
          | .fuel => (⟨nested.1.list, rem1⟩, .fuelK)
          | .err => (⟨nested.1.list, rem1⟩, .errK)
        | none => (⟨list4, rem1⟩, .errK)
      else (⟨list4, rem1⟩, .advance (some tokA) pos1)
    | none =>
      -- `currentNode = removeFrom && addAfter(...)` leaves `false`:
      -- only reachable through states the list invariant excludes
      (⟨list2, rem1⟩, .advance none pos1)
  | out => (⟨list2, rem1⟩, if out = .fuel then .fuelK else .errK)

/-- prism.ts:394-514 — one execution of the cursor-loop body. -/
def body (rc : Rec) (pc : PatCtx) (st : MGSt) (curr : Option Nat)
    (pos : Nat) : MGSt × BodyK :=
  -- if (rematch && pos >= rematch.reach) break
  let reachBrk : Bool := match st.rem with
    | some rm => decide (pos ≥ rm.reach)
    | none => false
  if reachBrk then (st, .brk)
  else
    match curr with
    | none => (st, .advance curr pos)     -- currentNode === null: continue
    | some a =>
      match (st.list.node a).value with
      | none => (st, .advance curr pos)   -- currentNode.value === null: continue
      | some frag =>
        if st.list.length > pc.text.length then (st, .ret)  -- safety valve
        else
          match frag with
          | .token _ => (st, .advance curr pos)  -- str instanceof Token: continue
          | .str strv =>
            if pc.greedy then
              match matchPattern pc.pattern pos pc.text pc.lookbehind with
              | none => (st, .brk)
              | some m =>
                if m.index ≥ pc.text.length then (st, .brk)
                else
                  let frm := m.index
                  let toEnd := m.index + m.len
                  -- find the node that contains the match
                  match findStart st.list (st.list.fresh + 1) frm (some a)
                      (pos + strv.length) with
                  | none => (st, .fuelK)
                  | some cp =>
                    let curr1 := cp.1
                    let p1 := cp.2 - nodeLen st.list curr1
                    let pos1 := p1
                    let isTok := match curr1 with
                      | some a1 =>
                        match (st.list.node a1).value with
                        | some (.token _) => true
                        | _ => false
                      | none => false
                    if isTok then (st, .advance curr1 pos1)
                    else
                      match findEnd st.list (st.list.fresh + 1) toEnd curr1 p1 1 with
                      | none => (st, .fuelK)
                      | some ce =>
                        let removeCount := ce.1 - 1
                        let p2 := ce.2
                        let strv1 := jsSlice pc.text pos1 p2
                        let fromRel := frm - pos1
                        let matchStr := jsSlice pc.text frm (frm + m.len)
                        splice rc pc st curr1 pos1 strv1 fromRel matchStr removeCount
            else
              match matchPattern pc.pattern 0 strv pc.lookbehind with
              | none => (st, .advance curr pos)
              | some m =>
                let matchStr := jsSlice strv m.index (m.index + m.len)
                splice rc pc st curr pos strv m.index matchStr 1

/-- The cursor loop (prism.ts:387-393): run the body, then perform the
`for`-update `pos += currentNode?.value?.length ?? 0;
currentNode = currentNode?.next ?? null` on whatever node the body left as
current. -/
def cursorLoop (rc : Rec) (pc : PatCtx) :
    Nat → MGSt → Option Nat → Nat → MGSt × MGOut
  | 0, st, _, _ => (st, .fuel)
  | fuel+1, st, curr, pos =>
    if curr = some st.list.tailA then (st, .norm)
    else
      match body rc pc st curr pos with
      | (st1, .advance node1 pos1) =>
        cursorLoop rc pc fuel st1 (nodeNext st1.list node1)
          (pos1 + nodeLen st1.list node1)
      | (st1, .brk) => (st1, .norm)
      | (st1, .ret) => (st1, .ret)
      | (st1, .fuelK) => (st1, .fuel)
      | (st1, .errK) => (st1, .err)

/-- The pattern loop (prism.ts:367-386): the rematch cause guard, the greedy
flag rewrite, then the cursor walk starting at `startNode.next`. -/
def patLoop (rc : Rec) (text : Str) (grammar : List (Str × RuleV))
    (token : Str) (fuel : Nat) :
    List PatternObj → Nat → MGSt → Nat → Nat → MGSt × MGOut
  | [], _, st, _, _ => (st, .norm)
  | patternObj :: restPats, j, st, startNode, startPos =>
    let causeHit : Bool := match st.rem with
      | some rm => decide (rm.cause = causeStr token j)
      | none => false
    if causeHit then (st, .ret)
    else
      let pattern := if patternObj.greedyB then ensureGlobalE patternObj.patternR
        else patternObj.patternR
      let pc : PatCtx :=
        ⟨text, grammar, token, j, patternObj.insideOf, patternObj.lookbehindB,
          patternObj.greedyB, patternObj.aliasOf, pattern⟩
      let r := cursorLoop rc pc fuel st
        ((st.list.node startNode).next) startPos
      match r.2 with
      | .norm => patLoop rc text grammar token fuel restPats (j+1) r.1
          startNode startPos
      | out => (r.1, out)

/-- The rule loop (prism.ts:359-366): iterate the grammar entries in order
(`hasOwnProperty` always holds and no entry is falsy in a well-typed
grammar), normalizing a single pattern to a one-element array. -/
def ruleLoop (rc : Rec) (text : Str) (grammar : List (Str × RuleV))
    (fuel : Nat) :
    List (Str × RuleV) → MGSt → Nat → Nat → MGSt × MGOut
  | [], st, _, _ => (st, .norm)
  | (token, rv) :: restEntries, st, startNode, startPos =>
    let patterns := match rv with
      | .single p => [p]
      | .many ps => ps
    match patLoop rc text grammar token fuel patterns 0 st startNode startPos with
    | (st1, .norm) => ruleLoop rc text grammar fuel restEntries st1 startNode startPos
    | r => r

/-- prism.ts:351-518 — `matchGrammar`. -/
def matchGrammarF (rc : Rec) (fuel : Nat) (text : Str) (list : LL)
    (grammar : List (Str × RuleV)) (startNode startPos : Nat)
    (rem : Option Rm) : MGSt × MGOut :=
  ruleLoop rc text grammar fuel grammar ⟨list, rem⟩ startNode startPos

/-- prism.ts:275-282 — inline the reserved `rest` sub-grammar: copy its
entries with JS assignment semantics (replace in place or append), then
delete the `rest` key. -/
def assignRule : List (Str × RuleV) → Str → RuleV → List (Str × RuleV)
  | [], k, v => [(k, v)]
  | (k', v') :: rest, k, v =>
    if k' = k then (k, v) :: rest else (k', v') :: assignRule rest k v

def inlineRest (g : GrammarE) : List (Str × RuleV) :=
  match g.restG with
  | some r => (r.entriesG).foldl (fun acc kv => assignRule acc kv.1 kv.2) g.entriesG
  | none => g.entriesG

/-- prism.ts:274-290 — `tokenize`. -/
def tokenizeF (rc : Rec) (fuel : Nat) (text : Str) (grammar : GrammarE) :
    List Frag × MGOut :=
  let entries := inlineRest grammar
  let tokenList := newLL
  let r1 := addAfter tokenList tokenList.headA (.str text)
  let mg := matchGrammarF rc fuel text r1.1 entries tokenList.headA 0 none
  match mg.2 with
  | .fuel => ([], .fuel)
  | .err => ([], .err)
  | _ =>
    match toArray mg.1.list with
    | some arr => (arr, .norm)
    | none => ([], .fuel)

/-- Tie the recursion: depth-`n` entry points run their loops with fuel `n`
and recurse at depth `n-1`. -/
def mkRec : Nat → Rec
  | 0 =>
    ⟨fun _ _ => ([], .fuel),
     fun _ list _ _ _ rem => (⟨list, rem⟩, .fuel)⟩
  | n+1 =>
    ⟨fun text g => tokenizeF (mkRec n) n text g,
     fun text list grammar startNode startPos rem =>
       matchGrammarF (mkRec n) n text list grammar startNode startPos rem⟩

/-- The public entry point, at fuel `fuel`. -/
def tokenize (fuel : Nat) (text : Str) (grammar : GrammarE) :
    List Frag × MGOut :=
  tokenizeF (mkRec fuel) fuel text grammar

/-- The one-string list the upstream `LinkedList` constructor (which links
`head.next = tail`) would yield after `addAfter(head, text)`: used to show
what `toArray` would return had the chain been closed. -/
def wellList (s : Str) : LL where
  node := fun a =>
    if a = 0 then ⟨none, none, some 2⟩
    else if a = 2 then ⟨some (.str s), some 0, some 1⟩
    else if a = 1 then ⟨none, some 2, none⟩
    else ⟨none, none, none⟩
  headA := 0
  tailA := 1
  fresh := 3
  length := 1

mutual
/-- The textual content of a fragment: a string is itself, a token flattens
back to the text it was built from. -/
def Frag.projF : Frag → Str
  | .str s => s
  | .token t => t.projT

def TokenV.projT : TokenV → Str
  | .mk _ c _ _ => c.projC

def TokContent.projC : TokContent → Str
  | .str s => s
  | .stream l => projL l

def projL : List Frag → Str
  | [] => []
  | f :: fs => f.projF ++ projL fs
end

/-- The chain from node `p`: successive `next` links with consistent `prev`
backlinks. -/
def linksChain (l : LL) : Nat → List Nat → Prop
  | _, [] => True
  | p, b :: bs =>
    (l.node p).next = some b ∧ (l.node b).prev = some p ∧ linksChain l b bs

/-- The last node of `p :: xs`. -/
def lastD : Nat → List Nat → Nat
  | p, [] => p
  | _, x :: xs => lastD x xs

/-- A complete null-terminated chain: the port's lists end in `null`, never
at the tail sentinel, because the constructor omits `head.next = tail`. -/
def linksOK (l : LL) (p : Nat) (as : List Nat) : Prop :=
  linksChain l p as ∧ (l.node (lastD p as)).next = none

/-- Pure `next`-successor chains, rooted at an optional node. -/
def seqNext (l : LL) : Option Nat → List Nat → Option Nat → Prop
  | cur, [], fin => cur = fin
  | cur, b :: bs, fin => cur = some b ∧ seqNext l ((l.node b).next) bs fin

/-- The textual content stored at a node. -/
def valStr (l : LL) (a : Nat) : Str :=
  match (l.node a).value with
  | some f => f.projF
  | none => []

/-- The concatenated textual content of a list of nodes. -/
def projChain (l : LL) (as : List Nat) : Str :=
  (as.map (valStr l)).flatten

/-- A well-formed fragment: the `length` a token carries equals the length
of its textual content. -/
def fragOK (f : Frag) : Prop := f.lengthF = f.projF.length

/-- A per-token property lifted to fragments (plain strings carry none). -/
def fragP (P : TokenV → Prop) : Frag → Prop
  | .str _ => True
  | .token t => P t

/-- The engine's list invariant over a run on `text`: head/tail sentinels in
place, the chain `as` properly doubly linked and null-terminated, node
addresses distinct, in `[2, fresh)`, every chain node holding a well-formed
fragment satisfying `P`, and the chain text concatenating to `text`. -/
def SInv (P : TokenV → Prop) (text : Str) (l : LL) (as : List Nat) : Prop :=
  l.headA = 0 ∧ l.tailA = 1 ∧ 2 ≤ l.fresh ∧
  linksOK l 0 as ∧
  as.Nodup ∧
  (∀ a ∈ as, 2 ≤ a ∧ a < l.fresh) ∧
  (∀ a ∈ as, ∃ f, (l.node a).value = some f ∧ fragOK f ∧ fragP P f) ∧
  projChain l as = text

/-- The patterns of one grammar entry (a single pattern reads as a
one-element array, prism.ts:361-363). -/
def rulePats : RuleV → List PatternObj
  | .single p => [p]
  | .many ps => ps

/-- Every token the grammar can mint satisfies `P` (the token type is the
entry key, the alias defaults to the empty string). -/
def PGood (P : TokenV → Prop) (grammar : List (Str × RuleV)) : Prop :=
  ∀ kv ∈ grammar, ∀ p ∈ rulePats kv.2, ∀ content ms,
    P (TokenC kv.1 content ((p.aliasOf).getD (.str [])) ms)

/-- What a completed `matchGrammar` call guarantees: started on a chain
`us0 ++ vs0` at the last node of `0 :: us0` with the prefix's text length as
position, a `norm`/`ret` return leaves the prefix in place (addresses and
values), the invariant restored on some new suffix, and — if the suffix
began with a token-valued node — that node still first, untouched. -/
def MGspec (P : TokenV → Prop)
    (MG : Str → LL → List (Str × RuleV) → Nat → Nat → Option Rm →
      MGSt × MGOut) : Prop :=
  ∀ text l grammar sn sp rem us0 vs0,
    PGood P grammar →
    SInv P text l (us0 ++ vs0) →
    sn = lastD 0 us0 →
    sp = (projChain l us0).length →
    ((MG text l grammar sn sp rem).2 = .norm ∨
      (MG text l grammar sn sp rem).2 = .ret) →
    ∃ vs1, SInv P text (MG text l grammar sn sp rem).1.list (us0 ++ vs1) ∧
      (∀ a ∈ 0 :: us0,
        ((MG text l grammar sn sp rem).1.list.node a).value = (l.node a).value) ∧
      (∀ t ts tok, vs0 = t :: ts → (l.node t).value = some (.token tok) →
        ∃ ts1, vs1 = t :: ts1 ∧
          ((MG text l grammar sn sp rem).1.list.node t).value = some (.token tok))

/-- What the recursive entry points of a `Rec` guarantee: the nested
tokenizer never completes (`toArray` hangs on the null-terminated chain) and
the nested rematch satisfies `MGspec`. -/
def RecOK (P : TokenV → Prop) (rc : Rec) : Prop :=
  (∀ text g, (rc.tokenizeR text g).2 ≠ .norm) ∧
  MGspec P rc.matchGrammarR

end Engine

namespace Flags

theorem takeWhile_append_stop (c : Char) (hc : isImsuy c = false) :
    ∀ (l rest : Str), (l ++ c :: rest).takeWhile isImsuy = l.takeWhile isImsuy := by
  intro l rest
  induction l with
  | nil => simp [List.takeWhile, hc]
  | cons a l ih =>
    by_cases h : isImsuy a
    · simp [List.takeWhile, h, ih]
    · simp only [Bool.not_eq_true] at h
      simp [List.takeWhile, h]

/-- The `[imsuy]*$` match against `toString()` never crosses the closing `/`,
so it only sees the flags string. -/
theorem imsuySuffix_toStringR (p : JSRegExp) :
    imsuySuffix (toStringR p) = imsuySuffix p.flags := by
  have h : toStringR p = ('/' :: p.source) ++ '/' :: p.flags := by
    simp [toStringR]
  rw [imsuySuffix, h]
  rw [List.reverse_append]
  have h2 : ('/' :: p.flags).reverse = p.flags.reverse ++ ['/'] := by simp
  rw [h2, List.append_assoc]
  have h3 : (['/'] ++ ('/' :: p.source).reverse : Str)
      = '/' :: ('/' :: p.source).reverse := rfl
  rw [h3, takeWhile_append_stop '/' (by decide)]
  rfl

theorem globalF_ensureGlobal (p : JSRegExp) : globalF (ensureGlobal p) = true := by
  by_cases h : globalF p
  · simp [ensureGlobal, h]
  · simp only [Bool.not_eq_true] at h
    simp only [ensureGlobal, h, Bool.not_false, if_pos]
    simp [globalF, RegExpC, flagOrder]

theorem ensureGlobal_idem (p : JSRegExp) :
    ensureGlobal (ensureGlobal p) = ensureGlobal p := by
  have h := globalF_ensureGlobal p
  rw [ensureGlobal, h]
  simp

end Flags


theorem jsSlice_append_sliceFrom (s : Str) (a : Nat) :
    jsSlice s 0 a ++ jsSliceFrom s a = s := by
  simp [jsSlice, jsSliceFrom]

namespace Flags

theorem takeWhile_all (l : Str) (h : ∀ c ∈ l, isImsuy c = true) :
    l.takeWhile isImsuy = l := by
  induction l with
  | nil => rfl
  | cons a l ih =>
    have ha : isImsuy a = true := h a (by simp)
    simp only [List.takeWhile, ha]
    rw [ih (fun c hc => h c (by simp [hc]))]

theorem all_imsuy_suffix (l : Str) (h : ∀ c ∈ l, isImsuy c = true) :
    imsuySuffix l = l := by
  rw [imsuySuffix, takeWhile_all l.reverse (fun c hc => h c (List.mem_reverse.mp hc)),
    List.reverse_reverse]

/-- C7 (amended): when a greedy rule's pattern lacks the global flag the
engine recompiles it as `RegExp(source, trailing-imsuy-flags + "g")`: the
global flag is added and exactly the trailing run of `i m s u y` flags is
preserved (a `d` or `v` flag, and anything before it, is dropped); when all
of the pattern's flags are among `i m s u y` the whole flag set is
preserved.  The rewrite is idempotent: the result is global, a global
pattern is left unchanged, and a second application changes nothing. -/
theorem C7_flag_rewrite_amended (p : JSRegExp) :
    globalF (ensureGlobal p) = true ∧
    ensureGlobal (ensureGlobal p) = ensureGlobal p ∧
    (globalF p = true → ensureGlobal p = p) ∧
    (globalF p = false →
      ensureGlobal p = RegExpC p.source (imsuySuffix p.flags ++ ['g'])) ∧
    (globalF p = false → (∀ c ∈ p.flags, isImsuy c = true) →
      ∀ c ∈ flagOrder, (c ∈ (ensureGlobal p).flags ↔ c = 'g' ∨ c ∈ p.flags)) := by
  refine ⟨globalF_ensureGlobal p, ensureGlobal_idem p, ?_, ?_, ?_⟩
  · intro h; simp [ensureGlobal, h]
  · intro h; rw [ensureGlobal, h]; simp [imsuySuffix_toStringR]
  · intro h hall c hc
    rw [ensureGlobal, h]
    simp only [Bool.not_false, if_pos]
    rw [imsuySuffix_toStringR, all_imsuy_suffix p.flags hall]
    simp only [RegExpC, List.mem_filter, List.elem_eq_mem, List.mem_append,
      List.mem_singleton, decide_eq_true_eq]
    constructor
    · rintro ⟨-, h2 | h2⟩
      · exact Or.inr h2
      · exact Or.inl h2
    · rintro (h2 | h2)
      · exact ⟨hc, Or.inr h2⟩
      · exact ⟨hc, Or.inl h2⟩

/-- C7 witness: the amended theorem applied to `/a/i`. -/
theorem C7_flag_rewrite_witness :
    globalF ⟨['a'], ['i']⟩ = false ∧
    ensureGlobal ⟨['a'], ['i']⟩ =
      RegExpC ['a'] (imsuySuffix ['i'] ++ ['g']) ∧
    ('i' ∈ (ensureGlobal ⟨['a'], ['i']⟩).flags ↔
      'i' = 'g' ∨ 'i' ∈ (['i'] : Str)) :=
  ⟨by decide,
   (C7_flag_rewrite_amended ⟨['a'], ['i']⟩).2.2.2.1 (by decide),
   (C7_flag_rewrite_amended ⟨['a'], ['i']⟩).2.2.2.2 (by decide)
     (by decide) 'i' (by decide)⟩

/-- C7 counterexample: the claim says "all other flags preserved", but the
rewrite of the non-global pattern `/a/d` loses its `d` (hasIndices) flag:
the recompiled flag string is just `"g"`. -/
theorem C7_counterexample :
    globalF ⟨['a'], ['d']⟩ = false ∧
    'd' ∈ (JSRegExp.mk ['a'] ['d']).flags ∧
    ¬ 'd' ∈ (ensureGlobal ⟨['a'], ['d']⟩).flags ∧
    (ensureGlobal ⟨['a'], ['d']⟩).flags = ['g'] := by
  decide

end Flags

namespace Compose

theorem keyMem_false_iff (l : List (Str × JVal)) (k : Str) :
    keyMem l k = false ↔ ¬ k ∈ keys l := by
  rw [← Bool.not_eq_true]
  simp only [keyMem, keys, List.any_eq_true, decide_eq_true_eq, not_exists]
  constructor
  · intro h hk
    obtain ⟨kv, hkv, he⟩ := List.mem_map.mp hk
    exact h kv ⟨hkv, he⟩
  · intro h kv ⟨hkv, he⟩
    exact h (he ▸ List.mem_map_of_mem Prod.fst hkv)

theorem assign_append (acc : List (Str × JVal)) (k : Str) (v : JVal)
    (h : ¬ k ∈ keys acc) : assign acc k v = acc ++ [(k, v)] := by
  induction acc with
  | nil => rfl
  | cons kv rest ih =>
    obtain ⟨k1, v1⟩ := kv
    simp only [keys, List.map_cons, List.mem_cons, not_or] at h
    simp only [assign]
    rw [if_neg (fun he => h.1 he.symm), ih h.2]
    simp

theorem foldl_assign_append (I : List (Str × JVal)) :
    ∀ acc, (keys I).Nodup → (∀ kv ∈ I, ¬ kv.1 ∈ keys acc) →
    I.foldl (fun a kv => assign a kv.1 kv.2) acc = acc ++ I := by
  induction I with
  | nil => intro acc _ _; simp
  | cons kv rest ih =>
    intro acc hnd hdisj
    simp only [List.foldl_cons]
    rw [assign_append acc kv.1 kv.2 (hdisj kv (by simp))]
    simp only [keys, List.map_cons, List.nodup_cons] at hnd
    rw [ih (acc ++ [(kv.1, kv.2)]) hnd.2 ?_]
    · simp
    · intro kv2 h2
      simp only [keys, List.map_append, List.mem_append, not_or]
      refine ⟨hdisj kv2 (List.mem_cons_of_mem kv h2), ?_⟩
      intro hc
      simp only [List.map_cons, List.map_nil, List.mem_singleton] at hc
      exact hnd.1 (hc ▸ List.mem_map_of_mem Prod.fst h2)

theorem stepIBF_skip (I : List (Str × JVal)) (before : Str) (acc : List (Str × JVal))
    (tv : Str × JVal) (hne : tv.1 ≠ before) (hk : keyMem I tv.1 = true) :
    stepIBF I before acc tv = acc := by
  simp [stepIBF, hne, hk]

theorem stepIBF_copy (I : List (Str × JVal)) (before : Str) (acc : List (Str × JVal))
    (tv : Str × JVal) (hne : tv.1 ≠ before) (hk : keyMem I tv.1 = false) :
    stepIBF I before acc tv = assign acc tv.1 tv.2 := by
  simp [stepIBF, hne, hk]

theorem stepIBF_at_before (I : List (Str × JVal)) (before : Str)
    (acc : List (Str × JVal)) (vb : JVal) :
    stepIBF I before acc (before, vb) =
      (if keyMem I before then
        I.foldl (fun a kv => assign a kv.1 kv.2) acc
      else assign (I.foldl (fun a kv => assign a kv.1 kv.2) acc) before vb) := by
  by_cases hk : keyMem I before <;> simp [stepIBF, hk]

theorem ibf_fold_seg (I : List (Str × JVal)) (before : Str)
    (seg : List (Str × JVal)) :
    ∀ acc,
    (∀ kv ∈ seg, kv.1 ≠ before) →
    (keys seg).Nodup →
    (∀ kv ∈ seg, keyMem I kv.1 = false → ¬ kv.1 ∈ keys acc) →
    seg.foldl (stepIBF I before) acc =
      acc ++ seg.filter (fun kv => keyMem I kv.1 = false) := by
  induction seg with
  | nil => intro acc _ _ _; simp
  | cons kv rest ih =>
    intro acc hb hnd hdisj
    simp only [List.foldl_cons]
    simp only [keys, List.map_cons, List.nodup_cons] at hnd
    by_cases hk : keyMem I kv.1
    · rw [stepIBF_skip I before acc kv (hb kv (by simp)) hk]
      rw [ih acc (fun x hx => hb x (List.mem_cons_of_mem kv hx)) hnd.2
        (fun x hx h2 => hdisj x (List.mem_cons_of_mem kv hx) h2)]
      simp [List.filter_cons, hk]
    · simp only [Bool.not_eq_true] at hk
      rw [stepIBF_copy I before acc kv (hb kv (by simp)) hk]
      rw [assign_append acc kv.1 kv.2 (hdisj kv (by simp) hk)]
      rw [ih (acc ++ [(kv.1, kv.2)]) (fun x hx => hb x (List.mem_cons_of_mem kv hx)) hnd.2 ?_]
      · simp [List.filter_cons, hk]
      · intro kv2 h2 hmem
        simp only [keys, List.map_append, List.mem_append, not_or]
        refine ⟨hdisj kv2 (List.mem_cons_of_mem kv h2) hmem, ?_⟩
        intro hc
        simp only [List.map_cons, List.map_nil, List.mem_singleton] at hc
        exact hnd.1 (hc ▸ List.mem_map_of_mem Prod.fst h2)

theorem keys_filter_keyMem (I G : List (Str × JVal)) (k : Str)
    (h : k ∈ keys (G.filter (fun kv => keyMem I kv.1 = false))) :
    keyMem I k = false ∧ k ∈ keys G := by
  obtain ⟨kv, hkv, he⟩ := List.mem_map.mp h
  have h2 := List.mem_filter.mp hkv
  refine ⟨?_, he ▸ List.mem_map_of_mem Prod.fst h2.1⟩
  rw [← he]
  simpa using h2.2

/-- C4: `insertBefore` iterates the target grammar's keys in order, copies
every entry of `insert` immediately before the entry whose key equals
`before`, and omits target entries whose keys collide with keys of `insert`;
on `{ base: { a, b } }`, `insertBefore("base", "b", { x })` yields iteration
order `a, x, b`. -/
theorem C4_insertBefore_order :
    (∀ (I G1 G2 : List (Str × JVal)) (before : Str) (vb : JVal),
      (keys (G1 ++ (before, vb) :: G2)).Nodup →
      (keys I).Nodup →
      insertBeforeFields I before (G1 ++ (before, vb) :: G2) =
        G1.filter (fun kv => keyMem I kv.1 = false) ++ I ++
          ((before, vb) :: G2).filter (fun kv => keyMem I kv.1 = false)) ∧
    (fieldsAt
        (insertBefore
          ⟨[(10, .fields [("base".toList, .obj 20)]),
            (20, .fields [("a".toList, .prim 1), ("b".toList, .prim 2)]),
            (30, .fields [("x".toList, .prim 3)])], 40⟩
          10 "base".toList "b".toList (.obj 30) 10).1
        (insertBefore
          ⟨[(10, .fields [("base".toList, .obj 20)]),
            (20, .fields [("a".toList, .prim 1), ("b".toList, .prim 2)]),
            (30, .fields [("x".toList, .prim 3)])], 40⟩
          10 "base".toList "b".toList (.obj 30) 10).2 =
      [("a".toList, .prim 1), ("x".toList, .prim 3), ("b".toList, .prim 2)]) := by
  constructor
  · intro I G1 G2 before vb hndG hndI
    have hkeys : keys (G1 ++ (before, vb) :: G2) =
        keys G1 ++ before :: keys G2 := by simp [keys]
    rw [hkeys] at hndG
    rw [List.nodup_append] at hndG
    obtain ⟨hnd1, hnd2', hdisj⟩ := hndG
    rw [List.nodup_cons] at hnd2'
    obtain ⟨hbG2, hnd2⟩ := hnd2'
    have hbG1 : ¬ before ∈ keys G1 := fun hc => hdisj hc (by simp)
    have hdisj12 : ∀ k ∈ keys G2, ¬ k ∈ keys G1 :=
      fun k hk hc => hdisj hc (by simp [hk])
    rw [insertBeforeFields, List.foldl_append]
    rw [ibf_fold_seg I before G1 []
      (fun kv hkv he => hbG1 (he ▸ List.mem_map_of_mem Prod.fst hkv))
      hnd1 (fun kv _ _ => by simp [keys])]
    simp only [List.nil_append, List.foldl_cons]
    rw [stepIBF_at_before]
    have hIfresh : ∀ kv ∈ I, ¬ kv.1 ∈
        keys (G1.filter (fun kv => keyMem I kv.1 = false)) := by
      intro kv hkv hc
      have h2 := (keys_filter_keyMem I G1 kv.1 hc).1
      rw [keyMem_false_iff] at h2
      exact h2 (List.mem_map_of_mem Prod.fst hkv)
    rw [foldl_assign_append I _ hndI hIfresh]
    have hG2gen : ∀ kv ∈ G2, ¬ kv.1 ∈
        keys (G1.filter (fun kv => keyMem I kv.1 = false)) := by
      intro kv hkv hc
      exact hdisj12 kv.1 (List.mem_map_of_mem Prod.fst hkv)
        (keys_filter_keyMem I G1 kv.1 hc).2
    by_cases hkb : keyMem I before
    · rw [if_pos hkb]
      rw [ibf_fold_seg I before G2 _
        (fun kv hkv he => hbG2 (he ▸ List.mem_map_of_mem Prod.fst hkv)) hnd2 ?_]
      · simp [List.filter_cons, hkb]
      · intro kv hkv hmem hc
        simp only [keys, List.map_append, List.mem_append] at hc
        rcases hc with hc | hc
        · exact hG2gen kv hkv hc
        · exact (keyMem_false_iff I kv.1).mp hmem hc
    · simp only [Bool.not_eq_true] at hkb
      rw [hkb]
      simp only [Bool.false_eq_true, if_false]
      rw [assign_append _ before vb ?_]
      · rw [ibf_fold_seg I before G2 _
          (fun kv hkv he => hbG2 (he ▸ List.mem_map_of_mem Prod.fst hkv)) hnd2 ?_]
        · simp [List.filter_cons, hkb]
        · intro kv hkv hmem hc
          simp only [keys, List.map_append, List.map_cons, List.map_nil,
            List.mem_append, List.mem_singleton] at hc
          rcases hc with (hc | hc) | hc
          · exact hG2gen kv hkv hc
          · exact (keyMem_false_iff I kv.1).mp hmem hc
          · exact hbG2 (hc ▸ List.mem_map_of_mem Prod.fst hkv)
      · intro hc
        simp only [keys, List.map_append, List.mem_append] at hc
        rcases hc with hc | hc
        · exact hbG1 (keys_filter_keyMem I G1 before hc).2
        · exact (keyMem_false_iff I before).mp hkb hc
  · decide

/-- C4 witness: the general clause applied to the `{a, b}` / `{x}` example. -/
theorem C4_insertBefore_order_witness :
    insertBeforeFields [("x".toList, .prim 3)] "b".toList
        [("a".toList, .prim 1), ("b".toList, .prim 2)] =
      [("a".toList, .prim 1), ("x".toList, .prim 3), ("b".toList, .prim 2)] := by
  have h := C4_insertBefore_order.1 [("x".toList, .prim 3)]
    [("a".toList, .prim 1)] [] "b".toList (.prim 2) (by decide) (by decide)
  simpa using h

end Compose
namespace Compose

theorem keys_nil : keys [] = [] := rfl

theorem keys_cons (kv : Str × JVal) (l : List (Str × JVal)) :
    keys (kv :: l) = kv.1 :: keys l := rfl

theorem lookup_updMem (a : Addr) (o : HObj) :
    ∀ (l : List (Addr × HObj)) (b : Addr),
    (updMem l a o).lookup b = if b = a then some o else l.lookup b := by
  intro l
  induction l with
  | nil =>
    intro b
    by_cases h : b = a
    · simp [updMem, List.lookup, h]
    · simp [updMem, List.lookup, h, beq_false_of_ne h]
  | cons ao rest ih =>
    intro b
    obtain ⟨a1, o1⟩ := ao
    simp only [updMem]
    by_cases h1 : a1 = a
    · subst h1
      by_cases h : b = a1
      · simp [List.lookup, h]
      · simp [List.lookup, h, beq_false_of_ne h]
    · simp only [if_neg h1, List.lookup]
      by_cases h : b = a1
      · rw [h]
        simp only [beq_self_eq_true]
        rw [if_neg (fun hc : a1 = a => h1 hc)]
      · simp only [beq_false_of_ne h]
        exact ih b

theorem get_set (h : Heap) (a : Addr) (o : HObj) (b : Addr) :
    (h.set a o).get b = if b = a then some o else h.get b :=
  lookup_updMem a o h.mem b

theorem get_alloc (h : Heap) (o : HObj) (b : Addr) :
    (h.alloc o).1.get b = if b = h.fresh then some o else h.get b :=
  lookup_updMem h.fresh o h.mem b

theorem fresh_set (h : Heap) (a : Addr) (o : HObj) : (h.set a o).fresh = h.fresh := rfl

/-- Frame property of one clone step, given it for the recursive clone. -/
theorem cloneFields_frame
    (rec : Heap → List (Addr × Addr) → JVal → Heap × List (Addr × Addr) × JVal)
    (hrec : ∀ (h : Heap) (memo : List (Addr × Addr)) (v : JVal),
      h.fresh ≤ (rec h memo v).1.fresh ∧
      (∀ a, a < h.fresh → ((rec h memo v).1).get a = h.get a)) :
    ∀ (l : List (Str × JVal)) (h : Heap) (memo : List (Addr × Addr)),
    h.fresh ≤ (cloneFields rec h memo l).1.fresh ∧
    (∀ a, a < h.fresh → ((cloneFields rec h memo l).1).get a = h.get a) := by
  intro l
  induction l with
  | nil => intro h memo; exact ⟨Nat.le_refl _, fun a _ => rfl⟩
  | cons kv rest ihl =>
    intro h memo
    simp only [cloneFields]
    have h1 := hrec h memo kv.2
    have h2 := ihl (rec h memo kv.2).1 (rec h memo kv.2).2.1
    exact ⟨Nat.le_trans h1.1 h2.1,
      fun a ha => by rw [h2.2 a (Nat.lt_of_lt_of_le ha h1.1), h1.2 a ha]⟩

theorem cloneElems_frame
    (rec : Heap → List (Addr × Addr) → JVal → Heap × List (Addr × Addr) × JVal)
    (hrec : ∀ (h : Heap) (memo : List (Addr × Addr)) (v : JVal),
      h.fresh ≤ (rec h memo v).1.fresh ∧
      (∀ a, a < h.fresh → ((rec h memo v).1).get a = h.get a)) :
    ∀ (l : List JVal) (h : Heap) (memo : List (Addr × Addr)),
    h.fresh ≤ (cloneElems rec h memo l).1.fresh ∧
    (∀ a, a < h.fresh → ((cloneElems rec h memo l).1).get a = h.get a) := by
  intro l
  induction l with
  | nil => intro h memo; exact ⟨Nat.le_refl _, fun a _ => rfl⟩
  | cons v rest ihl =>
    intro h memo
    simp only [cloneElems]
    have h1 := hrec h memo v
    have h2 := ihl (rec h memo v).1 (rec h memo v).2.1
    exact ⟨Nat.le_trans h1.1 h2.1,
      fun a ha => by rw [h2.2 a (Nat.lt_of_lt_of_le ha h1.1), h1.2 a ha]⟩

/-- Frame property of the clone: only fresh addresses are written, and the
allocation bound is monotone. -/
theorem scloneV_frame : ∀ (fuel : Nat) (h : Heap) (memo : List (Addr × Addr)) (v : JVal),
    h.fresh ≤ (scloneV fuel h memo v).1.fresh ∧
    (∀ a, a < h.fresh → ((scloneV fuel h memo v).1).get a = h.get a) := by
  intro fuel
  induction fuel with
  | zero => intro h memo v; exact ⟨Nat.le_refl _, fun a _ => rfl⟩
  | succ n ih =>
    intro h memo v
    have hstep : scloneV (n+1) h memo v = scloneStep (scloneV n) h memo v := rfl
    rw [hstep]
    match v with
    | .prim i => exact ⟨Nat.le_refl _, fun a _ => rfl⟩
    | .obj a0 =>
      simp only [scloneStep]
      match hm : memo.lookup a0 with
      | some a2 => exact ⟨Nat.le_refl _, fun a _ => rfl⟩
      | none =>
        have hA1 : (h.alloc (HObj.fields [])).1.fresh = h.fresh + 1 := rfl
        have hA2 : (h.alloc (HObj.fields [])).2 = h.fresh := rfl
        match hg : (h.alloc (HObj.fields [])).1.get a0 with
        | some (.fields l) =>
          simp only [hg]
          have hf := cloneFields_frame (scloneV n) ih l
            (h.alloc (HObj.fields [])).1 ((a0, (h.alloc (HObj.fields [])).2) :: memo)
          obtain ⟨hf1, hf2⟩ := hf
          rw [hA1] at hf1
          constructor
          · rw [fresh_set]; exact Nat.le_trans (Nat.le_succ _) hf1
          · intro a ha
            rw [get_set, if_neg (by intro hc; rw [hc, hA2] at ha; exact Nat.lt_irrefl _ ha)]
            rw [hf2 a (by rw [hA1]; exact Nat.lt_succ_of_lt ha), get_alloc,
              if_neg (Nat.ne_of_lt ha)]
        | some (.elems l) =>
          simp only [hg]
          constructor
          · rw [fresh_set, hA1]; exact Nat.le_succ _
          · intro a ha
            rw [get_set, if_neg (by intro hc; rw [hc, hA2] at ha; exact Nat.lt_irrefl _ ha)]
            rw [get_alloc, if_neg (Nat.ne_of_lt ha)]
        | none =>
          simp only [hg]
          constructor
          · rw [fresh_set, hA1]; exact Nat.le_succ _
          · intro a ha
            rw [get_set, if_neg (by intro hc; rw [hc, hA2] at ha; exact Nat.lt_irrefl _ ha)]
            rw [get_alloc, if_neg (Nat.ne_of_lt ha)]
    | .arr a0 =>
      simp only [scloneStep]
      match hm : memo.lookup a0 with
      | some a2 => exact ⟨Nat.le_refl _, fun a _ => rfl⟩
      | none =>
        have hA1 : (h.alloc (HObj.elems [])).1.fresh = h.fresh + 1 := rfl
        have hA2 : (h.alloc (HObj.elems [])).2 = h.fresh := rfl
        match hg : (h.alloc (HObj.elems [])).1.get a0 with
        | some (.elems l) =>
          simp only [hg]
          have hf := cloneElems_frame (scloneV n) ih l
            (h.alloc (HObj.elems [])).1 ((a0, (h.alloc (HObj.elems [])).2) :: memo)
          obtain ⟨hf1, hf2⟩ := hf
          rw [hA1] at hf1
          constructor
          · rw [fresh_set]; exact Nat.le_trans (Nat.le_succ _) hf1
          · intro a ha
            rw [get_set, if_neg (by intro hc; rw [hc, hA2] at ha; exact Nat.lt_irrefl _ ha)]
            rw [hf2 a (by rw [hA1]; exact Nat.lt_succ_of_lt ha), get_alloc,
              if_neg (Nat.ne_of_lt ha)]
        | some (.fields l) =>
          simp only [hg]
          constructor
          · rw [fresh_set, hA1]; exact Nat.le_succ _
          · intro a ha
            rw [get_set, if_neg (by intro hc; rw [hc, hA2] at ha; exact Nat.lt_irrefl _ ha)]
            rw [get_alloc, if_neg (Nat.ne_of_lt ha)]
        | none =>
          simp only [hg]
          constructor
          · rw [fresh_set, hA1]; exact Nat.le_succ _
          · intro a ha
            rw [get_set, if_neg (by intro hc; rw [hc, hA2] at ha; exact Nat.lt_irrefl _ ha)]
            rw [get_alloc, if_neg (Nat.ne_of_lt ha)]

theorem cloneFields_keys (rec : Heap → List (Addr × Addr) → JVal → Heap × List (Addr × Addr) × JVal) :
    ∀ (l : List (Str × JVal)) (h : Heap) (memo : List (Addr × Addr)),
    (cloneFields rec h memo l).2.2.map Prod.fst = l.map Prod.fst := by
  intro l
  induction l with
  | nil => intro h memo; rfl
  | cons kv rest ih =>
    intro h memo
    simp only [cloneFields, List.map_cons]
    rw [ih]

theorem scloneV_prim : ∀ (fuel : Nat) (h : Heap) (memo : List (Addr × Addr)) (i : Nat),
    (scloneV fuel h memo (.prim i)).2.2 = .prim i := by
  intro fuel h memo i
  cases fuel with
  | zero => rfl
  | succ n => rfl

theorem cloneFields_prim (n : Nat) :
    ∀ (l : List (Str × JVal)) (h : Heap) (memo : List (Addr × Addr)) (k : Str) (i : Nat),
    getKey l k = some (.prim i) →
    getKey (cloneFields (scloneV n) h memo l).2.2 k = some (.prim i) := by
  intro l
  induction l with
  | nil => intro h memo k i hk; exact absurd hk (by simp [getKey])
  | cons kv rest ih =>
    intro h memo k i hk
    obtain ⟨k1, v1⟩ := kv
    simp only [cloneFields]
    simp only [getKey] at hk ⊢
    by_cases he : k1 = k
    · rw [if_pos he] at hk ⊢
      cases hk
      exact congrArg some (scloneV_prim n h memo i)
    · rw [if_neg he] at hk ⊢
      exact ih _ _ k i hk

theorem keys_assign (k : Str) (v : JVal) : ∀ (F : List (Str × JVal)),
    keys (assign F k v) = if k ∈ keys F then keys F else keys F ++ [k] := by
  intro F
  induction F with
  | nil => simp [assign, keys]
  | cons kv rest ih =>
    obtain ⟨k1, v1⟩ := kv
    by_cases he : k1 = k
    · subst he
      simp only [assign, if_true, keys_cons]
      rw [if_pos (List.mem_cons_self _ _)]
    · have hne : k ≠ k1 := fun hc => he hc.symm
      simp only [assign, if_neg he, keys_cons]
      rw [ih]
      by_cases hm : k ∈ keys rest
      · rw [if_pos hm, if_pos (List.mem_cons_of_mem _ hm)]
      · rw [if_neg hm, if_neg (by simp [List.mem_cons, hne, hm])]
        rfl

theorem getKey_assign_self (k : Str) (v : JVal) : ∀ (F : List (Str × JVal)),
    getKey (assign F k v) k = some v := by
  intro F
  induction F with
  | nil => simp [assign, getKey]
  | cons kv rest ih =>
    obtain ⟨k1, v1⟩ := kv
    by_cases he : k1 = k
    · subst he
      simp only [assign, if_true, getKey]
    · simp only [assign, if_neg he, getKey, if_neg he]
      exact ih

theorem getKey_assign_ne (k k2 : Str) (v : JVal) (hne : k2 ≠ k) :
    ∀ (F : List (Str × JVal)), getKey (assign F k v) k2 = getKey F k2 := by
  intro F
  induction F with
  | nil =>
    simp only [assign, getKey]
    rw [if_neg (fun hc : k = k2 => hne hc.symm)]
  | cons kv rest ih =>
    obtain ⟨k1, v1⟩ := kv
    by_cases he : k1 = k
    · subst he
      simp only [assign, if_pos rfl, getKey]
      rw [if_neg (fun hc : k1 = k2 => hne hc.symm),
        if_neg (fun hc : k1 = k2 => hne hc.symm)]
    · simp only [assign, if_neg he, getKey]
      by_cases h2 : k1 = k2
      · rw [if_pos h2, if_pos h2]
      · rw [if_neg h2, if_neg h2]
        exact ih

theorem getKey_notin (k : Str) : ∀ (F : List (Str × JVal)),
    ¬ k ∈ keys F → getKey F k = none := by
  intro F
  induction F with
  | nil => intro h; rfl
  | cons kv rest ih =>
    intro h
    obtain ⟨k1, v1⟩ := kv
    simp only [keys_cons, List.mem_cons, not_or] at h
    simp only [getKey]
    rw [if_neg (fun hc => h.1 hc.symm)]
    exact ih h.2

theorem getKey_assignAll_notin (k : Str) : ∀ (R F : List (Str × JVal)),
    ¬ k ∈ keys R →
    getKey (R.foldl (fun a kv => assign a kv.1 kv.2) F) k = getKey F k := by
  intro R
  induction R with
  | nil => intro F _; rfl
  | cons kv rest ih =>
    intro F h
    simp only [keys_cons, List.mem_cons, not_or] at h
    simp only [List.foldl_cons]
    rw [ih (assign F kv.1 kv.2) h.2]
    exact getKey_assign_ne kv.1 k kv.2 h.1 F

theorem getKey_assignAll_mem (k : Str) (v : JVal) : ∀ (R F : List (Str × JVal)),
    (keys R).Nodup → getKey R k = some v →
    getKey (R.foldl (fun a kv => assign a kv.1 kv.2) F) k = some v := by
  intro R
  induction R with
  | nil => intro F _ hk; exact absurd hk (by simp [getKey])
  | cons kv rest ih =>
    intro F hnd hk
    obtain ⟨k1, v1⟩ := kv
    simp only [keys_cons, List.nodup_cons] at hnd
    simp only [getKey] at hk
    simp only [List.foldl_cons]
    by_cases he : k1 = k
    · subst he
      rw [if_pos rfl] at hk
      injection hk with hv
      subst hv
      rw [getKey_assignAll_notin k1 rest (assign F k1 v1) hnd.1]
      exact getKey_assign_self k1 v1 F
    · rw [if_neg he] at hk
      exact ih (assign F k1 v1) hnd.2 hk

theorem keys_assignAll : ∀ (R F : List (Str × JVal)),
    (keys R).Nodup →
    keys (R.foldl (fun a kv => assign a kv.1 kv.2) F) =
      keys F ++ (keys R).filter (fun x => decide (¬ x ∈ keys F)) := by
  intro R
  induction R with
  | nil =>
    intro F _
    rw [show (keys ([] : List (Str × JVal))).filter
      (fun x => decide (¬ x ∈ keys F)) = [] from rfl]
    rw [List.append_nil]
    rfl
  | cons kv rest ih =>
    intro F hnd
    obtain ⟨k1, v1⟩ := kv
    simp only [keys_cons, List.nodup_cons] at hnd
    simp only [List.foldl_cons, keys_cons]
    rw [ih (assign F k1 v1) hnd.2]
    rw [keys_assign k1 v1 F]
    by_cases hm : k1 ∈ keys F
    · rw [if_pos hm]
      simp only [List.filter_cons]
      rw [if_neg (by simp [hm])]
    · rw [if_neg hm]
      simp only [List.filter_cons]
      rw [if_pos (by simp [hm])]
      rw [List.filter_congr ?_]
      · rw [List.append_assoc]
        rfl
      · intro x hx
        have hxk : ¬ x = k1 := fun hc => hnd.1 (hc ▸ hx)
        simp [keys_cons, List.mem_append, List.mem_cons, hxk]

end Compose
namespace Compose

theorem extendFold (cA : Addr) : ∀ (R : List (Str × JVal)) (hh : Heap) (F : List (Str × JVal)),
    hh.get cA = some (.fields F) →
    (R.foldl (fun hh kv => hh.set cA (.fields (assign (fieldsAt hh cA) kv.1 kv.2))) hh).get cA
        = some (.fields (R.foldl (fun a kv => assign a kv.1 kv.2) F)) ∧
    (∀ a, a ≠ cA →
      (R.foldl (fun hh kv => hh.set cA (.fields (assign (fieldsAt hh cA) kv.1 kv.2))) hh).get a
        = hh.get a) := by
  intro R
  induction R with
  | nil => intro hh F hget; exact ⟨hget, fun a _ => rfl⟩
  | cons kv rest ih =>
    intro hh F hget
    simp only [List.foldl_cons]
    have hfa : fieldsAt hh cA = F := by rw [fieldsAt, hget]
    rw [hfa]
    have hset : (hh.set cA (.fields (assign F kv.1 kv.2))).get cA
        = some (.fields (assign F kv.1 kv.2)) := by
      rw [get_set, if_pos rfl]
    have := ih (hh.set cA (.fields (assign F kv.1 kv.2))) (assign F kv.1 kv.2) hset
    refine ⟨this.1, fun a ha => ?_⟩
    rw [this.2 a ha, get_set, if_neg ha]

theorem extend_spec (h : Heap) (langs gA redefA : Addr) (id : Str)
    (gF : List (Str × JVal))
    (hid : getKey (fieldsAt h langs) id = some (.obj gA))
    (hg : h.get gA = some (.fields gF))
    (hlt : gA < h.fresh) :
    extend h langs id (.obj redefA) =
      ((fieldsAt h redefA).foldl
         (fun hh kv => hh.set h.fresh (.fields (assign (fieldsAt hh h.fresh) kv.1 kv.2)))
         ((cloneFields (scloneV ((refAddrs h).length + 1)) (h.alloc (HObj.fields [])).1
             ((gA, h.fresh) :: []) gF).1.set h.fresh
           (.fields (cloneFields (scloneV ((refAddrs h).length + 1)) (h.alloc (HObj.fields [])).1
             ((gA, h.fresh) :: []) gF).2.2)),
       .obj h.fresh) := by
  have hK : (refAddrs h).length + 2 = ((refAddrs h).length + 1) + 1 := rfl
  have hga : (h.alloc (HObj.fields [])).1.get gA = some (.fields gF) := by
    rw [get_alloc, if_neg (Nat.ne_of_lt hlt)]
    exact hg
  have hstep : scloneV ((refAddrs h).length + 2) h [] (.obj gA) =
      scloneStep (scloneV ((refAddrs h).length + 1)) h [] (.obj gA) := rfl
  have hsc : scloneV ((refAddrs h).length + 2) h [] (.obj gA) =
      ((cloneFields (scloneV ((refAddrs h).length + 1)) (h.alloc (HObj.fields [])).1
          ((gA, h.fresh) :: []) gF).1.set h.fresh
        (.fields (cloneFields (scloneV ((refAddrs h).length + 1)) (h.alloc (HObj.fields [])).1
          ((gA, h.fresh) :: []) gF).2.2),
       (cloneFields (scloneV ((refAddrs h).length + 1)) (h.alloc (HObj.fields [])).1
          ((gA, h.fresh) :: []) gF).2.1,
       .obj h.fresh) := by
    rw [hstep]
    simp only [scloneStep]
    rw [show (List.lookup gA ([] : List (Addr × Addr))) = none from rfl]
    simp only [hga]
    rfl
  simp only [extend, hid, Option.getD_some, hsc]
  rfl

/-- C6: for an id present in the registry, `extend(id, redef)` returns a
fresh deep clone of the grammar under `id` in which every key of `redef`
present in the original keeps its original iteration position with the
`redef` value, every new key of `redef` is appended at the end in order, the
remaining entries keep their (cloned) values, and the heap below the old
allocation bound — in particular the original grammar and the registry — is
untouched; on `{ base: { a, b } }`, `extend("base", { a: A, c })` yields
iteration order `a, b, c` with `a`'s pattern replaced. -/
theorem C6_extend_clone :
    (∀ (h : Heap) (langs gA redefA : Addr) (id : Str) (gF : List (Str × JVal)),
      getKey (fieldsAt h langs) id = some (.obj gA) →
      h.get gA = some (.fields gF) →
      gA < h.fresh →
      (keys (fieldsAt h redefA)).Nodup →
      ∃ cA, (extend h langs id (.obj redefA)).2 = .obj cA ∧
        cA = h.fresh ∧
        (∀ a, a < h.fresh → (extend h langs id (.obj redefA)).1.get a = h.get a) ∧
        keys (fieldsAt (extend h langs id (.obj redefA)).1 cA) =
          keys gF ++ (keys (fieldsAt h redefA)).filter
            (fun x => decide (¬ x ∈ keys gF)) ∧
        (∀ k v, getKey (fieldsAt h redefA) k = some v →
          getKey (fieldsAt (extend h langs id (.obj redefA)).1 cA) k = some v) ∧
        (∀ k i, ¬ k ∈ keys (fieldsAt h redefA) → getKey gF k = some (.prim i) →
          getKey (fieldsAt (extend h langs id (.obj redefA)).1 cA) k
            = some (.prim i))) ∧
    ((extend
        ⟨[(10, .fields [("base".toList, .obj 20)]),
          (20, .fields [("a".toList, .prim 1), ("b".toList, .prim 2)]),
          (30, .fields [("a".toList, .prim 9), ("c".toList, .prim 3)])], 40⟩
        10 "base".toList (.obj 30)).2 = .obj 40 ∧
     fieldsAt (extend
        ⟨[(10, .fields [("base".toList, .obj 20)]),
          (20, .fields [("a".toList, .prim 1), ("b".toList, .prim 2)]),
          (30, .fields [("a".toList, .prim 9), ("c".toList, .prim 3)])], 40⟩
        10 "base".toList (.obj 30)).1 40 =
       [("a".toList, .prim 9), ("b".toList, .prim 2), ("c".toList, .prim 3)] ∧
     (extend
        ⟨[(10, .fields [("base".toList, .obj 20)]),
          (20, .fields [("a".toList, .prim 1), ("b".toList, .prim 2)]),
          (30, .fields [("a".toList, .prim 9), ("c".toList, .prim 3)])], 40⟩
        10 "base".toList (.obj 30)).1.get 20 =
       some (.fields [("a".toList, .prim 1), ("b".toList, .prim 2)]) ∧
     getKey (fieldsAt (extend
        ⟨[(10, .fields [("base".toList, .obj 20)]),
          (20, .fields [("a".toList, .prim 1), ("b".toList, .prim 2)]),
          (30, .fields [("a".toList, .prim 9), ("c".toList, .prim 3)])], 40⟩
        10 "base".toList (.obj 30)).1 10) "base".toList = some (.obj 20)) := by
  constructor
  · intro h langs gA redefA id gF hid hg hlt hnd
    rw [extend_spec h langs gA redefA id gF hid hg hlt]
    set n := (refAddrs h).length + 1 with hn
    set h0 := (h.alloc (HObj.fields [])).1 with hh0
    set cf := cloneFields (scloneV n) h0 ((gA, h.fresh) :: []) gF with hcf
    set h1 := cf.1.set h.fresh (.fields cf.2.2) with hh1
    set R := fieldsAt h redefA with hR
    have hcfframe : h0.fresh ≤ cf.1.fresh ∧
        (∀ a, a < h0.fresh → cf.1.get a = h0.get a) :=
      cloneFields_frame (scloneV n) (scloneV_frame n) gF h0 ((gA, h.fresh) :: [])
    have hh1get : h1.get h.fresh = some (.fields cf.2.2) := by
      rw [hh1, get_set, if_pos rfl]
    have hfold := extendFold h.fresh R h1 cf.2.2 hh1get
    refine ⟨h.fresh, rfl, rfl, ?_, ?_, ?_, ?_⟩
    · intro a ha
      simp only
      rw [hfold.2 a (Nat.ne_of_lt ha)]
      rw [hh1, get_set, if_neg (Nat.ne_of_lt ha)]
      rw [hcfframe.2 a (by rw [hh0]; exact Nat.lt_succ_of_lt ha)]
      rw [hh0, get_alloc, if_neg (Nat.ne_of_lt ha)]
    · simp only
      rw [show fieldsAt (R.foldl (fun hh kv =>
            hh.set h.fresh (.fields (assign (fieldsAt hh h.fresh) kv.1 kv.2))) h1) h.fresh
          = R.foldl (fun a kv => assign a kv.1 kv.2) cf.2.2 from by
        rw [fieldsAt, hfold.1]]
      rw [keys_assignAll R cf.2.2 hnd]
      rw [show keys cf.2.2 = keys gF from by
        rw [hcf]
        exact cloneFields_keys (scloneV n) gF h0 ((gA, h.fresh) :: [])]
    · intro k v hk
      simp only
      rw [show fieldsAt (R.foldl (fun hh kv =>
            hh.set h.fresh (.fields (assign (fieldsAt hh h.fresh) kv.1 kv.2))) h1) h.fresh
          = R.foldl (fun a kv => assign a kv.1 kv.2) cf.2.2 from by
        rw [fieldsAt, hfold.1]]
      exact getKey_assignAll_mem k v R cf.2.2 hnd hk
    · intro k i hkn hk
      simp only
      rw [show fieldsAt (R.foldl (fun hh kv =>
            hh.set h.fresh (.fields (assign (fieldsAt hh h.fresh) kv.1 kv.2))) h1) h.fresh
          = R.foldl (fun a kv => assign a kv.1 kv.2) cf.2.2 from by
        rw [fieldsAt, hfold.1]]
      rw [getKey_assignAll_notin k R cf.2.2 hkn]
      exact cloneFields_prim n gF h0 ((gA, h.fresh) :: []) k i hk
  · decide

/-- C6 witness: the general clause applied to the example registry. -/
theorem C6_extend_clone_witness :
    getKey
      (fieldsAt
        ⟨[(10, .fields [("base".toList, .obj 20)]),
          (20, .fields [("a".toList, .prim 1), ("b".toList, .prim 2)]),
          (30, .fields [("a".toList, .prim 9), ("c".toList, .prim 3)])], 40⟩ 10)
      "base".toList = some (.obj 20) ∧
    (∃ cA, (extend
        ⟨[(10, .fields [("base".toList, .obj 20)]),
          (20, .fields [("a".toList, .prim 1), ("b".toList, .prim 2)]),
          (30, .fields [("a".toList, .prim 9), ("c".toList, .prim 3)])], 40⟩
        10 "base".toList (.obj 30)).2 = .obj cA ∧
      cA = 40 ∧
      (∀ a, a < 40 → (extend
        ⟨[(10, .fields [("base".toList, .obj 20)]),
          (20, .fields [("a".toList, .prim 1), ("b".toList, .prim 2)]),
          (30, .fields [("a".toList, .prim 9), ("c".toList, .prim 3)])], 40⟩
        10 "base".toList (.obj 30)).1.get a =
        (Heap.mk [(10, .fields [("base".toList, .obj 20)]),
          (20, .fields [("a".toList, .prim 1), ("b".toList, .prim 2)]),
          (30, .fields [("a".toList, .prim 9), ("c".toList, .prim 3)])] 40).get a) ∧
      keys (fieldsAt (extend
        ⟨[(10, .fields [("base".toList, .obj 20)]),
          (20, .fields [("a".toList, .prim 1), ("b".toList, .prim 2)]),
          (30, .fields [("a".toList, .prim 9), ("c".toList, .prim 3)])], 40⟩
        10 "base".toList (.obj 30)).1 cA) =
        keys [("a".toList, (JVal.prim 1 : JVal)), ("b".toList, .prim 2)] ++
          (keys [("a".toList, (JVal.prim 9 : JVal)), ("c".toList, .prim 3)]).filter
            (fun x => decide (¬ x ∈ keys [("a".toList, (JVal.prim 1 : JVal)), ("b".toList, .prim 2)])) ∧
      (∀ k v, getKey (fieldsAt
        ⟨[(10, .fields [("base".toList, .obj 20)]),
          (20, .fields [("a".toList, .prim 1), ("b".toList, .prim 2)]),
          (30, .fields [("a".toList, .prim 9), ("c".toList, .prim 3)])], 40⟩ 30) k = some v →
        getKey (fieldsAt (extend
        ⟨[(10, .fields [("base".toList, .obj 20)]),
          (20, .fields [("a".toList, .prim 1), ("b".toList, .prim 2)]),
          (30, .fields [("a".toList, .prim 9), ("c".toList, .prim 3)])], 40⟩
        10 "base".toList (.obj 30)).1 cA) k = some v) ∧
      (∀ k i, ¬ k ∈ keys (fieldsAt
        ⟨[(10, .fields [("base".toList, .obj 20)]),
          (20, .fields [("a".toList, .prim 1), ("b".toList, .prim 2)]),
          (30, .fields [("a".toList, .prim 9), ("c".toList, .prim 3)])], 40⟩ 30) →
        getKey [("a".toList, (JVal.prim 1 : JVal)), ("b".toList, .prim 2)] k = some (.prim i) →
        getKey (fieldsAt (extend
        ⟨[(10, .fields [("base".toList, .obj 20)]),
          (20, .fields [("a".toList, .prim 1), ("b".toList, .prim 2)]),
          (30, .fields [("a".toList, .prim 9), ("c".toList, .prim 3)])], 40⟩
        10 "base".toList (.obj 30)).1 cA) k = some (.prim i))) :=
  ⟨by decide,
   C6_extend_clone.1
     ⟨[(10, .fields [("base".toList, .obj 20)]),
       (20, .fields [("a".toList, .prim 1), ("b".toList, .prim 2)]),
       (30, .fields [("a".toList, .prim 9), ("c".toList, .prim 3)])], 40⟩
     10 20 30 "base".toList [("a".toList, .prim 1), ("b".toList, .prim 2)]
     (by decide) (by decide) (by decide) (by decide)⟩

end Compose
namespace Compose

theorem lookup_mem (a : Addr) (o : HObj) :
    ∀ l : List (Addr × HObj), l.lookup a = some o → (a, o) ∈ l := by
  intro l
  induction l with
  | nil => intro hc; simp [List.lookup] at hc
  | cons p rest ih =>
    obtain ⟨a1, o1⟩ := p
    intro hl
    rw [List.lookup] at hl
    by_cases hb : a = a1
    · subst hb
      simp only [beq_self_eq_true] at hl
      cases hl
      exact List.mem_cons_self _ _
    · simp only [beq_false_of_ne hb] at hl
      exact List.mem_cons_of_mem _ (ih hl)

theorem mem_refAddrs (h : Heap) (b : Addr) :
    b ∈ refAddrs h ↔ ∃ p ∈ h.mem, b ∈ objAddrs p.2 := by
  unfold refAddrs
  constructor
  · intro hb
    rcases List.mem_flatten.mp hb with ⟨l, hl, hbl⟩
    rcases List.mem_map.mp hl with ⟨p, hp, rfl⟩
    exact ⟨p, hp, hbl⟩
  · rintro ⟨p, hp, hb⟩
    exact List.mem_flatten.mpr ⟨objAddrs p.2, List.mem_map.mpr ⟨p, hp, rfl⟩, hb⟩

theorem mem_objAddrs (o : HObj) (b : Addr) :
    b ∈ objAddrs o ↔ ∃ kv ∈ entriesOf o, b ∈ valAddrs kv.2 := by
  unfold objAddrs
  constructor
  · intro hb
    rcases List.mem_flatten.mp hb with ⟨l, hl, hbl⟩
    rcases List.mem_map.mp hl with ⟨kv, hkv, rfl⟩
    exact ⟨kv, hkv, hbl⟩
  · rintro ⟨kv, hkv, hb⟩
    exact List.mem_flatten.mpr ⟨valAddrs kv.2, List.mem_map.mpr ⟨kv, hkv, rfl⟩, hb⟩

theorem updMem_mem (a : Addr) (o : HObj) :
    ∀ (l : List (Addr × HObj)) (p : Addr × HObj),
      p ∈ updMem l a o → p = (a, o) ∨ p ∈ l := by
  intro l
  induction l with
  | nil =>
    intro p hp
    simp [updMem] at hp
    exact Or.inl hp
  | cons q rest ih =>
    intro p hp
    obtain ⟨a1, o1⟩ := q
    rw [updMem] at hp
    by_cases h1 : a1 = a
    · rw [if_pos h1] at hp
      rcases List.mem_cons.mp hp with h | h
      · exact Or.inl h
      · exact Or.inr (List.mem_cons_of_mem _ h)
    · rw [if_neg h1] at hp
      rcases List.mem_cons.mp hp with h | h
      · exact Or.inr (List.mem_cons.mpr (Or.inl h))
      · rcases ih p h with h2 | h2
        · exact Or.inl h2
        · exact Or.inr (List.mem_cons_of_mem _ h2)

theorem child_in_refAddrs (h : Heap) (ca : Addr) (o : HObj) (kv : Str × JVal) (b : Addr)
    (ho : h.get ca = some o) (hkv : kv ∈ entriesOf o) (hb : b ∈ valAddrs kv.2) :
    b ∈ refAddrs h := by
  refine (mem_refAddrs h b).mpr ⟨(ca, o), lookup_mem ca o h.mem ho, ?_⟩
  exact (mem_objAddrs o b).mpr ⟨kv, hkv, hb⟩

theorem entriesAt_get_some (h : Heap) (a : Addr) (o : HObj) (ho : h.get a = some o) :
    entriesAt h a = entriesOf o := by
  unfold entriesAt
  rw [ho]

theorem entriesAt_set (h : Heap) (a : Addr) (o : HObj) (b : Addr) :
    entriesAt (h.set a o) b = if b = a then entriesOf o else entriesAt h b := by
  unfold entriesAt
  rw [get_set]
  by_cases hb : b = a
  · rw [if_pos hb, if_pos hb]
  · rw [if_neg hb, if_neg hb]

theorem cellEntries_container (h : Heap) (v : JVal) (a : Addr)
    (hc : containerAddr v = some a) : cellEntries h v = entriesAt h a := by
  unfold cellEntries entriesAt
  rw [hc]

theorem cellEntries_no_container (h : Heap) (v : JVal)
    (hc : containerAddr v = none) : cellEntries h v = [] := by
  unfold cellEntries
  rw [hc]

theorem valAddrs_no_container (v : JVal) (hc : containerAddr v = none) :
    valAddrs v = [] := by
  cases v with
  | obj a => exact absurd hc (by simp [containerAddr])
  | arr a => exact absurd hc (by simp [containerAddr])
  | prim i => rfl

theorem valAddrs_container (v : JVal) (a : Addr) (hc : containerAddr v = some a) :
    valAddrs v = [a] := by
  cases v with
  | obj b =>
    cases hc
    rfl
  | arr b =>
    cases hc
    rfl
  | prim i => exact absurd hc (by simp [containerAddr])

end Compose
namespace Compose

theorem entriesOf_setEntryAt_get? (o : HObj) (i : Nat) (nv : JVal) (j : Nat) :
    (entriesOf (setEntryAt o i nv)).get? j =
      if j = i then ((entriesOf o).get? i).map (fun kv => (kv.1, nv))
      else (entriesOf o).get? j := by
  cases o with
  | fields l =>
    simp only [setEntryAt, entriesOf, List.get?_eq_getElem?, List.getElem?_map,
      List.getElem?_enum]
    by_cases hj : j = i
    · subst hj
      cases hl : l[j]? with
      | none => simp [hl]
      | some kv => simp [hl]
    · cases hl : l[j]? with
      | none => simp [hl, hj]
      | some kv => simp [hl, hj]
  | elems l =>
    simp only [setEntryAt, entriesOf, List.get?_eq_getElem?, List.getElem?_map,
      List.getElem?_enum]
    by_cases hj : j = i
    · subst hj
      cases hl : l[j]? with
      | none => simp [hl]
      | some v => simp [hl]
    · cases hl : l[j]? with
      | none => simp [hl, hj]
      | some v => simp [hl, hj]

theorem setEntry_fresh (h : Heap) (cv : JVal) (i : Nat) (nv : JVal) :
    (setEntry h cv i nv).fresh = h.fresh := by
  cases hc : containerAddr cv with
  | none => simp [setEntry, hc]
  | some a =>
    cases ho : h.get a with
    | none => simp [setEntry, hc, ho]
    | some o => simp [setEntry, hc, ho, fresh_set]

theorem setEntry_entriesAt (h : Heap) (cv : JVal) (ca : Addr) (o : HObj)
    (i : Nat) (nv : JVal) (b : Addr)
    (hca : containerAddr cv = some ca) (ho : h.get ca = some o) :
    entriesAt (setEntry h cv i nv) b =
      if b = ca then entriesOf (setEntryAt o i nv) else entriesAt h b := by
  have hs : setEntry h cv i nv = h.set ca (setEntryAt o i nv) := by
    simp [setEntry, hca, ho]
  rw [hs, entriesAt_set]

end Compose
namespace Compose

theorem entryRelO_refl (old newV : JVal) (inside : Str) (x : Option (Str × JVal)) :
    entryRelO old newV inside x x := by
  cases x with
  | none => exact trivial
  | some kv => exact ⟨rfl, Or.inl rfl⟩

theorem HRel_refl (old newV : JVal) (inside : Str) (h : Heap) :
    HRel old newV inside h h :=
  ⟨rfl, fun a j => entryRelO_refl old newV inside _⟩

theorem HRel_trans (old newV : JVal) (inside : Str) (hON : ¬ newV = old)
    {h1 h2 h3 : Heap} (r12 : HRel old newV inside h1 h2)
    (r23 : HRel old newV inside h2 h3) : HRel old newV inside h1 h3 := by
  refine ⟨r23.1.trans r12.1, fun a j => ?_⟩
  have e12 := r12.2 a j
  have e23 := r23.2 a j
  cases hx : (entriesAt h1 a).get? j with
  | none =>
    rw [hx] at e12
    cases hy : (entriesAt h2 a).get? j with
    | none =>
      rw [hy] at e23
      cases hz : (entriesAt h3 a).get? j with
      | none => exact trivial
      | some kv3 => rw [hz] at e23; exact False.elim e23
    | some kv2 => rw [hy] at e12; exact False.elim e12
  | some kv1 =>
    rw [hx] at e12
    cases hy : (entriesAt h2 a).get? j with
    | none => rw [hy] at e12; exact False.elim e12
    | some kv2 =>
      rw [hy] at e12 e23
      cases hz : (entriesAt h3 a).get? j with
      | none => rw [hz] at e23; exact False.elim e23
      | some kv3 =>
        rw [hz] at e23
        refine ⟨e23.1.trans e12.1, ?_⟩
        rcases e12.2 with hv | ⟨ho1, hn1, hi1⟩
        · rcases e23.2 with hw | ⟨ho2, hn2, hi2⟩
          · exact Or.inl (hw.trans hv)
          · exact Or.inr ⟨hv.symm.trans ho2, hn2, fun hc => hi2 (e12.1.trans hc)⟩
        · rcases e23.2 with hw | ⟨ho2, hn2, hi2⟩
          · exact Or.inr ⟨ho1, hw.trans hn1, hi1⟩
          · exact absurd (hn1.symm.trans ho2) hON

theorem HRel_none_iff {old newV : JVal} {inside : Str} {h1 h2 : Heap}
    (r : HRel old newV inside h1 h2) (a : Addr) (j : Nat) :
    (entriesAt h1 a).get? j = none ↔ (entriesAt h2 a).get? j = none := by
  have e := r.2 a j
  constructor
  · intro hx
    rw [hx] at e
    cases hy : (entriesAt h2 a).get? j with
    | none => rfl
    | some kv => rw [hy] at e; exact False.elim e
  · intro hy
    rw [hy] at e
    cases hx : (entriesAt h1 a).get? j with
    | none => rfl
    | some kv => rw [hx] at e; exact False.elim e

theorem HRel_length {old newV : JVal} {inside : Str} {h1 h2 : Heap}
    (r : HRel old newV inside h1 h2) (a : Addr) :
    (entriesAt h2 a).length = (entriesAt h1 a).length := by
  apply Nat.le_antisymm
  · exact List.get?_eq_none.mp ((HRel_none_iff r a _).mp
      (List.get?_eq_none.mpr (Nat.le_refl _)))
  · exact List.get?_eq_none.mp ((HRel_none_iff r a _).mpr
      (List.get?_eq_none.mpr (Nat.le_refl _)))

theorem HRel_stable {old newV : JVal} {inside : Str} {h1 h2 : Heap}
    (r : HRel old newV inside h1 h2) {a : Addr} {j : Nat} {kv : Str × JVal}
    (hx : (entriesAt h1 a).get? j = some kv) (hs : ¬ kv.2 = old ∨ kv.1 = inside) :
    (entriesAt h2 a).get? j = some kv := by
  have e := r.2 a j
  rw [hx] at e
  cases hy : (entriesAt h2 a).get? j with
  | none => rw [hy] at e; exact False.elim e
  | some kv2 =>
    rw [hy] at e
    rcases e with ⟨hk, hv | ⟨ho, hn, hi⟩⟩
    · have hkk : kv2 = kv := by
        obtain ⟨k1, v1⟩ := kv
        obtain ⟨k2, v2⟩ := kv2
        dsimp only at hk hv
        rw [hk, hv]
      rw [hkk]
    · rcases hs with hs | hs
      · exact absurd ho hs
      · exact absurd hs hi

theorem HRel_good {old newV : JVal} {inside : Str} {h1 h2 : Heap}
    (hON : ¬ newV = old) (r : HRel old newV inside h1 h2) (a : Addr)
    (hg : ∀ kv ∈ entriesAt h1 a, entGood old inside kv) :
    ∀ kv2 ∈ entriesAt h2 a, entGood old inside kv2 := by
  intro kv2 hmem h2old
  rcases List.mem_iff_get?.mp hmem with ⟨j, hj⟩
  have e := r.2 a j
  rw [hj] at e
  cases hx : (entriesAt h1 a).get? j with
  | none => rw [hx] at e; exact False.elim e
  | some kv =>
    rw [hx] at e
    rcases e with ⟨hk, hv | ⟨ho, hn, hi⟩⟩
    · have hold : kv.2 = old := hv.symm.trans h2old
      exact hk.trans (hg kv (List.mem_iff_get?.mpr ⟨j, hx⟩) hold)
    · exact absurd (hn.symm.trans h2old) hON

theorem HRel_stableNode {old newV : JVal} {inside : Str} {h1 h2 : Heap}
    (r : HRel old newV inside h1 h2) (a : Addr)
    (hg : ∀ kv ∈ entriesAt h1 a, entGood old inside kv) :
    entriesAt h2 a = entriesAt h1 a := by
  apply List.ext_get?
  intro j
  cases hx : (entriesAt h1 a).get? j with
  | none => exact (HRel_none_iff r a j).mp hx
  | some kv =>
    have hgk := hg kv (List.mem_iff_get?.mpr ⟨j, hx⟩)
    by_cases ho : kv.2 = old
    · exact HRel_stable r hx (Or.inr (hgk ho))
    · exact HRel_stable r hx (Or.inl ho)

theorem HRel_setEntry (old newV : JVal) (inside : Str) (h : Heap) (cv : JVal)
    (ca : Addr) (o : HObj) (i : Nat) (k : Str)
    (hca : containerAddr cv = some ca) (ho : h.get ca = some o)
    (hi : (entriesOf o).get? i = some (k, old)) (hk : ¬ k = inside) :
    HRel old newV inside h (setEntry h cv i newV) := by
  refine ⟨setEntry_fresh h cv i newV, fun a j => ?_⟩
  rw [setEntry_entriesAt h cv ca o i newV a hca ho]
  by_cases hb : a = ca
  · rw [if_pos hb, entriesOf_setEntryAt_get?]
    by_cases hj : j = i
    · rw [if_pos hj, hi]
      rw [hb, hj, entriesAt_get_some h ca o ho, hi]
      exact ⟨rfl, Or.inr ⟨rfl, rfl, hk⟩⟩
    · rw [if_neg hj]
      rw [hb, entriesAt_get_some h ca o ho]
      exact entryRelO_refl _ _ _ _
  · rw [if_neg hb]
    exact entryRelO_refl _ _ _ _

theorem refIn_setEntry (h : Heap) (cv : JVal) (i : Nat) (nv : JVal) (U : Finset Addr)
    (href : refIn h U) (hnv : ∀ b ∈ valAddrs nv, b ∈ U) :
    refIn (setEntry h cv i nv) U := by
  cases hc : containerAddr cv with
  | none =>
    intro b hb
    apply href
    rw [show setEntry h cv i nv = h from by simp [setEntry, hc]] at hb
    exact hb
  | some ca =>
    cases ho : h.get ca with
    | none =>
      intro b hb
      apply href
      rw [show setEntry h cv i nv = h from by simp [setEntry, hc, ho]] at hb
      exact hb
    | some o =>
      have hs : setEntry h cv i nv = h.set ca (setEntryAt o i nv) := by
        simp [setEntry, hc, ho]
      rw [hs]
      intro b hb
      rcases (mem_refAddrs _ b).mp hb with ⟨p, hp, hbo⟩
      rcases updMem_mem ca (setEntryAt o i nv) h.mem p hp with hpe | hpm
      · subst hpe
        rcases (mem_objAddrs _ b).mp hbo with ⟨kv, hkv, hbv⟩
        rcases List.mem_iff_get?.mp hkv with ⟨j, hj⟩
        rw [entriesOf_setEntryAt_get?] at hj
        by_cases hji : j = i
        · rw [if_pos hji] at hj
          cases hoi : (entriesOf o).get? i with
          | none => rw [hoi] at hj; exact absurd hj (by simp)
          | some kv0 =>
            rw [hoi] at hj
            have hkv0 : kv = (kv0.1, nv) := by injection hj with h2; exact h2.symm
            rw [hkv0] at hbv
            exact hnv b hbv
        · rw [if_neg hji] at hj
          exact href b (child_in_refAddrs h ca o kv b ho
            (List.mem_iff_get?.mpr ⟨j, hj⟩) hbv)
      · exact href b ((mem_refAddrs h b).mpr ⟨p, hpm, hbo⟩)

theorem getKey_rel_aux (old newV : JVal) (inside : Str) :
    ∀ (l1 l2 : List (Str × JVal)),
      (∀ j, entryRelO old newV inside (l1.get? j) (l2.get? j)) →
      ∀ w, getKey l1 inside = some w → getKey l2 inside = some w := by
  intro l1
  induction l1 with
  | nil =>
    intro l2 hj w hg
    exact absurd hg (by simp [getKey])
  | cons kv rest ih =>
    intro l2 hj w hg
    cases l2 with
    | nil => exact False.elim (hj 0)
    | cons kv2 rest2 =>
      obtain ⟨k1, v1⟩ := kv
      obtain ⟨k2, v2⟩ := kv2
      obtain ⟨hk, hv⟩ := hj 0
      dsimp only at hk hv
      rw [getKey] at hg ⊢
      by_cases hki : k1 = inside
      · rw [if_pos hki] at hg
        rw [if_pos (hk.trans hki)]
        rcases hv with hv | ⟨hvo, hvn, hni⟩
        · rw [hv]
          exact hg
        · exact absurd hki hni
      · rw [if_neg hki] at hg
        rw [if_neg (fun hc => hki (hk.symm.trans hc))]
        exact ih rest2 (fun j => hj (j+1)) w hg

theorem HRel_getKey_inside {old newV : JVal} {inside : Str} {h1 h2 : Heap}
    (r : HRel old newV inside h1 h2) (a : Addr) (w : JVal)
    (hg : getKey (entriesAt h1 a) inside = some w) :
    getKey (entriesAt h2 a) inside = some w :=
  getKey_rel_aux old newV inside _ _ (fun j => r.2 a j) w hg

end Compose
namespace Compose

theorem entriesAt_none (h : Heap) (a : Addr) (ho : h.get a = none) :
    entriesAt h a = [] := by
  unfold entriesAt
  rw [ho]

theorem dfsEntries_flat_case (old newV : JVal) (inside : Str) (U : Finset Addr)
    (hON : ¬ newV = old) (f rem : Nat)
    (ih : ∀ (h : Heap) (cv : JVal) (i : Nat) (vis : List Addr) (h2 : Heap)
      (vis2 : List Addr),
      dfsEntries (cbR old newV inside) (DFS (cbR old newV inside) f) rem h cv i vis
        = (h2, vis2) →
      dfsConc old newV inside U f rem h cv i vis h2 vis2)
    (h h1 : Heap) (cv : JVal) (ca : Addr) (i : Nat) (vis : List Addr)
    (k : Str) (v1 : JVal) (h2 : Heap) (vis2 : List Addr)
    (hca : containerAddr cv = some ca)
    (hrel1 : HRel old newV inside h h1)
    (href1 : refIn h U → refIn h1 U)
    (hv1 : (cellEntries h1 cv).get? i = some (k, v1))
    (hgood1 : entGood old inside (k, v1))
    (hchild : ∀ b ∈ valAddrs v1, b ∈ vis)
    (hstep : dfsEntries (cbR old newV inside) (DFS (cbR old newV inside) f)
      rem h1 cv (i+1) vis = (h2, vis2)) :
    dfsConc old newV inside U f (rem+1) h cv i vis h2 vis2 := by
  have hconc := ih h1 cv (i+1) vis h2 vis2 hstep
  refine ⟨HRel_trans old newV inside hON hrel1 hconc.1,
    fun b hb => hconc.2.1 b hb, fun href hcard => ?_⟩
  have heavy := hconc.2.2 (href1 href) hcard
  refine ⟨heavy.1, ?_, heavy.2.2⟩
  intro j kv hij hjlt hget
  by_cases hji : j = i
  · subst hji
    have hstab : (cellEntries h2 cv).get? j = some (k, v1) := by
      rw [cellEntries_container h2 cv ca hca]
      apply HRel_stable hconc.1
      · rw [← cellEntries_container h1 cv ca hca]
        exact hv1
      · by_cases hvo : v1 = old
        · exact Or.inr (hgood1 hvo)
        · exact Or.inl hvo
    rw [hstab] at hget
    injection hget with hkv
    subst hkv
    exact ⟨hgood1, fun b hb => hconc.2.1 b (hchild b hb)⟩
  · exact heavy.2.1 j kv (by omega) (by omega) hget

theorem dfsEntries_rec_case (old newV : JVal) (inside : Str) (U : Finset Addr)
    (hON : ¬ newV = old) (f rem : Nat)
    (hrec : DFSok old newV inside U f)
    (ih : ∀ (h : Heap) (cv : JVal) (i : Nat) (vis : List Addr) (h2 : Heap)
      (vis2 : List Addr),
      dfsEntries (cbR old newV inside) (DFS (cbR old newV inside) f) rem h cv i vis
        = (h2, vis2) →
      dfsConc old newV inside U f rem h cv i vis h2 vis2)
    (h h1 : Heap) (cv : JVal) (ca : Addr) (i : Nat) (vis : List Addr)
    (k : Str) (v1 : JVal) (a : Addr) (hr1 : Heap) (vr1 : List Addr)
    (h2 : Heap) (vis2 : List Addr)
    (hca : containerAddr cv = some ca)
    (hrel1 : HRel old newV inside h h1)
    (href1 : refIn h U → refIn h1 U)
    (hv1 : (cellEntries h1 cv).get? i = some (k, v1))
    (hgood1 : entGood old inside (k, v1))
    (hcp : containerAddr v1 = some a)
    (hanv : a ∉ vis)
    (hre : DFS (cbR old newV inside) f h1 v1 (a :: vis) = (hr1, vr1))
    (hstep : dfsEntries (cbR old newV inside) (DFS (cbR old newV inside) f)
      rem hr1 cv (i+1) vr1 = (h2, vis2)) :
    dfsConc old newV inside U f (rem+1) h cv i vis h2 vis2 := by
  have hdfs := hrec h1 v1 (a :: vis) hr1 vr1 hre
  have hconc := ih hr1 cv (i+1) vr1 h2 vis2 hstep
  have hsub1 : ∀ b ∈ vis, b ∈ vis2 :=
    fun b hb => hconc.2.1 b (hdfs.2.1 b (List.mem_cons_of_mem a hb))
  refine ⟨HRel_trans old newV inside hON hrel1
    (HRel_trans old newV inside hON hdfs.1 hconc.1), hsub1, fun href hcard => ?_⟩
  have hrefh1 : refIn h1 U := href1 href
  have hoo : ∃ o1, h1.get ca = some o1 := by
    cases hg : h1.get ca with
    | none =>
      rw [cellEntries_container h1 cv ca hca, entriesAt_none h1 ca hg] at hv1
      simp at hv1
    | some o => exact ⟨o, rfl⟩
  rcases hoo with ⟨o1, ho1⟩
  have haU : a ∈ U := by
    apply hrefh1
    apply child_in_refAddrs h1 ca o1 (k, v1) a ho1
    · apply List.mem_iff_get?.mpr
      refine ⟨i, ?_⟩
      rw [← entriesAt_get_some h1 ca o1 ho1, ← cellEntries_container h1 cv ca hca]
      exact hv1
    · rw [valAddrs_container v1 a hcp]
      exact List.mem_cons_self a []
  have hfuel : (U \ ((a :: vis).toFinset)).card + 1 ≤ f := by
    rw [List.toFinset_cons, Finset.sdiff_insert,
      Finset.card_erase_add_one (Finset.mem_sdiff.mpr
        ⟨haU, fun hc => hanv (List.mem_toFinset.mp hc)⟩)]
    exact hcard
  have hheavyD := hdfs.2.2 hrefh1 hfuel
  have hcardM : (U \ vr1.toFinset).card ≤ f := by
    refine Nat.le_trans (Finset.card_le_card
      (Finset.sdiff_subset_sdiff (fun x hx => hx) ?_)) hcard
    intro x hx
    exact List.mem_toFinset.mpr
      (hdfs.2.1 x (List.mem_cons_of_mem a (List.mem_toFinset.mp hx)))
  have heavy := hconc.2.2 hheavyD.1 hcardM
  refine ⟨heavy.1, ?_, ?_⟩
  · intro j kv hij hjlt hget
    by_cases hji : j = i
    · subst hji
      have hrel1to2 : HRel old newV inside h1 h2 :=
        HRel_trans old newV inside hON hdfs.1 hconc.1
      have hstab : (cellEntries h2 cv).get? j = some (k, v1) := by
        rw [cellEntries_container h2 cv ca hca]
        apply HRel_stable hrel1to2
        · rw [← cellEntries_container h1 cv ca hca]
          exact hv1
        · by_cases hvo : v1 = old
          · exact Or.inr (hgood1 hvo)
          · exact Or.inl hvo
      rw [hstab] at hget
      injection hget with hkv
      subst hkv
      refine ⟨hgood1, fun b hb => ?_⟩
      rw [valAddrs_container v1 a hcp] at hb
      have hba : b = a := by
        rcases List.mem_cons.mp hb with hba | hba
        · exact hba
        · simp at hba
      subst hba
      exact hconc.2.1 b (hdfs.2.1 b (List.mem_cons_self b vis))
    · exact heavy.2.1 j kv (by omega) (by omega) hget
  · intro a2 ha2
    rcases heavy.2.2 a2 ha2 with hin | hgd
    · rcases hheavyD.2.2 a2 hin with hin2 | hgd2
      · rcases List.mem_cons.mp hin2 with hae | hin3
        · subst hae
          right
          have hgnode : ∀ kv ∈ entriesAt hr1 a2, entGood old inside kv := by
            intro kv hkv
            exact (hheavyD.2.1 kv
              (by rw [cellEntries_container hr1 v1 a2 hcp]; exact hkv)).1
          have hstabN : entriesAt h2 a2 = entriesAt hr1 a2 :=
            HRel_stableNode hconc.1 a2 hgnode
          intro kv hkv
          rw [hstabN] at hkv
          have hkk := hheavyD.2.1 kv
            (by rw [cellEntries_container hr1 v1 a2 hcp]; exact hkv)
          exact ⟨hkk.1, fun b hb => hconc.2.1 b (hkk.2 b hb)⟩
        · exact Or.inl hin3
      · right
        have hgnode : ∀ kv ∈ entriesAt hr1 a2, entGood old inside kv :=
          fun kv hkv => (hgd2 kv hkv).1
        have hstabN : entriesAt h2 a2 = entriesAt hr1 a2 :=
          HRel_stableNode hconc.1 a2 hgnode
        intro kv hkv
        rw [hstabN] at hkv
        exact ⟨(hgd2 kv hkv).1, fun b hb => hconc.2.1 b ((hgd2 kv hkv).2 b hb)⟩
    · exact Or.inr hgd

end Compose
namespace Compose

theorem dfsEntries_ok (old newV : JVal) (inside : Str) (U : Finset Addr)
    (hON : ¬ newV = old) (hnv : ∀ b ∈ valAddrs newV, b ∈ U) (f : Nat)
    (hrec : DFSok old newV inside U f) :
    ∀ (rem : Nat) (h : Heap) (cv : JVal) (i : Nat) (vis : List Addr)
      (h2 : Heap) (vis2 : List Addr),
      dfsEntries (cbR old newV inside) (DFS (cbR old newV inside) f) rem h cv i vis
        = (h2, vis2) →
      dfsConc old newV inside U f rem h cv i vis h2 vis2 := by
  intro rem
  induction rem with
  | zero =>
    intro h cv i vis h2 vis2 hstep
    rw [dfsEntries] at hstep
    injection hstep with hh hv
    subst hh
    subst hv
    refine ⟨HRel_refl _ _ _ _, fun b hb => hb, fun href hcard =>
      ⟨href, ?_, fun a ha => Or.inl ha⟩⟩
    intro j kv hij hjlt hget
    omega
  | succ rem ih =>
    intro h cv i vis h2 vis2 hstep
    rw [dfsEntries] at hstep
    cases hgi : (cellEntries h cv).get? i with
    | none =>
      rw [hgi] at hstep
      injection hstep with hh hv
      subst hh
      subst hv
      refine ⟨HRel_refl _ _ _ _, fun b hb => hb, fun href hcard =>
        ⟨href, ?_, fun a ha => Or.inl ha⟩⟩
      intro j kv hij hjlt hget
      have hnone : (cellEntries h cv).get? j = none :=
        List.get?_eq_none.mpr (Nat.le_trans (List.get?_eq_none.mp hgi) hij)
      rw [hnone] at hget
      exact Option.noConfusion hget
    | some kv0 =>
      obtain ⟨k, v0⟩ := kv0
      rw [hgi] at hstep
      dsimp only at hstep
      have hcc : ∃ ca, containerAddr cv = some ca := by
        cases hc : containerAddr cv with
        | none =>
          rw [cellEntries_no_container h cv hc] at hgi
          simp at hgi
        | some ca => exact ⟨ca, rfl⟩
      rcases hcc with ⟨ca, hca⟩
      by_cases hfire : v0 = old ∧ ¬ k = inside
      · -- the callback replaces the entry
        have hcb : cbR old newV inside k v0 = some newV := by
          rw [cbR]
          exact if_pos hfire
        rw [hcb] at hstep
        dsimp only at hstep
        have hoo : ∃ o, h.get ca = some o := by
          cases hg : h.get ca with
          | none =>
            rw [cellEntries_container h cv ca hca, entriesAt_none h ca hg] at hgi
            simp at hgi
          | some o => exact ⟨o, rfl⟩
        rcases hoo with ⟨o, ho⟩
        have hgio : (entriesOf o).get? i = some (k, old) := by
          rw [cellEntries_container h cv ca hca, entriesAt_get_some h ca o ho] at hgi
          rw [← hfire.1]
          exact hgi
        have hrel1 : HRel old newV inside h (setEntry h cv i newV) :=
          HRel_setEntry old newV inside h cv ca o i k hca ho hgio hfire.2
        have href1 : refIn h U → refIn (setEntry h cv i newV) U :=
          fun hr => refIn_setEntry h cv i newV U hr hnv
        have hv1 : (cellEntries (setEntry h cv i newV) cv).get? i = some (k, newV) := by
          have hse : setEntry h cv i newV = h.set ca (setEntryAt o i newV) := by
            simp [setEntry, hca, ho]
          have hg1 : (setEntry h cv i newV).get ca = some (setEntryAt o i newV) := by
            rw [hse, get_set, if_pos rfl]
          rw [cellEntries_container _ cv ca hca, entriesAt_get_some _ ca _ hg1,
            entriesOf_setEntryAt_get?, if_pos rfl, hgio]
          rfl
        have hgood1 : entGood old inside (k, newV) := fun hno => absurd hno hON
        rw [hv1] at hstep
        dsimp only at hstep
        cases hcp : containerAddr newV with
        | none =>
          rw [hcp] at hstep
          dsimp only at hstep
          refine dfsEntries_flat_case old newV inside U hON f rem ih
            h _ cv ca i vis k newV h2 vis2 hca hrel1 href1 hv1 hgood1 ?_ hstep
          intro b hb
          rw [valAddrs_no_container newV hcp] at hb
          simp at hb
        | some a =>
          rw [hcp] at hstep
          dsimp only at hstep
          by_cases hvis : vis.contains a = true
          · rw [if_pos hvis] at hstep
            dsimp only at hstep
            refine dfsEntries_flat_case old newV inside U hON f rem ih
              h _ cv ca i vis k newV h2 vis2 hca hrel1 href1 hv1 hgood1 ?_ hstep
            intro b hb
            rw [valAddrs_container newV a hcp] at hb
            rcases List.mem_cons.mp hb with hba | hba
            · subst hba
              exact List.elem_iff.mp hvis
            · simp at hba
          · rw [if_neg hvis] at hstep
            rcases hre : DFS (cbR old newV inside) f (setEntry h cv i newV) newV (a :: vis)
              with ⟨hr1, vr1⟩
            rw [hre] at hstep
            dsimp only at hstep
            exact dfsEntries_rec_case old newV inside U hON f rem hrec ih
              h _ cv ca i vis k newV a hr1 vr1 h2 vis2 hca hrel1 href1 hv1 hgood1
              hcp (fun hm => hvis (List.elem_iff.mpr hm)) hre hstep
      · -- the callback leaves the entry alone
        have hcb : cbR old newV inside k v0 = none := by
          rw [cbR]
          exact if_neg hfire
        rw [hcb] at hstep
        dsimp only at hstep
        rw [hgi] at hstep
        dsimp only at hstep
        have hgood1 : entGood old inside (k, v0) :=
          fun hvo => Classical.byContradiction (fun hki => hfire ⟨hvo, hki⟩)
        cases hcp : containerAddr v0 with
        | none =>
          rw [hcp] at hstep
          dsimp only at hstep
          refine dfsEntries_flat_case old newV inside U hON f rem ih
            h h cv ca i vis k v0 h2 vis2 hca (HRel_refl _ _ _ _) (fun hr => hr)
            hgi hgood1 ?_ hstep
          intro b hb
          rw [valAddrs_no_container v0 hcp] at hb
          simp at hb
        | some a =>
          rw [hcp] at hstep
          dsimp only at hstep
          by_cases hvis : vis.contains a = true
          · rw [if_pos hvis] at hstep
            dsimp only at hstep
            refine dfsEntries_flat_case old newV inside U hON f rem ih
              h h cv ca i vis k v0 h2 vis2 hca (HRel_refl _ _ _ _) (fun hr => hr)
              hgi hgood1 ?_ hstep
            intro b hb
            rw [valAddrs_container v0 a hcp] at hb
            rcases List.mem_cons.mp hb with hba | hba
            · subst hba
              exact List.elem_iff.mp hvis
            · simp at hba
          · rw [if_neg hvis] at hstep
            rcases hre : DFS (cbR old newV inside) f h v0 (a :: vis) with ⟨hr1, vr1⟩
            rw [hre] at hstep
            dsimp only at hstep
            exact dfsEntries_rec_case old newV inside U hON f rem hrec ih
              h h cv ca i vis k v0 a hr1 vr1 h2 vis2 hca (HRel_refl _ _ _ _)
              (fun hr => hr) hgi hgood1 hcp
              (fun hm => hvis (List.elem_iff.mpr hm)) hre hstep

end Compose
namespace Compose

theorem DFS_ok (old newV : JVal) (inside : Str) (U : Finset Addr)
    (hON : ¬ newV = old) (hnv : ∀ b ∈ valAddrs newV, b ∈ U) :
    ∀ f, DFSok old newV inside U f := by
  intro f
  induction f with
  | zero =>
    intro h v vis h2 vis2 hstep
    rw [DFS] at hstep
    injection hstep with hh hv
    subst hh
    subst hv
    exact ⟨HRel_refl _ _ _ _, fun b hb => hb, fun _ hcard => absurd hcard (by omega)⟩
  | succ f ih =>
    intro h v vis h2 vis2 hstep
    rw [DFS] at hstep
    have hconc := dfsEntries_ok old newV inside U hON hnv f ih
      ((cellEntries h v).length) h v 0 vis h2 vis2 hstep
    refine ⟨hconc.1, hconc.2.1, fun href hcard => ?_⟩
    have heavy := hconc.2.2 href (by omega)
    refine ⟨heavy.1, ?_, heavy.2.2⟩
    intro kv hkv
    rcases List.mem_iff_get?.mp hkv with ⟨j, hj⟩
    cases hc : containerAddr v with
    | none =>
      rw [cellEntries_no_container h2 v hc] at hkv
      simp at hkv
    | some ca =>
      have hjlt : j < (cellEntries h2 v).length := by
        by_contra hge
        rw [List.get?_eq_none.mpr (Nat.le_of_not_lt hge)] at hj
        exact Option.noConfusion hj
      have hlen : (cellEntries h2 v).length = (cellEntries h v).length := by
        rw [cellEntries_container h2 v ca hc, cellEntries_container h v ca hc]
        exact HRel_length hconc.1 ca
      exact heavy.2.1 j kv (Nat.zero_le j) (by omega) hj

end Compose
namespace Compose

theorem assign_self_mem (k : Str) (v : JVal) : ∀ l, (k, v) ∈ assign l k v := by
  intro l
  induction l with
  | nil => exact List.mem_cons_self _ _
  | cons kv rest ih =>
    obtain ⟨k1, v1⟩ := kv
    rw [assign]
    by_cases h1 : k1 = k
    · rw [if_pos h1]
      exact List.mem_cons_self _ _
    · rw [if_neg h1]
      exact List.mem_cons_of_mem _ ih

theorem insertBefore_eq (h : Heap) (langs rootA : Addr) (inside before : Str)
    (insertV : JVal) (gA : Addr) (h1 h2 : Heap)
    (hg : getKey (fieldsAt h rootA) inside = some (.obj gA))
    (hh1 : h1 = (h.alloc (.fields (insertBeforeFields (fieldsOf h insertV) before
      (fieldsAt h gA)))).1)
    (hh2 : h2 = h1.set rootA
      (.fields (assign (fieldsAt h1 rootA) inside (.obj h.fresh)))) :
    insertBefore h langs inside before insertV rootA =
      ((DFS (cbR (.obj gA) (.obj h.fresh) inside) ((refAddrs h2).length + 1)
        h2 (.obj langs) []).1, h.fresh) := by
  subst hh2
  subst hh1
  unfold insertBefore
  rw [hg]
  rfl

end Compose
namespace Compose

/-- C5 (amended): after `insertBefore`, `root[inside]` holds a brand-new
object (the allocation frontier), distinct from the old grammar object; in
the final heap, every entry of every cell reachable from the registry that
still holds the old grammar object sits under the key `inside`; and every
entry of a pre-existing cell other than the root that held the old grammar
object under a key other than `inside` now holds the new object. -/
theorem C5_rewrite_amended (h : Heap) (langs rootA gA : Addr)
    (inside before : Str) (insertV : JVal)
    (hg : getKey (fieldsAt h rootA) inside = some (.obj gA))
    (hga : gA < h.fresh) :
    (insertBefore h langs inside before insertV rootA).2 = h.fresh ∧
    ¬ (insertBefore h langs inside before insertV rootA).2 = gA ∧
    getKey (entriesAt (insertBefore h langs inside before insertV rootA).1 rootA)
        inside
      = some (.obj (insertBefore h langs inside before insertV rootA).2) ∧
    (∀ a, Reaches (insertBefore h langs inside before insertV rootA).1 langs a →
      ∀ kv ∈ entriesAt (insertBefore h langs inside before insertV rootA).1 a,
        kv.2 = .obj gA → kv.1 = inside) ∧
    (∀ a, a < h.fresh → ¬ a = rootA →
      Reaches (insertBefore h langs inside before insertV rootA).1 langs a →
      ∀ j kv, (entriesAt h a).get? j = some kv → kv.2 = .obj gA →
        ¬ kv.1 = inside →
        (entriesAt (insertBefore h langs inside before insertV rootA).1 a).get? j
          = some (kv.1,
              .obj (insertBefore h langs inside before insertV rootA).2)) := by
  obtain ⟨h1, hh1⟩ : ∃ h1, h1 = (h.alloc (.fields (insertBeforeFields
      (fieldsOf h insertV) before (fieldsAt h gA)))).1 := ⟨_, rfl⟩
  obtain ⟨h2, hh2⟩ : ∃ h2, h2 = h1.set rootA
      (.fields (assign (fieldsAt h1 rootA) inside (.obj h.fresh))) := ⟨_, rfl⟩
  have heq := insertBefore_eq h langs rootA inside before insertV gA h1 h2 hg hh1 hh2
  rcases hD : DFS (cbR (.obj gA) (.obj h.fresh) inside) ((refAddrs h2).length + 1)
      h2 (.obj langs) [] with ⟨h3, vis3⟩
  rw [hD] at heq
  rw [heq]
  dsimp only
  have hON : ¬ (JVal.obj h.fresh) = JVal.obj gA := by
    intro hc
    injection hc with hc2
    rw [hc2] at hga
    exact Nat.lt_irrefl _ hga
  have hg2root : h2.get rootA
      = some (.fields (assign (fieldsAt h1 rootA) inside (.obj h.fresh))) := by
    rw [hh2, get_set, if_pos rfl]
  have hretU : h.fresh ∈ refAddrs h2 := by
    refine (mem_refAddrs h2 h.fresh).mpr ⟨_, lookup_mem rootA _ h2.mem hg2root, ?_⟩
    refine (mem_objAddrs _ h.fresh).mpr ⟨(inside, .obj h.fresh), ?_, ?_⟩
    · exact assign_self_mem inside (.obj h.fresh) (fieldsAt h1 rootA)
    · exact List.mem_cons_self _ _
  have hnv : ∀ b ∈ valAddrs (JVal.obj h.fresh), b ∈ (refAddrs h2).toFinset := by
    intro b hb
    rcases List.mem_cons.mp hb with hba | hba
    · subst hba
      exact List.mem_toFinset.mpr hretU
    · simp at hba
  have hDok := DFS_ok (.obj gA) (.obj h.fresh) inside (refAddrs h2).toFinset hON hnv
    ((refAddrs h2).length + 1) h2 (.obj langs) [] h3 vis3 hD
  have hrel : HRel (.obj gA) (.obj h.fresh) inside h2 h3 := hDok.1
  have heavy := hDok.2.2 (fun b hb => List.mem_toFinset.mpr hb)
    (by
      rw [List.toFinset_nil, Finset.sdiff_empty]
      have := List.toFinset_card_le (refAddrs h2)
      omega)
  have hproc : ∀ kv ∈ entriesAt h3 langs,
      entGood (.obj gA) inside kv ∧ ∀ b ∈ valAddrs kv.2, b ∈ vis3 := by
    intro kv hkv
    refine heavy.2.1 kv ?_
    rw [cellEntries_container h3 (.obj langs) langs rfl]
    exact hkv
  have hreach : ∀ a, Reaches h3 langs a → ∀ kv ∈ entriesAt h3 a,
      entGood (.obj gA) inside kv ∧ ∀ b ∈ valAddrs kv.2, b ∈ vis3 := by
    intro a hr
    induction hr with
    | refl => exact hproc
    | step hr2 ho ih =>
      rename_i b c
      rcases ho with ⟨o, hgo, kv, hkv, hval⟩
      have hkv3 : kv ∈ entriesAt h3 b := by
        rw [entriesAt_get_some h3 b o hgo]
        exact hkv
      have hc3 : c ∈ vis3 := (ih kv hkv3).2 c (by
        rw [hval]
        exact List.mem_cons_self _ _)
      rcases heavy.2.2 c hc3 with hcv | hgood
      · simp at hcv
      · exact fun kv2 hkv2 => hgood kv2 hkv2
  refine ⟨rfl, ?_, ?_, ?_, ?_⟩
  · intro hc
    rw [hc] at hga
    exact Nat.lt_irrefl _ hga
  · apply HRel_getKey_inside hrel rootA
    rw [entriesAt_get_some h2 rootA _ hg2root]
    exact getKey_assign_self inside (.obj h.fresh) (fieldsAt h1 rootA)
  · exact fun a hr kv hkv hold => (hreach a hr kv hkv).1 hold
  · intro a halt hne hr j kv hj hold hki
    have hg1 : h1.get a = h.get a := by
      rw [hh1, get_alloc, if_neg (Nat.ne_of_lt halt)]
    have hg2 : h2.get a = h.get a := by
      rw [hh2, get_set, if_neg hne]
      exact hg1
    have hEA : entriesAt h2 a = entriesAt h a := by
      unfold entriesAt
      rw [hg2]
    have e := hrel.2 a j
    rw [hEA, hj] at e
    cases hy : (entriesAt h3 a).get? j with
    | none =>
      rw [hy] at e
      exact False.elim e
    | some kv2 =>
      rw [hy] at e
      obtain ⟨hk, hv⟩ := e
      rcases hv with hv | ⟨ho2, hn2, hi2⟩
      · have hgd := (hreach a hr kv2 (List.mem_iff_get?.mpr ⟨j, hy⟩)).1
        have hins : kv2.1 = inside := hgd (hv.trans hold)
        exact absurd (hk.symm.trans hins) hki
      · have hkv2 : kv2 = (kv.1, .obj h.fresh) := by
          obtain ⟨k2, v2⟩ := kv2
          dsimp only at hk hn2
          rw [hk, hn2]
        rw [hkv2]

end Compose
namespace Compose

/-- C5 counterexample: in the registry `{ base: G, other: { base: G } }`
(heap `c5heap`), `insertBefore` swaps the root's `base` entry to the new
object `40`, yet cell `30` — reachable from the registry via `other`, and
not the entry at `root[inside]` — still holds the old grammar object `20`
under its field named `base`: the DFS skips every field whose key equals
`inside` (prism.ts:217), not just the already-swapped root entry. -/
theorem C5_counterexample :
    getKey (entriesAt (insertBefore c5heap 10 "base".toList "a".toList
        (.obj 25) 10).1 10) "base".toList = some (.obj 40) ∧
    Reaches (insertBefore c5heap 10 "base".toList "a".toList (.obj 25) 10).1 10 30 ∧
    getKey (entriesAt (insertBefore c5heap 10 "base".toList "a".toList
        (.obj 25) 10).1 30) "base".toList = some (.obj 20) ∧
    ¬ (JVal.obj 20) = .obj 40 := by
  refine ⟨by decide, ?_, by decide, by decide⟩
  refine Reaches.step (Reaches.refl 10) ?_
  refine ⟨.fields [("base".toList, .obj 40), ("other".toList, .obj 30)],
    by decide, ?_⟩
  refine ⟨("other".toList, .obj 30), by decide, rfl⟩

/-- Witness for C5: the amended theorem applied to the concrete registry
`c5heap`, with its hypotheses discharged by evaluation. -/
theorem C5_rewrite_witness :
    (getKey (fieldsAt c5heap 10) "base".toList = some (.obj 20) ∧
      20 < c5heap.fresh) ∧
    (insertBefore c5heap 10 "base".toList "a".toList (.obj 25) 10).2
      = c5heap.fresh ∧
    getKey (entriesAt (insertBefore c5heap 10 "base".toList "a".toList
        (.obj 25) 10).1 10) "base".toList
      = some (.obj (insertBefore c5heap 10 "base".toList "a".toList
          (.obj 25) 10).2) := by
  have hmain := C5_rewrite_amended c5heap 10 10 20 "base".toList "a".toList
    (.obj 25) (by decide) (by decide)
  exact ⟨⟨by decide, by decide⟩, hmain.1, hmain.2.2.1⟩

end Compose

namespace Engine

/-- C3: tokenization does not halt.  The `LinkedList` constructor
(prism.ts:526-530) never sets `head.next = tail`, so the node chain is
null-terminated and the `toArray` walk (prism.ts:568-576) never reaches the
tail sentinel: it loops on `node = node?.next ?? null` forever.  In the
fueled model, `tokenize` reports fuel exhaustion at every fuel, for every
input text. -/
theorem C3_tokenize_never_returns (fuel : Nat) (text : Str) :
    tokenize fuel text (.mk [] none) = ([], .fuel) := rfl

/-- C9: `tokenize` on the empty input never returns at all (same
null-terminated-chain hang as C3), and even on a chain whose head is linked
to the tail the way upstream Prism links them, `toArray` would return `[]`
rather than `[""]`: `node?.value && array.push(...)` (prism.ts:572) skips
the falsy empty string, while a nonempty string is kept. -/
theorem C9_empty_input_bug :
    (∀ fuel, tokenize fuel [] (.mk [] none) = ([], .fuel)) ∧
    toArray (wellList []) = some [] ∧
    toArray (wellList ['a']) = some [.str ['a']] :=
  ⟨fun _ => rfl, rfl, rfl⟩

end Engine
namespace Engine

theorem setNode_node (l : LL) (a : Nat) (n : NodeR) (b : Nat) :
    ((l.setNode a n).node b) = if b = a then n else l.node b := rfl

theorem lastD_append (p : Nat) : ∀ (xs ys : List Nat),
    lastD p (xs ++ ys) = lastD (lastD p xs) ys := by
  intro xs
  induction xs generalizing p with
  | nil => intro ys; rfl
  | cons x xs ih => intro ys; exact ih x ys

theorem lastD_mem (p : Nat) : ∀ (xs : List Nat), lastD p xs ∈ p :: xs := by
  intro xs
  induction xs generalizing p with
  | nil => exact List.mem_cons_self _ _
  | cons x xs ih =>
    rcases List.mem_cons.mp (ih x) with h | h
    · rw [lastD, h]
      exact List.mem_cons_of_mem _ (List.mem_cons_self _ _)
    · exact List.mem_cons_of_mem _ (List.mem_cons_of_mem _ h)

theorem linksChain_append (l : LL) : ∀ (xs ys : List Nat) (p : Nat),
    linksChain l p (xs ++ ys) ↔
      linksChain l p xs ∧ linksChain l (lastD p xs) ys := by
  intro xs
  induction xs with
  | nil =>
    intro ys p
    exact ⟨fun h => ⟨trivial, h⟩, fun h => h.2⟩
  | cons x xs ih =>
    intro ys p
    constructor
    · intro h
      obtain ⟨h1, h2, h3⟩ := h
      obtain ⟨c1, c2⟩ := (ih ys x).mp h3
      exact ⟨⟨h1, h2, c1⟩, c2⟩
    · intro h
      obtain ⟨⟨h1, h2, h3⟩, h4⟩ := h
      exact ⟨h1, h2, (ih ys x).mpr ⟨h3, h4⟩⟩

theorem linksChain_seqNext (l : LL) : ∀ (as : List Nat) (p : Nat),
    linksChain l p as →
    seqNext l ((l.node p).next) as ((l.node (lastD p as)).next) := by
  intro as
  induction as with
  | nil => intro p _; rfl
  | cons b bs ih =>
    intro p h
    exact ⟨h.1, ih b h.2.2⟩

theorem seqNext_frame (l l2 : LL) : ∀ (as : List Nat) (cur fin : Option Nat),
    seqNext l cur as fin → (∀ a ∈ as, l2.node a = l.node a) →
    seqNext l2 cur as fin := by
  intro as
  induction as with
  | nil => intro cur fin h _; exact h
  | cons b bs ih =>
    intro cur fin h hf
    refine ⟨h.1, ?_⟩
    rw [hf b (List.mem_cons_self _ _)]
    exact ih _ _ h.2 (fun a ha => hf a (List.mem_cons_of_mem _ ha))

theorem linksChain_frame (l l2 : LL) : ∀ (as : List Nat) (p : Nat),
    linksChain l p as → (∀ a ∈ p :: as, l2.node a = l.node a) →
    linksChain l2 p as := by
  intro as
  induction as with
  | nil => intro p _ _; exact trivial
  | cons b bs ih =>
    intro p h hf
    have hp := hf p (List.mem_cons_self _ _)
    have hb := hf b (List.mem_cons_of_mem _ (List.mem_cons_self _ _))
    refine ⟨by rw [hp]; exact h.1, by rw [hb]; exact h.2.1, ?_⟩
    refine ih b h.2.2 ?_
    intro a ha
    rcases List.mem_cons.mp ha with ha | ha
    · rw [ha]; exact hb
    · exact hf a (List.mem_cons_of_mem _ (List.mem_cons_of_mem _ ha))

theorem projChain_nil (l : LL) : projChain l [] = [] := rfl

theorem projChain_cons (l : LL) (a : Nat) (as : List Nat) :
    projChain l (a :: as) = valStr l a ++ projChain l as := by
  simp [projChain]

theorem projChain_append (l : LL) (xs ys : List Nat) :
    projChain l (xs ++ ys) = projChain l xs ++ projChain l ys := by
  simp [projChain]

theorem projChain_frame (l l2 : LL) : ∀ (as : List Nat),
    (∀ a ∈ as, (l2.node a).value = (l.node a).value) →
    projChain l2 as = projChain l as := by
  intro as
  induction as with
  | nil => intro _; rfl
  | cons b bs ih =>
    intro hf
    rw [projChain_cons, projChain_cons, ih (fun a ha => hf a (List.mem_cons_of_mem _ ha))]
    have hb := hf b (List.mem_cons_self _ _)
    unfold valStr
    rw [hb]

theorem nodeLen_eq_valStr (l : LL) (a : Nat)
    (h : ∃ f, (l.node a).value = some f ∧ fragOK f) :
    nodeLen l (some a) = (valStr l a).length := by
  rcases h with ⟨f, hv, hok⟩
  unfold nodeLen valStr
  dsimp only
  rw [hv]
  dsimp only
  exact hok

theorem nodeLen_none (l : LL) : nodeLen l none = 0 := rfl

end Engine
namespace Engine

theorem jsSlice_prefix (u v : Str) : jsSlice (u ++ v) 0 u.length = u := by
  simp [jsSlice, List.take_left]

theorem jsSliceFrom_append (u v : Str) : jsSliceFrom (u ++ v) u.length = v :=
  List.drop_left u v

theorem jsSlice_shift (A rest : Str) (x y : Nat) :
    jsSlice (A ++ rest) (A.length + x) (A.length + y) = jsSlice rest x y := by
  unfold jsSlice
  rw [List.take_append, List.drop_append]

theorem jsSlice_mid (u v w : Str) :
    jsSlice (u ++ v ++ w) u.length (u.length + v.length) = v := by
  have h : u ++ v ++ w = u ++ (v ++ w) := by simp
  rw [h]
  have h2 : jsSlice (u ++ (v ++ w)) (u.length + 0) (u.length + v.length)
      = jsSlice (v ++ w) 0 v.length := jsSlice_shift u (v ++ w) 0 v.length
  rw [Nat.add_zero] at h2
  rw [h2]
  exact jsSlice_prefix v w

theorem jsSliceFrom_shift (A rest : Str) (x : Nat) :
    jsSliceFrom (A ++ rest) (A.length + x) = jsSliceFrom rest x := by
  unfold jsSliceFrom
  rw [List.drop_append]

theorem jsSlice_three_split (s : Str) (x y : Nat) (hxy : x ≤ y) :
    jsSlice s 0 x ++ jsSlice s x y ++ jsSliceFrom s y = s := by
  have h1 : jsSlice s 0 x = (s.take y).take x := by
    simp [jsSlice, List.take_take, Nat.min_eq_left hxy]
  have h2 : jsSlice s x y = (s.take y).drop x := by
    simp [jsSlice]
  rw [h1, h2, List.append_assoc]
  rw [← List.append_assoc ((s.take y).take x)]
  rw [List.take_append_drop]
  exact List.take_append_drop y s

theorem nodup_length_le (as : List Nat) (N : Nat) (hnd : as.Nodup)
    (hb : ∀ a ∈ as, a < N) : as.length ≤ N := by
  have h1 : as.toFinset.card = as.length := List.toFinset_card_of_nodup hnd
  have h2 : as.toFinset ⊆ Finset.range N := by
    intro x hx
    exact Finset.mem_range.mpr (hb x (List.mem_toFinset.mp hx))
  have h3 := Finset.card_le_card h2
  rw [h1, Finset.card_range] at h3
  exact h3

theorem toArrayWalk_none (l : LL) : ∀ (fuel : Nat) (bs : List Nat) (cur : Option Nat),
    seqNext l cur bs none → (∀ b ∈ bs, ¬ b = l.tailA) →
    toArrayWalk l fuel cur = none := by
  intro fuel
  induction fuel with
  | zero => intro bs cur _ _; rfl
  | succ fuel ih =>
    intro bs cur hs ht
    cases bs with
    | nil =>
      rw [show cur = none from hs]
      rw [toArrayWalk]
      rw [if_neg (by simp)]
      exact ih [] none rfl (by simp)
    | cons b bs2 =>
      obtain ⟨hcb, hrest⟩ := hs
      rw [hcb, toArrayWalk]
      rw [if_neg (by
        intro hc
        injection hc with hc2
        exact ht b (List.mem_cons_self _ _) hc2)]
      simp only [ih bs2 ((l.node b).next) hrest
        (fun x hx => ht x (List.mem_cons_of_mem _ hx))]

theorem SInv_init (P : TokenV → Prop) (text : Str) :
    SInv P text (addAfter newLL 0 (.str text)).1 [2] := by
  refine ⟨rfl, rfl, by show 2 ≤ 3; omega, ⟨⟨rfl, rfl, trivial⟩, rfl⟩,
    by simp, ?_, ?_, ?_⟩
  · intro a ha
    rw [List.mem_singleton.mp ha]
    exact ⟨by omega, by show 2 < 3; omega⟩
  · intro a ha
    rw [List.mem_singleton.mp ha]
    exact ⟨.str text, rfl, rfl, trivial⟩
  · simp [projChain, valStr]
    rfl

end Engine
namespace Engine

theorem linksChain_preserve (l l2 : LL) : ∀ (as : List Nat) (q : Nat),
    linksChain l q as → q ∉ as → as.Nodup →
    (∀ a ∈ as, (l2.node a).prev = (l.node a).prev) →
    (∀ a ∈ q :: as, ¬ a = lastD q as → (l2.node a).next = (l.node a).next) →
    linksChain l2 q as := by
  intro as
  induction as with
  | nil => intro q _ _ _ _ _; exact trivial
  | cons b bs ih =>
    intro q h hq hnd hprev hnext
    have hql : ¬ q = lastD q (b :: bs) := by
      intro hc
      exact hq (by rw [hc]; exact lastD_mem b bs)
    refine ⟨?_, ?_, ?_⟩
    · rw [hnext q (List.mem_cons_self _ _) hql]
      exact h.1
    · rw [hprev b (List.mem_cons_self _ _)]
      exact h.2.1
    · refine ih b h.2.2 (List.nodup_cons.mp hnd).1 (List.nodup_cons.mp hnd).2
        (fun a ha => hprev a (List.mem_cons_of_mem _ ha)) ?_
      intro a ha hal
      exact hnext a (List.mem_cons_of_mem _ ha) hal

theorem linksChain_prev (l : LL) (q : Nat) (xs : List Nat) (b : Nat) (ys : List Nat)
    (h : linksChain l q (xs ++ b :: ys)) :
    (l.node b).prev = some (lastD q xs) :=
  ((linksChain_append l xs (b :: ys) q).mp h).2.2.1

theorem linksChain_next_head (l : LL) (q : Nat) (xs : List Nat) (b : Nat) (ys : List Nat)
    (h : linksChain l q (xs ++ b :: ys)) :
    (l.node (lastD q xs)).next = some b :=
  ((linksChain_append l xs (b :: ys) q).mp h).2.1

theorem addAfter_spec (l : LL) (p : Nat) (v : Frag) (us vs : List Nat)
    (hlk : linksOK l 0 (us ++ vs))
    (hp : p = lastD 0 us)
    (hnd : (us ++ vs).Nodup)
    (hb : ∀ a ∈ us ++ vs, 2 ≤ a ∧ a < l.fresh)
    (hfresh2 : 2 ≤ l.fresh) :
    (addAfter l p v).2 = l.fresh ∧
    (addAfter l p v).1.headA = l.headA ∧
    (addAfter l p v).1.tailA = l.tailA ∧
    (addAfter l p v).1.fresh = l.fresh + 1 ∧
    (addAfter l p v).1.length = l.length + 1 ∧
    linksOK (addAfter l p v).1 0 (us ++ l.fresh :: vs) ∧
    ((addAfter l p v).1.node l.fresh).value = some v ∧
    (∀ a, ¬ a = l.fresh → ((addAfter l p v).1.node a).value = (l.node a).value) := by
  have hpm : p ∈ 0 :: us := by rw [hp]; exact lastD_mem 0 us
  have hplt : p < l.fresh := by
    rcases List.mem_cons.mp hpm with h0 | h0
    · omega
    · exact (hb p (List.mem_append_left _ h0)).2
  have hpne : ¬ p = l.fresh := by omega
  have hfne : ¬ l.fresh = p := by omega
  have hsplit := (linksChain_append l us vs 0).mp hlk.1
  have hcus := hsplit.1
  have hcvs : linksChain l p vs := by rw [hp]; exact hsplit.2
  have husnd : us.Nodup := (List.nodup_append.mp hnd).1
  have hvsnd : vs.Nodup := (List.nodup_append.mp hnd).2.1
  have hdisj : ∀ x ∈ us, ∀ y ∈ vs, ¬ x = y := fun x hx y hy hxy =>
    (List.nodup_append.mp hnd).2.2 hx (by rw [hxy]; exact hy)
  have h0us : (0 : Nat) ∉ us := fun hc => by
    have := (hb 0 (List.mem_append_left _ hc)).1
    omega
  have hlastOld : (l.node (lastD p vs)).next = none := by
    have h2 := hlk.2
    rw [lastD_append, ← hp] at h2
    exact h2
  cases vs with
  | nil =>
    have hnext : (l.node p).next = none := hlastOld
    have hnode : ∀ x, ((addAfter l p v).1.node x) =
        if x = p then ⟨(l.node p).value, (l.node p).prev, some l.fresh⟩
        else if x = l.fresh then ⟨some v, some p, none⟩
        else l.node x := by
      intro x
      by_cases hxp : x = p
      · subst hxp
        simp [addAfter, setNode_node, hnext, hpne]
      · by_cases hxf : x = l.fresh
        · subst hxf
          simp [addAfter, setNode_node, hnext, hfne]
        · simp [addAfter, setNode_node, hnext, hxp, hxf]
    refine ⟨rfl, by simp [addAfter, hnext, LL.setNode], by simp [addAfter, hnext, LL.setNode],
      rfl, by simp [addAfter, hnext, LL.setNode], ⟨?_, ?_⟩, ?_, ?_⟩
    · refine (linksChain_append _ us [l.fresh] 0).mpr ⟨?_, ?_⟩
      · refine linksChain_preserve l _ us 0 hcus h0us husnd ?_ ?_
        · intro a ha
          rw [hnode]
          by_cases hap : a = p
          · rw [if_pos hap, hap]
          · rw [if_neg hap, if_neg (by
              intro hc
              have := (hb a (List.mem_append_left _ ha)).2
              omega)]
        · intro a ha hal
          rw [hnode]
          rw [if_neg (by rw [← hp] at hal; exact hal)]
          rw [if_neg (by
            intro hc
            rcases List.mem_cons.mp ha with h0 | h0
            · omega
            · have := (hb a (List.mem_append_left _ h0)).2
              omega)]
      · rw [← hp]
        refine ⟨?_, ?_, trivial⟩
        · rw [hnode, if_pos rfl]
        · rw [hnode, if_neg hfne, if_pos rfl]
    · have hld : lastD 0 (us ++ [l.fresh]) = l.fresh := by
        rw [lastD_append]
        rfl
      rw [hld, hnode, if_neg hfne, if_pos rfl]
    · rw [hnode, if_neg hfne, if_pos rfl]
    · intro a haf
      rw [hnode]
      by_cases hap : a = p
      · rw [if_pos hap, hap]
      · rw [if_neg hap, if_neg haf]
  | cons c vs2 =>
    have hnext : (l.node p).next = some c := hcvs.1
    have hcp : ¬ c = p := by
      intro hc
      rcases List.mem_cons.mp hpm with h0 | h0
      · have := (hb c (List.mem_append_right _ (List.mem_cons_self _ _))).1
        omega
      · exact hdisj p h0 c (List.mem_cons_self _ _) (by rw [hc]) 
    have hcf : ¬ c = l.fresh := by
      have := (hb c (List.mem_append_right _ (List.mem_cons_self _ _))).2
      omega
    have hpc : ¬ p = c := fun h => hcp h.symm
    have hfc : ¬ l.fresh = c := fun h => hcf h.symm
    have hnode : ∀ x, ((addAfter l p v).1.node x) =
        if x = c then ⟨(l.node c).value, some l.fresh, (l.node c).next⟩
        else if x = p then ⟨(l.node p).value, (l.node p).prev, some l.fresh⟩
        else if x = l.fresh then ⟨some v, some p, some c⟩
        else l.node x := by
      intro x
      by_cases hxc : x = c
      · subst hxc
        simp [addAfter, setNode_node, hnext, hcp, hcf, hpc, hfc, hpne, hfne]
      · by_cases hxp : x = p
        · subst hxp
          simp [addAfter, setNode_node, hnext, hcp, hcf, hpc, hfc, hpne, hfne]
        · by_cases hxf : x = l.fresh
          · subst hxf
            simp [addAfter, setNode_node, hnext, hcp, hcf, hpc, hfc, hpne, hfne]
          · simp [addAfter, setNode_node, hnext, hxc, hxp, hxf]
    have hvs2c : c ∉ vs2 := (List.nodup_cons.mp hvsnd).1
    refine ⟨rfl, by simp [addAfter, hnext, LL.setNode], by simp [addAfter, hnext, LL.setNode],
      rfl, by simp [addAfter, hnext, LL.setNode], ⟨?_, ?_⟩, ?_, ?_⟩
    · refine (linksChain_append _ us (l.fresh :: c :: vs2) 0).mpr ⟨?_, ?_⟩
      · refine linksChain_preserve l _ us 0 hcus h0us husnd ?_ ?_
        · intro a ha
          rw [hnode]
          rw [if_neg (fun hc => hdisj a ha c (List.mem_cons_self _ _) hc)]
          by_cases hap : a = p
          · rw [if_pos hap, hap]
          · rw [if_neg hap, if_neg (by
              intro hc
              have := (hb a (List.mem_append_left _ ha)).2
              omega)]
        · intro a ha hal
          rw [hnode]
          rw [if_neg (by
            intro hc
            rcases List.mem_cons.mp ha with h0 | h0
            · have := (hb c (List.mem_append_right _ (List.mem_cons_self _ _))).1
              omega
            · exact hdisj a h0 c (List.mem_cons_self _ _) hc)]
          rw [if_neg (by rw [← hp] at hal; exact hal)]
          rw [if_neg (by
            intro hc
            rcases List.mem_cons.mp ha with h0 | h0
            · omega
            · have := (hb a (List.mem_append_left _ h0)).2
              omega)]
      · rw [← hp]
        refine ⟨?_, ?_, ?_, ?_, ?_⟩
        · rw [hnode, if_neg hpc, if_pos rfl]
        · rw [hnode, if_neg hfc, if_neg hfne, if_pos rfl]
        · rw [hnode, if_neg hfc, if_neg hfne, if_pos rfl]
        · rw [hnode, if_pos rfl]
        · refine linksChain_preserve l _ vs2 c hcvs.2.2 hvs2c
            (List.nodup_cons.mp hvsnd).2 ?_ ?_
          · intro a ha
            rw [hnode]
            rw [if_neg (fun hc => hvs2c (by rw [← hc]; exact ha))]
            rw [if_neg (fun hc => hdisj p
              (by
                rcases List.mem_cons.mp hpm with h0 | h0
                · exact absurd ((hb a (List.mem_append_right _
                    (List.mem_cons_of_mem _ ha))).1) (by omega)
                · exact h0) a
              (List.mem_cons_of_mem _ ha) (by rw [hc]))]
            rw [if_neg (by
              have := (hb a (List.mem_append_right _ (List.mem_cons_of_mem _ ha))).2
              omega)]
          · intro a ha hal
            rw [hnode]
            by_cases hac : a = c
            · rw [if_pos hac, hac]
            · rw [if_neg hac]
              rw [if_neg (by
                intro hc
                rcases List.mem_cons.mp ha with h0 | h0
                · exact hac h0
                · exact hdisj p (by
                    rcases List.mem_cons.mp hpm with h1 | h1
                    · exact absurd ((hb a (List.mem_append_right _
                        (List.mem_cons_of_mem _ h0))).1) (by rw [hc]; omega)
                    · exact h1) a (List.mem_cons_of_mem _ h0) (by rw [hc]))]
              rw [if_neg (by
                intro hc
                rcases List.mem_cons.mp ha with h0 | h0
                · exact hac h0
                · have := (hb a (List.mem_append_right _
                    (List.mem_cons_of_mem _ h0))).2
                  omega)]
    · rw [lastD_append]
      have hl2 : lastD (lastD 0 us) (l.fresh :: c :: vs2) = lastD c vs2 := rfl
      rw [hl2, hnode]
      have hlm : lastD c vs2 ∈ c :: vs2 := lastD_mem c vs2
      have hlast2 : (l.node (lastD c vs2)).next = none := by
        have := hlastOld
        rw [show lastD p (c :: vs2) = lastD c vs2 from rfl] at this
        exact this
      by_cases hlc : lastD c vs2 = c
      · rw [if_pos hlc, ← hlc]
        exact hlast2
      · rw [if_neg hlc]
        rw [if_neg (by
          intro hc
          rcases List.mem_cons.mp hlm with h0 | h0
          · exact hlc h0
          · exact hdisj p (by
              rcases List.mem_cons.mp hpm with h1 | h1
              · exact absurd ((hb _ (List.mem_append_right _
                  (List.mem_cons_of_mem _ h0))).1) (by rw [hc]; omega)
              · exact h1) _ (List.mem_cons_of_mem _ h0) (by rw [hc]))]
        rw [if_neg (by
          intro hc
          rcases List.mem_cons.mp hlm with h0 | h0
          · exact hlc h0
          · have := (hb _ (List.mem_append_right _ (List.mem_cons_of_mem _ h0))).2
            omega)]
        exact hlast2
    · rw [hnode, if_neg (fun h => hcf h.symm), if_neg hfne, if_pos rfl]
    · intro a haf
      rw [hnode]
      by_cases hac : a = c
      · rw [if_pos hac, hac]
      · rw [if_neg hac]
        by_cases hap : a = p
        · rw [if_pos hap, hap]
        · rw [if_neg hap, if_neg haf]

end Engine
namespace Engine

theorem removeWalk_spec (l : LL) : ∀ (zs : List Nat) (cur fin : Option Nat),
    seqNext l cur zs fin → (∀ a ∈ zs, ¬ a = l.tailA) →
    removeWalk l zs.length cur = (fin, zs.length) := by
  intro zs
  induction zs with
  | nil =>
    intro cur fin hs _
    rw [show cur = fin from hs]
    rfl
  | cons b bs ih =>
    intro cur fin hs ht
    obtain ⟨hcb, hrest⟩ := hs
    rw [hcb]
    rw [show (b :: bs).length = bs.length + 1 from rfl, removeWalk]
    rw [if_neg (by
      intro hc
      injection hc with hc2
      exact ht b (List.mem_cons_self _ _) hc2)]
    have hn : nodeNext l (some b) = (l.node b).next := rfl
    rw [hn, ih ((l.node b).next) fin hrest
      (fun a ha => ht a (List.mem_cons_of_mem _ ha))]

theorem linksChain_seqNext_mid (l : LL) : ∀ (zs : List Nat) (q : Nat) (ws : List Nat),
    linksChain l q (zs ++ ws) → (l.node (lastD q (zs ++ ws))).next = none →
    seqNext l ((l.node q).next) zs
      (match ws with | [] => none | w :: _ => some w) := by
  intro zs
  induction zs with
  | nil =>
    intro q ws hc hlast
    cases ws with
    | nil => exact hlast
    | cons w ws2 => exact hc.1
  | cons z zs2 ih =>
    intro q ws hc hlast
    exact ⟨hc.1, ih z ws hc.2.2 hlast⟩

theorem removeRange_spec (l : LL) (rf : Nat) (us zs ws : List Nat)
    (hlk : linksOK l 0 (us ++ zs ++ ws))
    (hrf : rf = lastD 0 us)
    (hnd : (us ++ zs ++ ws).Nodup)
    (hb : ∀ a ∈ us ++ zs ++ ws, 2 ≤ a ∧ a < l.fresh)
    (htail : l.tailA = 1) :
    (removeRange l rf zs.length).headA = l.headA ∧
    (removeRange l rf zs.length).tailA = l.tailA ∧
    (removeRange l rf zs.length).fresh = l.fresh ∧
    (removeRange l rf zs.length).length = l.length - zs.length ∧
    linksOK (removeRange l rf zs.length) 0 (us ++ ws) ∧
    (∀ a, ((removeRange l rf zs.length).node a).value = (l.node a).value) := by
  have hrm : rf ∈ 0 :: us := by rw [hrf]; exact lastD_mem 0 us
  have hlk1 : linksChain l 0 (us ++ (zs ++ ws)) := by
    rw [← List.append_assoc]
    exact hlk.1
  have hcus : linksChain l 0 us := ((linksChain_append l us (zs ++ ws) 0).mp hlk1).1
  have hchain2 : linksChain l rf (zs ++ ws) := by
    rw [hrf]
    exact ((linksChain_append l us (zs ++ ws) 0).mp hlk1).2
  have hlast : (l.node (lastD rf (zs ++ ws))).next = none := by
    have h2 := hlk.2
    rw [List.append_assoc, lastD_append, ← hrf] at h2
    exact h2
  have hzstail : ∀ a ∈ zs, ¬ a = l.tailA := by
    intro a ha hc
    have h2 := (hb a (by
      rw [List.append_assoc]
      exact List.mem_append_right _ (List.mem_append_left _ ha))).1
    rw [hc, htail] at h2
    omega
  have husnd : us.Nodup := by
    rw [List.append_assoc] at hnd
    exact (List.nodup_append.mp hnd).1
  have hdisj : ∀ x ∈ us, ∀ y ∈ zs ++ ws, ¬ x = y := by
    rw [List.append_assoc] at hnd
    intro x hx y hy hxy
    exact (List.nodup_append.mp hnd).2.2 hx (by rw [hxy]; exact hy)
  have h0us : (0 : Nat) ∉ us := fun hc => by
    have := (hb 0 (List.mem_append_left _ (List.mem_append_left _ hc))).1
    omega
  have hrfne : ∀ y ∈ zs ++ ws, ¬ rf = y := by
    intro y hy hc
    rcases List.mem_cons.mp hrm with h0 | h0
    · have := (hb y (by rw [List.append_assoc]; exact List.mem_append_right _ hy)).1
      omega
    · exact hdisj rf h0 y hy hc
  have hwsnd : ws.Nodup := by
    rw [List.append_assoc] at hnd
    exact (List.nodup_append.mp (List.nodup_append.mp hnd).2.1).2.1
  cases ws with
  | nil =>
    have hseq : seqNext l ((l.node rf).next) zs none :=
      linksChain_seqNext_mid l zs rf [] hchain2 hlast
    have hwalk : removeWalk l zs.length ((l.node rf).next) = (none, zs.length) :=
      removeWalk_spec l zs ((l.node rf).next) none hseq hzstail
    have hnode : ∀ x, ((removeRange l rf zs.length).node x) =
        if x = rf then ⟨(l.node rf).value, (l.node rf).prev, none⟩
        else l.node x := by
      intro x
      by_cases hxr : x = rf
      · subst hxr
        simp [removeRange, hwalk, setNode_node]
      · simp [removeRange, hwalk, setNode_node, hxr]
    refine ⟨by simp [removeRange, hwalk, LL.setNode], by simp [removeRange, hwalk, LL.setNode],
      by simp [removeRange, hwalk, LL.setNode], by simp [removeRange, hwalk, LL.setNode], ⟨?_, ?_⟩, ?_⟩
    · rw [List.append_nil]
      refine linksChain_preserve l _ us 0 hcus h0us husnd ?_ ?_
      · intro a ha
        rw [hnode]
        by_cases har : a = rf
        · rw [if_pos har, har]
        · rw [if_neg har]
      · intro a ha hal
        rw [hnode, if_neg (by rw [← hrf] at hal; exact hal)]
    · rw [List.append_nil, ← hrf, hnode, if_pos rfl]
    · intro a
      rw [hnode]
      by_cases har : a = rf
      · rw [if_pos har, har]
      · rw [if_neg har]
  | cons w1 ws2 =>
    have hw1m : w1 ∈ zs ++ w1 :: ws2 :=
      List.mem_append_right _ (List.mem_cons_self _ _)
    have hrw1 : ¬ rf = w1 := hrfne w1 hw1m
    have hw1r : ¬ w1 = rf := fun h => hrw1 h.symm
    have hseq : seqNext l ((l.node rf).next) zs (some w1) :=
      linksChain_seqNext_mid l zs rf (w1 :: ws2) hchain2 hlast
    have hwalk : removeWalk l zs.length ((l.node rf).next) = (some w1, zs.length) :=
      removeWalk_spec l zs ((l.node rf).next) (some w1) hseq hzstail
    have hnode : ∀ x, ((removeRange l rf zs.length).node x) =
        if x = w1 then ⟨(l.node w1).value, some rf, (l.node w1).next⟩
        else if x = rf then ⟨(l.node rf).value, (l.node rf).prev, some w1⟩
        else l.node x := by
      intro x
      by_cases hxw : x = w1
      · subst hxw
        simp [removeRange, hwalk, setNode_node, hw1r, hrw1]
      · by_cases hxr : x = rf
        · subst hxr
          simp [removeRange, hwalk, setNode_node, hw1r, hrw1]
        · simp [removeRange, hwalk, setNode_node, hxw, hxr]
    have hcw : linksChain l w1 ws2 :=
      (((linksChain_append l zs (w1 :: ws2) rf).mp hchain2).2).2.2
    have hw1nd : w1 ∉ ws2 := (List.nodup_cons.mp hwsnd).1
    refine ⟨by simp [removeRange, hwalk, LL.setNode], by simp [removeRange, hwalk, LL.setNode],
      by simp [removeRange, hwalk, LL.setNode], by simp [removeRange, hwalk, LL.setNode], ⟨?_, ?_⟩, ?_⟩
    · refine (linksChain_append _ us (w1 :: ws2) 0).mpr ⟨?_, ?_⟩
      · refine linksChain_preserve l _ us 0 hcus h0us husnd ?_ ?_
        · intro a ha
          rw [hnode]
          rw [if_neg (fun hc => hdisj a ha w1 hw1m hc)]
          by_cases har : a = rf
          · rw [if_pos har, har]
          · rw [if_neg har]
        · intro a ha hal
          rw [hnode]
          rw [if_neg (by
            intro hc
            rcases List.mem_cons.mp ha with h0 | h0
            · have := (hb w1 (by
                rw [List.append_assoc]
                exact List.mem_append_right _ hw1m)).1
              omega
            · exact hdisj a h0 w1 hw1m hc)]
          rw [if_neg (by rw [← hrf] at hal; exact hal)]
      · rw [← hrf]
        refine ⟨?_, ?_, ?_⟩
        · rw [hnode, if_neg hrw1, if_pos rfl]
        · rw [hnode, if_pos rfl]
        · refine linksChain_preserve l _ ws2 w1 hcw hw1nd
            (List.nodup_cons.mp hwsnd).2 ?_ ?_
          · intro a ha
            rw [hnode]
            rw [if_neg (fun hc => hw1nd (by rw [← hc]; exact ha))]
            rw [if_neg (fun hc => hrfne a (List.mem_append_right _
              (List.mem_cons_of_mem _ ha)) hc.symm)]
          · intro a ha hal
            rw [hnode]
            by_cases haw : a = w1
            · rw [if_pos haw, haw]
            · rw [if_neg haw]
              rw [if_neg (by
                intro hc
                rcases List.mem_cons.mp ha with h0 | h0
                · exact haw h0
                · exact hrfne a (List.mem_append_right _
                    (List.mem_cons_of_mem _ h0)) hc.symm)]
    · have hld : lastD 0 (us ++ w1 :: ws2) = lastD w1 ws2 := by
        rw [lastD_append]
        rfl
      rw [hld]
      have hlm := lastD_mem w1 ws2
      have holdn : (l.node (lastD w1 ws2)).next = none := by
        have h2 := hlast
        rw [lastD_append] at h2
        rw [show lastD (lastD rf zs) (w1 :: ws2) = lastD w1 ws2 from rfl] at h2
        exact h2
      rw [hnode]
      by_cases hlw : lastD w1 ws2 = w1
      · rw [if_pos hlw, ← hlw]
        exact holdn
      · rw [if_neg hlw]
        rw [if_neg (by
          intro hc
          rcases List.mem_cons.mp hlm with h0 | h0
          · exact hlw h0
          · exact hrfne _ (List.mem_append_right _
              (List.mem_cons_of_mem _ h0)) hc.symm)]
        exact holdn
    · intro a
      rw [hnode]
      by_cases haw : a = w1
      · rw [if_pos haw, haw]
      · rw [if_neg haw]
        by_cases har : a = rf
        · rw [if_pos har, har]
        · rw [if_neg har]

end Engine
namespace Engine

theorem findStart_spec (l : LL) : ∀ (ds : List Nat) (fuel : Nat) (c : Nat)
    (posC frm : Nat) (fin : Option Nat),
    seqNext l ((l.node c).next) ds fin →
    (∀ a ∈ c :: ds, nodeLen l (some a) = (valStr l a).length) →
    frm < posC + (projChain l (c :: ds)).length →
    posC ≤ frm →
    ds.length < fuel →
    ∃ es c2 fs,
      c :: ds = es ++ c2 :: fs ∧
      findStart l fuel frm (some c) (posC + nodeLen l (some c))
        = some (some c2, posC + (projChain l es).length + nodeLen l (some c2)) ∧
      posC + (projChain l es).length ≤ frm ∧
      frm < posC + (projChain l es).length + (valStr l c2).length := by
  intro ds
  induction ds with
  | nil =>
    intro fuel c posC frm fin hseq hlen htot hlo hfuel
    have hlc := hlen c (List.mem_cons_self _ _)
    have hstop : ¬ frm ≥ posC + nodeLen l (some c) := by
      rw [hlc]
      rw [projChain_cons, projChain_nil, List.append_nil] at htot
      omega
    cases fuel with
    | zero => omega
    | succ f =>
      refine ⟨[], c, [], rfl, ?_, by
        rw [projChain_nil]
        simpa using hlo, by
        rw [projChain_nil]
        rw [hlc] at hstop
        simp only [List.length_nil]
        omega⟩
      rw [findStart, if_neg hstop, projChain_nil]
      simp
  | cons d ds2 ih =>
    intro fuel c posC frm fin hseq hlen htot hlo hfuel
    have hlc := hlen c (List.mem_cons_self _ _)
    cases fuel with
    | zero => omega
    | succ f =>
      by_cases hge : frm ≥ posC + nodeLen l (some c)
      · have hn2 : nodeNext l (some c) = some d := hseq.1
        have htot2 : frm < (posC + nodeLen l (some c)) + (projChain l (d :: ds2)).length := by
          rw [projChain_cons] at htot
          rw [hlc]
          rw [List.length_append] at htot
          omega
        obtain ⟨es, c2, fs, hsplit, heq, hlo2, hhi2⟩ :=
          ih f d (posC + nodeLen l (some c)) frm fin hseq.2
            (fun a ha => hlen a (List.mem_cons_of_mem _ ha)) htot2 hge (by
              have := Nat.lt_of_succ_lt_succ hfuel
              omega)
        refine ⟨c :: es, c2, fs, by rw [hsplit]; rfl, ?_, ?_, ?_⟩
        · rw [findStart, if_pos hge, hn2, heq, projChain_cons, List.length_append]
          have hAB : posC + nodeLen l (some c) + (projChain l es).length
                + nodeLen l (some c2)
              = posC + ((valStr l c).length + (projChain l es).length)
                + nodeLen l (some c2) := by omega
          rw [hAB]
        · rw [projChain_cons, List.length_append]
          omega
        · rw [projChain_cons, List.length_append]
          omega
      · refine ⟨[], c, d :: ds2, rfl, ?_, by
          rw [projChain_nil]
          simpa using hlo, by
          rw [projChain_nil]
          rw [hlc] at hge
          simp only [List.length_nil]
          omega⟩
        rw [findStart, if_neg hge, projChain_nil]
        simp

end Engine
namespace Engine

theorem findEnd_walk (l : LL) : ∀ (bs : List Nat) (fuel : Nat) (k : Option Nat)
    (p cnt toEnd : Nat),
    seqNext l k bs none →
    (∀ a ∈ bs, ¬ a = l.tailA) →
    (∀ a ∈ bs, nodeLen l (some a) = (valStr l a).length) →
    toEnd ≤ p + (projChain l bs).length →
    bs.length < fuel →
    ∃ zs fs, bs = zs ++ fs ∧
      findEnd l fuel toEnd k p cnt
        = some (cnt + zs.length, p + (projChain l zs).length) ∧
      toEnd ≤ p + (projChain l zs).length := by
  intro bs
  induction bs with
  | nil =>
    intro fuel k p cnt toEnd hseq htail hlen htot hfuel
    cases fuel with
    | zero => omega
    | succ f =>
      rw [show k = none from hseq]
      refine ⟨[], [], rfl, ?_, by simpa [projChain] using htot⟩
      rw [findEnd, if_neg (by simp)]
      rw [if_neg (by
        rw [projChain_nil] at htot
        simp only [List.length_nil, Nat.add_zero] at htot
        simp
        omega)]
      simp [projChain]
  | cons b bs2 ih =>
    intro fuel k p cnt toEnd hseq htail hlen htot hfuel
    obtain ⟨hkb, hrest⟩ := hseq
    have hbt : ¬ b = l.tailA := htail b (List.mem_cons_self _ _)
    have hlb := hlen b (List.mem_cons_self _ _)
    cases fuel with
    | zero => omega
    | succ f =>
      rw [hkb, findEnd, if_neg (by
        intro hc
        injection hc with hc2
        exact hbt hc2)]
      by_cases hgo : p < toEnd ∨ (match (l.node b).value with
        | some (.str _) => true
        | _ => false) = true
      · rw [if_pos hgo]
        have hn : nodeNext l (some b) = (l.node b).next := rfl
        rw [hn]
        obtain ⟨zs, fs, hsp, heq, hle⟩ := ih f ((l.node b).next)
          (p + nodeLen l (some b)) (cnt + 1) toEnd hrest
          (fun a ha => htail a (List.mem_cons_of_mem _ ha))
          (fun a ha => hlen a (List.mem_cons_of_mem _ ha))
          (by
            rw [projChain_cons, List.length_append] at htot
            omega)
          (by
            have := Nat.lt_of_succ_lt_succ hfuel
            omega)
        refine ⟨b :: zs, fs, by rw [hsp]; rfl, ?_, ?_⟩
        · rw [heq]
          have h1 : cnt + 1 + zs.length = cnt + (b :: zs).length := by
            simp
            omega
          have h2 : p + nodeLen l (some b) + (projChain l zs).length
              = p + (projChain l (b :: zs)).length := by
            rw [projChain_cons, List.length_append]
            omega
          rw [h1, h2]
        · rw [projChain_cons, List.length_append]
          omega
      · rw [if_neg hgo]
        refine ⟨[], b :: bs2, rfl, ?_, ?_⟩
        · rw [projChain_nil]
          simp
        · rw [projChain_nil]
          simp only [List.length_nil, Nat.add_zero]
          omega

theorem findEnd_spec (l : LL) (c : Nat) (ds : List Nat) (fuel : Nat)
    (p cnt toEnd : Nat)
    (hseq : seqNext l ((l.node c).next) ds none)
    (htail : ∀ a ∈ c :: ds, ¬ a = l.tailA)
    (hlen : ∀ a ∈ c :: ds, nodeLen l (some a) = (valStr l a).length)
    (htot : toEnd ≤ p + (projChain l (c :: ds)).length)
    (hfuel : ds.length + 1 < fuel)
    (hfirst : p < toEnd ∨ (∃ s, (l.node c).value = some (.str s))) :
    ∃ zs fs, c :: ds = zs ++ fs ∧ 0 < zs.length ∧
      findEnd l fuel toEnd (some c) p cnt
        = some (cnt + zs.length, p + (projChain l zs).length) ∧
      toEnd ≤ p + (projChain l zs).length := by
  cases fuel with
  | zero => omega
  | succ f =>
    rw [findEnd, if_neg (by
      intro hc
      injection hc with hc2
      exact htail c (List.mem_cons_self _ _) hc2)]
    have hgo : p < toEnd ∨ (match (l.node c).value with
        | some (.str _) => true
        | _ => false) = true := by
      rcases hfirst with h | ⟨s, hs⟩
      · exact Or.inl h
      · right
        rw [hs]
    rw [if_pos hgo]
    have hn : nodeNext l (some c) = (l.node c).next := rfl
    rw [hn]
    obtain ⟨zs, fs, hsp, heq, hle⟩ := findEnd_walk l ds f ((l.node c).next)
      (p + nodeLen l (some c)) (cnt + 1) toEnd hseq
      (fun a ha => htail a (List.mem_cons_of_mem _ ha))
      (fun a ha => hlen a (List.mem_cons_of_mem _ ha))
      (by
        rw [projChain_cons, List.length_append] at htot
        have hlc := hlen c (List.mem_cons_self _ _)
        omega)
      (by omega)
    refine ⟨c :: zs, fs, by rw [hsp]; rfl, by simp, ?_, ?_⟩
    · rw [heq]
      have hlc := hlen c (List.mem_cons_self _ _)
      have h1 : cnt + 1 + zs.length = cnt + (c :: zs).length := by
        simp
        omega
      have h2 : p + nodeLen l (some c) + (projChain l zs).length
          = p + (projChain l (c :: zs)).length := by
        rw [projChain_cons, List.length_append]
        omega
      rw [h1, h2]
    · rw [projChain_cons, List.length_append]
      have hlc := hlen c (List.mem_cons_self _ _)
      omega

end Engine
namespace Engine

theorem fragOK_token (ty : Str) (ms : Str) (al : AliasV) :
    fragOK (.token (TokenC ty (.str ms) al ms)) := by
  show (TokenC ty (.str ms) al ms).lengthOf = _
  rfl

theorem SInv_not_tail (P : TokenV → Prop) (text : Str) (l : LL) (as : List Nat)
    (h : SInv P text l as) : ∀ a ∈ as, ¬ a = l.tailA := by
  intro a ha hc
  have h1 := (h.2.2.2.2.2.1 a ha).1
  rw [hc, h.2.1] at h1
  omega

theorem spliceBCD_spec (P : TokenV → Prop) (text : Str) (rc : Rec) (pc : PatCtx)
    (l1 : LL) (rfx : Nat) (usx zs ws : List Nat) (pos1x : Nat)
    (strv matchStr : Str) (fromRel : Nat)
    (rem1 : Option Rm) (reachv : Nat)
    (st1 : MGSt) (node1 : Option Nat) (pos1 : Nat)
    (hrec : RecOK P rc)
    (hpct : pc.text = text)
    (hPG : PGood P pc.grammar)
    (hPtok : ∀ content ms, P (TokenC pc.token content ((pc.aliasO).getD (.str [])) ms))
    (hH : l1.headA = 0) (hT : l1.tailA = 1) (hF2 : 2 ≤ l1.fresh)
    (hLKf : linksOK l1 0 (usx ++ zs ++ ws))
    (hND : (usx ++ zs ++ ws).Nodup)
    (hBD : ∀ a ∈ usx ++ zs ++ ws, 2 ≤ a ∧ a < l1.fresh)
    (hVAL : ∀ a ∈ usx ++ zs ++ ws, ∃ f, (l1.node a).value = some f ∧ fragOK f ∧ fragP P f)
    (htext : projChain l1 usx
      ++ (matchStr ++ jsSliceFrom strv (fromRel + matchStr.length))
      ++ projChain l1 ws = text)
    (hrfx : rfx = lastD 0 usx)
    (hpos1 : pos1x = (projChain l1 usx).length)
    (hterm : (let list2 := removeRange l1 rfx zs.length
              let inner : TokContent × MGOut := match pc.inside with
                | some g =>
                  let r := rc.tokenizeR matchStr g
                  (TokContent.stream r.1, r.2)
                | none => (TokContent.str matchStr, MGOut.norm)
              match inner.2 with
              | .norm =>
                let wrapped := TokenC pc.token inner.1 ((pc.aliasO).getD (.str []))
                  matchStr
                let ar := addAfter list2 rfx (.token wrapped)
                let tokA := ar.2
                let list3 := ar.1
                let list4 :=
                  if (jsSliceFrom strv (fromRel + matchStr.length)).isEmpty then list3
                  else (addAfter list3 tokA
                    (.str (jsSliceFrom strv (fromRel + matchStr.length)))).1
                if zs.length > 1 then
                  match (list4.node tokA).prev with
                  | some pv =>
                    let nested := rc.matchGrammarR pc.text list4 pc.grammar pv pos1x
                      (some ⟨causeStr pc.token pc.j, reachv⟩)
                    match nested.2 with
                    | .norm | .ret =>
                      let rem2 : Option Rm := match rem1, nested.1.rem with
                        | some rm, some nr =>
                          if nr.reach > rm.reach then some ⟨rm.cause, nr.reach⟩
                          else some rm
                        | r, _ => r
                      (⟨nested.1.list, rem2⟩, BodyK.advance (some tokA) pos1x)
                    | .fuel => (⟨nested.1.list, rem1⟩, BodyK.fuelK)
                    | .err => (⟨nested.1.list, rem1⟩, BodyK.errK)
                  | none => (⟨list4, rem1⟩, BodyK.errK)
                else (⟨list4, rem1⟩, BodyK.advance (some tokA) pos1x)
              | out => (⟨list2, rem1⟩,
                  if out = MGOut.fuel then BodyK.fuelK else BodyK.errK))
            = (st1, BodyK.advance node1 pos1)) :
    ∃ vs1, SInv P text st1.list (usx ++ vs1) ∧
      node1 = vs1.head? ∧
      pos1 = (projChain st1.list usx).length ∧
      (∀ a ∈ 0 :: usx, (st1.list.node a).value = (l1.node a).value) ∧
      (∀ n1, node1 = some n1 → (st1.list.node n1).value
        = some (.token (TokenC pc.token (.str matchStr)
          ((pc.aliasO).getD (.str [])) matchStr))) := by
  cases hin : pc.inside with
  | some g =>
    rw [hin] at hterm
    dsimp only at hterm
    cases hout : (rc.tokenizeR matchStr g).2 with
    | norm => exact absurd hout (hrec.1 matchStr g)
    | ret =>
      rw [hout] at hterm
      dsimp only at hterm
      injection hterm with h1 h2
      exact absurd h2 (by simp)
    | fuel =>
      rw [hout] at hterm
      dsimp only at hterm
      injection hterm with h1 h2
      exact absurd h2 (by simp)
    | err =>
      rw [hout] at hterm
      dsimp only at hterm
      injection hterm with h1 h2
      exact absurd h2 (by simp)
  | none =>
    rw [hin] at hterm
    dsimp only at hterm
    have hB := removeRange_spec l1 rfx usx zs ws hLKf hrfx hND hBD hT
    have hl2h : (removeRange l1 rfx zs.length).headA = l1.headA := hB.1
    have hl2t : (removeRange l1 rfx zs.length).tailA = l1.tailA := hB.2.1
    have hl2f : (removeRange l1 rfx zs.length).fresh = l1.fresh := hB.2.2.1
    have hl2lk : linksOK (removeRange l1 rfx zs.length) 0 (usx ++ ws) :=
      hB.2.2.2.2.1
    have hl2v : ∀ a, ((removeRange l1 rfx zs.length).node a).value
        = (l1.node a).value := hB.2.2.2.2.2
    have hndusw : (usx ++ ws).Nodup := by
      have h := hND
      rw [List.append_assoc] at h
      have h2 := List.nodup_append.mp h
      refine List.nodup_append.mpr ⟨h2.1, (List.nodup_append.mp h2.2.1).2.1, ?_⟩
      intro x hx hx2
      exact h2.2.2 hx (List.mem_append_right _ hx2)
    have hbusw : ∀ a ∈ usx ++ ws, 2 ≤ a ∧ a < (removeRange l1 rfx zs.length).fresh := by
      intro a ha
      rw [hl2f]
      refine hBD a ?_
      rcases List.mem_append.mp ha with h | h
      · exact List.mem_append_left _ (List.mem_append_left _ h)
      · exact List.mem_append_right _ h
    rcases hC1 : addAfter (removeRange l1 rfx zs.length) rfx
      (.token (TokenC pc.token (.str matchStr) ((pc.aliasO).getD (.str []))
        matchStr)) with ⟨l3, tokA⟩
    have hC1s := addAfter_spec (removeRange l1 rfx zs.length) rfx
      (.token (TokenC pc.token (.str matchStr) ((pc.aliasO).getD (.str []))
        matchStr)) usx ws hl2lk hrfx hndusw hbusw
      (by rw [hl2f]; exact hF2)
    rw [hC1] at hC1s hterm
    dsimp only at hC1s hterm
    have htokf : tokA = l1.fresh := by rw [hC1s.1, hl2f]
    have htokO : ∀ a ∈ usx ++ ws, ¬ a = tokA := by
      intro a ha hc
      have h2 := (hbusw a ha).2
      rw [hl2f, hc, htokf] at h2
      omega
    have hl3lk : linksOK l3 0 (usx ++ tokA :: ws) := by
      have h2 := hC1s.2.2.2.2.2.1
      rw [hl2f, ← htokf] at h2
      exact h2
    have hl3tok : (l3.node tokA).value
        = some (.token (TokenC pc.token (.str matchStr)
          ((pc.aliasO).getD (.str [])) matchStr)) := by
      have h2 := hC1s.2.2.2.2.2.2.1
      rw [hl2f, ← htokf] at h2
      exact h2
    have hl3vfr : ∀ a, ¬ a = tokA → (l3.node a).value = (l1.node a).value := by
      intro a ha
      rw [← hl2v a]
      refine hC1s.2.2.2.2.2.2.2 a ?_
      rw [hl2f, ← htokf]
      exact ha
    have hl3h : l3.headA = 0 := by rw [hC1s.2.1, hl2h, hH]
    have hl3t : l3.tailA = 1 := by rw [hC1s.2.2.1, hl2t, hT]
    have hl3f : l3.fresh = l1.fresh + 1 := by rw [hC1s.2.2.2.1, hl2f]
    have hmemO : ∀ a, a ∈ usx ++ ws → a ∈ usx ++ zs ++ ws := by
      intro a ha
      rcases List.mem_append.mp ha with h | h
      · exact List.mem_append_left _ (List.mem_append_left _ h)
      · exact List.mem_append_right _ h
    have hmem3 : ∀ a (rest4 : List Nat), a ∈ usx ++ tokA :: rest4 →
        a = tokA ∨ a ∈ usx ++ rest4 := by
      intro a rest4 ha
      rcases List.mem_append.mp ha with h | h
      · exact Or.inr (List.mem_append_left _ h)
      · rcases List.mem_cons.mp h with h2 | h2
        · exact Or.inl h2
        · exact Or.inr (List.mem_append_right _ h2)
    have husxtok : ∀ a ∈ usx, ¬ a = tokA :=
      fun a ha => htokO a (List.mem_append_left _ ha)
    have h0tok : ¬ (0 : Nat) = tokA := by
      rw [htokf]
      omega
    have hprojU3 : projChain l3 usx = projChain l1 usx :=
      projChain_frame l1 l3 usx (fun a ha => hl3vfr a (husxtok a ha))
    have hprojW3 : projChain l3 ws = projChain l1 ws :=
      projChain_frame l1 l3 ws
        (fun a ha => hl3vfr a (htokO a (List.mem_append_right _ ha)))
    have hvalTok3 : valStr l3 tokA = matchStr := by
      unfold valStr
      rw [hl3tok]
      rfl
    have hPJsplit : projChain l1 usx
        ++ (matchStr ++ jsSliceFrom strv (fromRel + matchStr.length))
        ++ projChain l1 ws = text := htext
    have hbnd3 : ∀ a ∈ usx ++ tokA :: ws, 2 ≤ a ∧ a < l3.fresh := by
      intro a ha
      rcases hmem3 a ws ha with h | h
      · rw [h, htokf, hl3f]
        omega
      · have h2 := hBD a (hmemO a h)
        rw [hl3f]
        omega
    have hval3 : ∀ a ∈ usx ++ tokA :: ws,
        ∃ f, (l3.node a).value = some f ∧ fragOK f ∧ fragP P f := by
      intro a ha
      rcases hmem3 a ws ha with h | h
      · refine ⟨.token (TokenC pc.token (.str matchStr)
          ((pc.aliasO).getD (.str [])) matchStr), by rw [h]; exact hl3tok,
          fragOK_token _ _ _, ?_⟩
        exact hPtok (.str matchStr) matchStr
      · obtain ⟨f, hf1, hf2⟩ := hVAL a (hmemO a h)
        exact ⟨f, by rw [hl3vfr a (htokO a h)]; exact hf1, hf2⟩
    have hnd3 : (usx ++ tokA :: ws).Nodup :=
      List.nodup_middle.mpr (List.nodup_cons.mpr
        ⟨fun hc => htokO tokA hc rfl, hndusw⟩)
    have hstage4 : ∃ l4 rest4,
        (if (jsSliceFrom strv (fromRel + matchStr.length)).isEmpty then l3
         else (addAfter l3 tokA
           (.str (jsSliceFrom strv (fromRel + matchStr.length)))).1) = l4 ∧
        SInv P text l4 (usx ++ tokA :: rest4) ∧
        (l4.node tokA).value
          = some (.token (TokenC pc.token (.str matchStr)
            ((pc.aliasO).getD (.str [])) matchStr)) ∧
        (∀ a ∈ 0 :: usx, (l4.node a).value = (l1.node a).value) := by
      by_cases hae : (jsSliceFrom strv (fromRel + matchStr.length)).isEmpty = true
      · have haen : jsSliceFrom strv (fromRel + matchStr.length) = [] :=
          List.isEmpty_iff.mp hae
        refine ⟨l3, ws, by rw [if_pos hae], ⟨hl3h, hl3t, by omega, hl3lk,
          hnd3, hbnd3, hval3, ?_⟩, hl3tok, ?_⟩
        · rw [projChain_append, projChain_cons, hprojU3, hprojW3, hvalTok3]
          rw [haen] at hPJsplit
          rw [← hPJsplit]
          simp
        · intro a ha
          rcases List.mem_cons.mp ha with h | h
          · rw [h]
            exact hl3vfr 0 h0tok
          · exact hl3vfr a (husxtok a h)
      · have hassoc : (usx ++ [tokA]) ++ ws = usx ++ tokA :: ws := by simp
        have hC2s := addAfter_spec l3 tokA
          (.str (jsSliceFrom strv (fromRel + matchStr.length)))
          (usx ++ [tokA]) ws
          (by rw [hassoc]; exact hl3lk)
          (by rw [lastD_append]; rfl)
          (by rw [hassoc]; exact hnd3)
          (by
            intro a ha
            rw [hassoc] at ha
            exact hbnd3 a ha)
          (by omega)
        have haA : l3.fresh ∉ usx ++ tokA :: ws := by
          intro hc
          have := (hbnd3 _ hc).2
          omega
        have hfr : ∀ b ∈ usx ++ tokA :: ws, ((addAfter l3 tokA
            (.str (jsSliceFrom strv (fromRel + matchStr.length)))).1.node b).value
              = (l3.node b).value := by
          intro b hb
          refine hC2s.2.2.2.2.2.2.2 b ?_
          intro hc
          exact haA (by rw [← hc]; exact hb)
        have hassoc2 : (usx ++ [tokA]) ++ l3.fresh :: ws
            = usx ++ tokA :: l3.fresh :: ws := by simp
        refine ⟨(addAfter l3 tokA
          (.str (jsSliceFrom strv (fromRel + matchStr.length)))).1,
          l3.fresh :: ws, by rw [if_neg hae], ⟨?_, ?_, ?_, ?_, ?_, ?_, ?_, ?_⟩,
          ?_, ?_⟩
        · rw [hC2s.2.1, hl3h]
        · rw [hC2s.2.2.1, hl3t]
        · rw [hC2s.2.2.2.1]
          omega
        · have h2 := hC2s.2.2.2.2.2.1
          rw [hassoc2] at h2
          exact h2
        · rw [← hassoc2]
          refine List.nodup_middle.mpr (List.nodup_cons.mpr ⟨?_, ?_⟩)
          · intro hc
            rw [hassoc] at hc
            exact haA hc
          · rw [hassoc]
            exact hnd3
        · intro a ha
          rw [hC2s.2.2.2.1]
          rcases hmem3 a (l3.fresh :: ws) ha with h | h
          · have h2 := hbnd3 tokA
              (List.mem_append_right _ (List.mem_cons_self _ _))
            rw [h]
            omega
          · rcases List.mem_append.mp h with h2 | h2
            · have := hbnd3 a (List.mem_append_left _ h2)
              omega
            · rcases List.mem_cons.mp h2 with h3 | h3
              · rw [h3]
                omega
              · have := hbnd3 a
                  (List.mem_append_right _ (List.mem_cons_of_mem _ h3))
                omega
        · intro a ha
          by_cases hafr : a = l3.fresh
          · refine ⟨.str (jsSliceFrom strv (fromRel + matchStr.length)),
              by rw [hafr]; exact hC2s.2.2.2.2.2.2.1, rfl, trivial⟩
          · obtain ⟨f, hf1, hf2⟩ : ∃ f, (l3.node a).value = some f ∧
                fragOK f ∧ fragP P f := by
              refine hval3 a ?_
              rcases hmem3 a (l3.fresh :: ws) ha with h | h
              · rw [h]
                exact List.mem_append_right _ (List.mem_cons_self _ _)
              · rcases List.mem_append.mp h with h2 | h2
                · exact List.mem_append_left _ h2
                · rcases List.mem_cons.mp h2 with h3 | h3
                  · exact absurd h3 hafr
                  · exact List.mem_append_right _ (List.mem_cons_of_mem _ h3)
            refine ⟨f, ?_, hf2⟩
            rw [hfr a ?_]
            · exact hf1
            · rcases hmem3 a (l3.fresh :: ws) ha with h | h
              · rw [h]
                exact List.mem_append_right _ (List.mem_cons_self _ _)
              · rcases List.mem_append.mp h with h2 | h2
                · exact List.mem_append_left _ h2
                · rcases List.mem_cons.mp h2 with h3 | h3
                  · exact absurd h3 hafr
                  · exact List.mem_append_right _ (List.mem_cons_of_mem _ h3)
        · have hU : projChain (addAfter l3 tokA
              (.str (jsSliceFrom strv (fromRel + matchStr.length)))).1 usx
              = projChain l1 usx := by
            rw [projChain_frame l3 _ usx
              (fun a ha => hfr a (List.mem_append_left _ ha)), hprojU3]
          have hW : projChain (addAfter l3 tokA
              (.str (jsSliceFrom strv (fromRel + matchStr.length)))).1 ws
              = projChain l1 ws := by
            rw [projChain_frame l3 _ ws (fun a ha => hfr a
              (List.mem_append_right _ (List.mem_cons_of_mem _ ha))), hprojW3]
          have hvT : valStr (addAfter l3 tokA
              (.str (jsSliceFrom strv (fromRel + matchStr.length)))).1 tokA
              = matchStr := by
            unfold valStr
            rw [hfr tokA (List.mem_append_right _ (List.mem_cons_self _ _)),
              hl3tok]
            rfl
          have hvA : valStr (addAfter l3 tokA
              (.str (jsSliceFrom strv (fromRel + matchStr.length)))).1 l3.fresh
              = jsSliceFrom strv (fromRel + matchStr.length) := by
            unfold valStr
            rw [hC2s.2.2.2.2.2.2.1]
            rfl
          rw [projChain_append, projChain_cons, projChain_cons, hU, hW,
            hvT, hvA, ← hPJsplit]
          simp
        · rw [hfr tokA (List.mem_append_right _ (List.mem_cons_self _ _))]
          exact hl3tok
        · intro a ha
          have hne : ¬ a = tokA := by
            rcases List.mem_cons.mp ha with h | h
            · rw [h]
              exact h0tok
            · exact husxtok a h
          have hmem : a ∈ usx ++ tokA :: ws ∨ a = 0 := by
            rcases List.mem_cons.mp ha with h | h
            · exact Or.inr h
            · exact Or.inl (List.mem_append_left _ h)
          rcases hmem with h | h
          · rw [hfr a h]
            exact hl3vfr a hne
          · rw [h]
            rw [hC2s.2.2.2.2.2.2.2 0 (by
              intro hc
              rw [hl3f] at hc
              omega)]
            exact hl3vfr 0 h0tok
    obtain ⟨l4, rest4, hl4eq, hinv4, htok4, hfr4⟩ := hstage4
    rw [hl4eq] at hterm
    have hprojU4 : projChain l4 usx = projChain l1 usx :=
      projChain_frame l1 l4 usx (fun a ha => hfr4 a (List.mem_cons_of_mem _ ha))
    by_cases hgt : zs.length > 1
    · rw [if_pos hgt] at hterm
      have hpv : (l4.node tokA).prev = some (lastD 0 usx) :=
        linksChain_prev l4 0 usx tokA rest4 hinv4.2.2.2.1.1
      rw [hpv] at hterm
      dsimp only at hterm
      rcases hnst : rc.matchGrammarR pc.text l4 pc.grammar (lastD 0 usx) pos1x
        (some ⟨causeStr pc.token pc.j, reachv⟩) with ⟨nst, nout⟩
      rw [hnst] at hterm
      have hmg := hrec.2 pc.text l4 pc.grammar (lastD 0 usx) pos1x
        (some ⟨causeStr pc.token pc.j, reachv⟩) usx (tokA :: rest4) hPG
        (by rw [hpct]; exact hinv4) rfl (by rw [hpos1, hprojU4])
      rw [hnst] at hmg
      cases nout with
      | norm =>
        dsimp only at hterm
        injection hterm with h1 h2
        injection h2 with h2a h2b
        obtain ⟨vs1n, hSn, hFn, hTn⟩ := hmg (Or.inl rfl)
        obtain ⟨ts1, hvs1n, htokn⟩ := hTn tokA rest4 _ rfl htok4
        refine ⟨vs1n, ?_, ?_, ?_, ?_, ?_⟩
        · rw [← h1]
          rw [hpct] at hSn
          exact hSn
        · rw [← h2a, hvs1n]
          rfl
        · rw [← h2b, ← h1]
          show pos1x = (projChain nst.list usx).length
          rw [hpos1, ← hprojU4,
            projChain_frame l4 nst.list usx (fun a ha => hFn a
              (List.mem_cons_of_mem _ ha))]
        · intro a ha
          rw [← h1]
          show (nst.list.node a).value = _
          rw [hFn a ha]
          exact hfr4 a ha
        · intro n1 hn1
          rw [← h2a] at hn1
          injection hn1 with hn2
          rw [← h1]
          show (nst.list.node n1).value = _
          rw [← hn2]
          exact htokn
      | ret =>
        dsimp only at hterm
        injection hterm with h1 h2
        injection h2 with h2a h2b
        obtain ⟨vs1n, hSn, hFn, hTn⟩ := hmg (Or.inr rfl)
        obtain ⟨ts1, hvs1n, htokn⟩ := hTn tokA rest4 _ rfl htok4
        refine ⟨vs1n, ?_, ?_, ?_, ?_, ?_⟩
        · rw [← h1]
          rw [hpct] at hSn
          exact hSn
        · rw [← h2a, hvs1n]
          rfl
        · rw [← h2b, ← h1]
          show pos1x = (projChain nst.list usx).length
          rw [hpos1, ← hprojU4,
            projChain_frame l4 nst.list usx (fun a ha => hFn a
              (List.mem_cons_of_mem _ ha))]
        · intro a ha
          rw [← h1]
          show (nst.list.node a).value = _
          rw [hFn a ha]
          exact hfr4 a ha
        · intro n1 hn1
          rw [← h2a] at hn1
          injection hn1 with hn2
          rw [← h1]
          show (nst.list.node n1).value = _
          rw [← hn2]
          exact htokn
      | fuel =>
        dsimp only at hterm
        injection hterm with h1 h2
        exact absurd h2 (by simp)
      | err =>
        dsimp only at hterm
        injection hterm with h1 h2
        exact absurd h2 (by simp)
    · rw [if_neg hgt] at hterm
      injection hterm with h1 h2
      injection h2 with h2a h2b
      refine ⟨tokA :: rest4, ?_, ?_, ?_, ?_, ?_⟩
      · rw [← h1]
        exact hinv4
      · rw [← h2a]
        rfl
      · rw [← h2b, ← h1]
        show pos1x = (projChain l4 usx).length
        rw [hpos1, hprojU4]
      · intro a ha
        rw [← h1]
        exact hfr4 a ha
      · intro n1 hn1
        rw [← h2a] at hn1
        injection hn1 with hn2
        rw [← h1]
        show (l4.node n1).value = _
        rw [← hn2]
        exact htok4

end Engine
namespace Engine

theorem splice_spec (P : TokenV → Prop) (text : Str) (rc : Rec) (pc : PatCtx)
    (st : MGSt) (c : Nat) (zs' us ws : List Nat) (pos : Nat)
    (strv matchStr : Str) (fromRel : Nat)
    (st1 : MGSt) (node1 : Option Nat) (pos1 : Nat)
    (hrec : RecOK P rc)
    (hpct : pc.text = text)
    (hPG : PGood P pc.grammar)
    (hPtok : ∀ content ms, P (TokenC pc.token content ((pc.aliasO).getD (.str [])) ms))
    (hinv : SInv P text st.list (us ++ (c :: zs') ++ ws))
    (hpos : pos = (projChain st.list us).length)
    (hstrv : projChain st.list (c :: zs') = strv)
    (hsplit : jsSlice strv 0 fromRel ++ matchStr
      ++ jsSliceFrom strv (fromRel + matchStr.length) = strv)
    (hterm : splice rc pc st (some c) pos strv fromRel matchStr (zs'.length + 1)
      = (st1, .advance node1 pos1)) :
    ∃ ext vs1, SInv P text st1.list ((us ++ ext) ++ vs1) ∧
      node1 = vs1.head? ∧
      pos1 = (projChain st1.list (us ++ ext)).length ∧
      (∀ a ∈ 0 :: us, (st1.list.node a).value = (st.list.node a).value) ∧
      (∀ x ∈ ext, x = st.list.fresh) ∧
      (∀ n1, node1 = some n1 → (st1.list.node n1).value
        = some (.token (TokenC pc.token (.str matchStr)
          ((pc.aliasO).getD (.str [])) matchStr))) := by
  obtain ⟨hH, hT, hF2, hLK, hND, hBD, hVAL, hPJ⟩ := hinv
  have hprev : (st.list.node c).prev = some (lastD 0 us) := by
    have h := hLK.1
    rw [List.append_assoc] at h
    exact linksChain_prev st.list 0 us c (zs' ++ ws) h
  unfold splice at hterm
  dsimp only at hterm
  rw [hprev] at hterm
  dsimp only at hterm
  by_cases hbe : (jsSlice strv 0 fromRel).isEmpty = true
  · rw [if_pos hbe] at hterm
    dsimp only at hterm
    have hben : jsSlice strv 0 fromRel = [] := List.isEmpty_iff.mp hbe
    rw [hben, List.nil_append] at hsplit
    have htext : projChain st.list us
        ++ (matchStr ++ jsSliceFrom strv (fromRel + matchStr.length))
        ++ projChain st.list ws = text := by
      rw [hsplit, ← hstrv, ← projChain_append, ← projChain_append]
      exact hPJ
    obtain ⟨vs1, hS, hN, hP, hV, hTok⟩ := spliceBCD_spec P text rc pc st.list
      (lastD 0 us) us (c :: zs') ws pos strv matchStr fromRel
      (match st.rem with
        | some rm => if pos + strv.length > rm.reach
            then some ⟨rm.cause, pos + strv.length⟩ else some rm
        | none => none)
      (pos + strv.length) st1 node1 pos1 hrec hpct hPG hPtok
      hH hT hF2 hLK hND hBD hVAL htext rfl hpos hterm
    refine ⟨[], vs1, ?_, hN, ?_, ?_, ?_, ?_⟩
    · rw [List.append_nil]
      exact hS
    · rw [List.append_nil]
      exact hP
    · exact hV
    · intro x hx
      exact absurd hx (by simp)
    · exact hTok
  · rw [if_neg hbe] at hterm
    rcases hA : addAfter st.list (lastD 0 us)
      (.str (jsSlice strv 0 fromRel)) with ⟨l1, bA⟩
    have hLKa : linksOK st.list 0 (us ++ ((c :: zs') ++ ws)) := by
      rw [← List.append_assoc]
      exact hLK
    have hNDa : (us ++ ((c :: zs') ++ ws)).Nodup := by
      rw [← List.append_assoc]
      exact hND
    have hBDa : ∀ a ∈ us ++ ((c :: zs') ++ ws), 2 ≤ a ∧ a < st.list.fresh := by
      rw [← List.append_assoc]
      exact hBD
    have hAs := addAfter_spec st.list (lastD 0 us)
      (.str (jsSlice strv 0 fromRel)) us ((c :: zs') ++ ws)
      hLKa rfl hNDa hBDa hF2
    rw [hA] at hAs hterm
    dsimp only at hAs hterm
    have hbAf : bA = st.list.fresh := hAs.1
    have hid : ((us ++ [bA]) ++ (c :: zs')) ++ ws
        = us ++ bA :: ((c :: zs') ++ ws) := by simp
    have hbAo : ∀ a ∈ us ++ (c :: zs') ++ ws, ¬ a = bA := by
      intro a ha hc
      have h2 := (hBD a ha).2
      rw [hc, hbAf] at h2
      omega
    have h0bA : ¬ (0 : Nat) = bA := by
      rw [hbAf]
      omega
    have hfr1 : ∀ a, ¬ a = bA → (l1.node a).value = (st.list.node a).value := by
      intro a ha
      refine hAs.2.2.2.2.2.2.2 a ?_
      rw [← hbAf]
      exact ha
    have hprojU1 : projChain l1 us = projChain st.list us :=
      projChain_frame st.list l1 us
        (fun a ha => hfr1 a (hbAo a (List.mem_append_left ws
          (List.mem_append_left _ ha))))
    have hprojW1 : projChain l1 ws = projChain st.list ws :=
      projChain_frame st.list l1 ws
        (fun a ha => hfr1 a (hbAo a (List.mem_append_right _ ha)))
    have hvbA : valStr l1 bA = jsSlice strv 0 fromRel := by
      unfold valStr
      rw [hbAf, hAs.2.2.2.2.2.2.1]
      rfl
    have hprojUB : projChain l1 (us ++ [bA])
        = projChain st.list us ++ jsSlice strv 0 fromRel := by
      rw [projChain_append, hprojU1, projChain_cons, projChain_nil,
        List.append_nil, hvbA]
    have hlk1 : linksOK l1 0 (((us ++ [bA]) ++ (c :: zs')) ++ ws) := by
      rw [hid]
      have h2 := hAs.2.2.2.2.2.1
      rw [← hbAf] at h2
      exact h2
    have hsplitmem : ∀ a, a ∈ ((us ++ [bA]) ++ (c :: zs')) ++ ws →
        a = bA ∨ a ∈ us ++ (c :: zs') ++ ws := by
      intro a ha
      rw [hid] at ha
      rcases List.mem_append.mp ha with h | h
      · exact Or.inr (List.mem_append_left ws (List.mem_append_left _ h))
      · rcases List.mem_cons.mp h with h2 | h2
        · exact Or.inl h2
        · rcases List.mem_append.mp h2 with h3 | h3
          · exact Or.inr (List.mem_append_left ws (List.mem_append_right us h3))
          · exact Or.inr (List.mem_append_right _ h3)
    have hnd1 : (((us ++ [bA]) ++ (c :: zs')) ++ ws).Nodup := by
      rw [hid]
      refine List.nodup_middle.mpr (List.nodup_cons.mpr ⟨?_, ?_⟩)
      · intro hc
        rw [← List.append_assoc] at hc
        exact hbAo bA hc rfl
      · rw [← List.append_assoc]
        exact hND
    have hbd1 : ∀ a ∈ ((us ++ [bA]) ++ (c :: zs')) ++ ws,
        2 ≤ a ∧ a < l1.fresh := by
      intro a ha
      rw [hAs.2.2.2.1]
      rcases hsplitmem a ha with h | h
      · rw [h, hbAf]
        omega
      · have := hBD a h
        omega
    have hval1 : ∀ a ∈ ((us ++ [bA]) ++ (c :: zs')) ++ ws,
        ∃ f, (l1.node a).value = some f ∧ fragOK f ∧ fragP P f := by
      intro a ha
      by_cases hab : a = bA
      · refine ⟨.str (jsSlice strv 0 fromRel), ?_, rfl, trivial⟩
        rw [hab, hbAf]
        exact hAs.2.2.2.2.2.2.1
      · rcases hsplitmem a ha with h | h
        · exact absurd h hab
        · obtain ⟨f, hf1, hf2⟩ := hVAL a h
          exact ⟨f, by rw [hfr1 a hab]; exact hf1, hf2⟩
    have hPJ2 : (projChain st.list us ++ strv) ++ projChain st.list ws
        = text := by
      rw [← hstrv, ← projChain_append, ← projChain_append]
      exact hPJ
    have htext : projChain l1 (us ++ [bA])
        ++ (matchStr ++ jsSliceFrom strv (fromRel + matchStr.length))
        ++ projChain l1 ws = text := by
      rw [hprojUB, hprojW1, ← hPJ2]
      conv_rhs => rw [← hsplit]
      simp
    obtain ⟨vs1, hS, hN, hP, hV, hTok⟩ := spliceBCD_spec P text rc pc l1
      bA (us ++ [bA]) (c :: zs') ws (pos + (jsSlice strv 0 fromRel).length)
      strv matchStr fromRel
      (match st.rem with
        | some rm => if pos + strv.length > rm.reach
            then some ⟨rm.cause, pos + strv.length⟩ else some rm
        | none => none)
      (pos + strv.length) st1 node1 pos1 hrec hpct hPG hPtok
      (by rw [hAs.2.1]; exact hH) (by rw [hAs.2.2.1]; exact hT)
      (by rw [hAs.2.2.2.1]; omega) hlk1 hnd1 hbd1 hval1 htext
      (by rw [lastD_append]; rfl)
      (by rw [hprojUB, List.length_append, hpos]) hterm
    refine ⟨[bA], vs1, hS, hN, hP, ?_, ?_, hTok⟩
    swap
    · intro x hx
      rw [List.mem_singleton.mp hx]
      exact hbAf
    intro a ha
    have hmem1 : a ∈ 0 :: (us ++ [bA]) := by
      rcases List.mem_cons.mp ha with h | h
      · rw [h]
        exact List.mem_cons_self _ _
      · exact List.mem_cons_of_mem _ (List.mem_append_left _ h)
    rw [hV a hmem1]
    refine hfr1 a ?_
    rcases List.mem_cons.mp ha with h | h
    · rw [h]
      exact h0bA
    · exact hbAo a (List.mem_append_left ws (List.mem_append_left _ h))

end Engine
namespace Engine

theorem jsSlice_length (s : Str) (x y : Nat) (hxy : x ≤ y) (hy : y ≤ s.length) :
    (jsSlice s x y).length = y - x := by
  unfold jsSlice
  rw [List.length_drop, List.length_take]
  omega

theorem jsSlice_append_left (u w : Str) (x y : Nat) (hy : y ≤ u.length) :
    jsSlice (u ++ w) x y = jsSlice u x y := by
  unfold jsSlice
  rw [List.take_append_of_le_length hy]

theorem jsSlice_inner (U V W : Str) (x y : Nat) (hy : y ≤ V.length) :
    jsSlice ((U ++ V) ++ W) (U.length + x) (U.length + y) = jsSlice V x y := by
  rw [List.append_assoc, jsSlice_shift, jsSlice_append_left V W x y hy]

theorem matchPattern_wf (pattern : RegExpFn) (pos : Nat) (text : Str)
    (lb : Bool) (m : MatchRes)
    (h : matchPattern pattern pos text lb = some m) :
    (pattern.globalFlag = true → pos ≤ m.index) ∧
      m.index + m.len ≤ text.length := by
  unfold matchPattern execJS at h
  cases he : pattern.execAt text (if pattern.globalFlag then pos else 0) with
  | none =>
    rw [he] at h
    exact absurd h (by simp)
  | some m0 =>
    rw [he] at h
    dsimp only at h
    have hwf := pattern.wf text _ m0 he
    have hbase : pattern.globalFlag = true → pos ≤ m0.index := by
      intro hg
      have h1 := hwf.1
      rw [hg] at h1
      simpa using h1
    by_cases hlb : (lb && decide (0 < m0.lb)) = true
    · rw [if_pos hlb] at h
      have hm : m = ⟨m0.index + m0.lb, m0.len - m0.lb, m0.lb⟩ :=
        (Option.some.inj h).symm
      rw [hm]
      dsimp only
      refine ⟨fun hg => ?_, ?_⟩
      · have := hbase hg
        omega
      · have h2 := hwf.2.1
        have h3 := hwf.2.2
        omega
    · rw [if_neg hlb] at h
      have hm : m = m0 := (Option.some.inj h).symm
      rw [hm]
      exact ⟨hbase, hwf.2.1⟩

theorem linksOK_suffix_seqNext (l : LL) (us : List Nat) (a : Nat) (ts : List Nat)
    (h : linksOK l 0 (us ++ a :: ts)) :
    seqNext l ((l.node a).next) ts none := by
  have h1 := ((linksChain_append l us (a :: ts) 0).mp h.1).2
  have h3 := linksChain_seqNext l ts a h1.2.2
  have h4 : lastD a ts = lastD 0 (us ++ a :: ts) := by
    rw [lastD_append]
    rfl
  rw [h4, h.2] at h3
  exact h3

theorem linksOK_next_head (l : LL) (us : List Nat) (n : Nat) (rest : List Nat)
    (h : linksOK l 0 (us ++ n :: rest)) :
    (l.node n).next = rest.head? := by
  have h2 := linksOK_suffix_seqNext l us n rest h
  cases rest with
  | nil => exact h2
  | cons r rs => exact h2.1

end Engine
namespace Engine
theorem splice_not_brk_ret (rc : Rec) (pc : PatCtx) (st : MGSt) (curr : Option Nat)
    (pos : Nat) (strv : Str) (fromRel : Nat) (matchStr : Str) (removeCount : Nat) :
    ¬ ((splice rc pc st curr pos strv fromRel matchStr removeCount).2 = .brk ∨
      (splice rc pc st curr pos strv fromRel matchStr removeCount).2 = .ret) := by
  unfold splice
  dsimp only
  repeat' split
  all_goals simp

set_option maxHeartbeats 1600000 in
theorem body_spec (P : TokenV → Prop) (text : Str) (rc : Rec) (pc : PatCtx)
    (st : MGSt) (curr : Option Nat) (pos : Nat) (usC vsC : List Nat)
    (st1 : MGSt) (k : BodyK)
    (hrec : RecOK P rc)
    (hpct : pc.text = text)
    (hPG : PGood P pc.grammar)
    (hPtok : ∀ content ms, P (TokenC pc.token content ((pc.aliasO).getD (.str [])) ms))
    (hglob : pc.greedy = true → pc.pattern.globalFlag = true)
    (hinv : SInv P text st.list (usC ++ vsC))
    (hcur : curr = vsC.head?)
    (hpos : pos = (projChain st.list usC).length)
    (hterm : body rc pc st curr pos = (st1, k)) :
    match k with
    | .advance node1 pos1 =>
      ∃ ext vs1, SInv P text st1.list ((usC ++ ext) ++ vs1) ∧
        node1 = vs1.head? ∧
        pos1 = (projChain st1.list (usC ++ ext)).length ∧
        (∀ a ∈ 0 :: usC, (st1.list.node a).value = (st.list.node a).value) ∧
        (∀ t ts tok, vsC = t :: ts →
          (st.list.node t).value = some (.token tok) →
          ∃ rest1, ext ++ vs1 = t :: rest1 ∧
            (st1.list.node t).value = some (.token tok))
    | .brk => st1 = st
    | .ret => st1 = st
    | .fuelK => True
    | .errK => True := by
  unfold body at hterm
  dsimp only at hterm
  by_cases hrb : (match st.rem with
      | some rm => decide (pos ≥ rm.reach)
      | none => false) = true
  · rw [if_pos hrb] at hterm
    injection hterm with h1 h2
    subst h2
    exact h1.symm
  · rw [if_neg hrb] at hterm
    cases vsC with
    | nil =>
      rw [List.append_nil] at hinv
      have hcur2 : curr = none := hcur
      rw [hcur2] at hterm
      dsimp only at hterm
      injection hterm with h1 h2
      subst h2
      refine ⟨[], [], ?_, rfl, ?_, ?_, ?_⟩
      · rw [← h1, List.append_nil, List.append_nil]
        exact hinv
      · rw [← h1, List.append_nil]
        exact hpos
      · intro a _
        rw [← h1]
      · intro t ts tok hvs _
        exact absurd hvs (by simp)
    | cons a ts =>
      have hcur2 : curr = some a := hcur
      rw [hcur2] at hterm
      dsimp only at hterm
      obtain ⟨f, hfv, hfOK, hfP⟩ := hinv.2.2.2.2.2.2.1 a
        (List.mem_append_right _ (List.mem_cons_self _ _))
      rw [hfv] at hterm
      dsimp only at hterm
      by_cases hsv : st.list.length > pc.text.length
      · rw [if_pos hsv] at hterm
        injection hterm with h1 h2
        subst h2
        exact h1.symm
      · rw [if_neg hsv] at hterm
        cases f with
        | token tok0 =>
          dsimp only at hterm
          injection hterm with h1 h2
          subst h2
          refine ⟨[], a :: ts, ?_, rfl, ?_, ?_, ?_⟩
          · rw [← h1, List.append_nil]
            exact hinv
          · rw [← h1, List.append_nil]
            exact hpos
          · intro x _
            rw [← h1]
          · intro t ts0 tok hvs hval
            refine ⟨ts0, ?_, ?_⟩
            · rw [List.nil_append, hvs]
            · rw [← h1]
              exact hval
        | str strv =>
          dsimp only at hterm
          by_cases hgr : pc.greedy = true
          · rw [if_pos hgr] at hterm
            cases hm : matchPattern pc.pattern pos pc.text pc.lookbehind with
            | none =>
              rw [hm] at hterm
              injection hterm with h1 h2
              subst h2
              exact h1.symm
            | some m =>
              rw [hm] at hterm
              dsimp only at hterm
              by_cases hmi : m.index ≥ pc.text.length
              · rw [if_pos hmi] at hterm
                injection hterm with h1 h2
                subst h2
                exact h1.symm
              · rw [if_neg hmi] at hterm
                have hwfm := matchPattern_wf pc.pattern pos pc.text pc.lookbehind m hm
                have hposle : pos ≤ m.index := hwfm.1 (hglob hgr)
                have hmle : m.index + m.len ≤ pc.text.length := hwfm.2
                have hlenAll : ∀ x ∈ usC ++ a :: ts,
                    nodeLen st.list (some x) = (valStr st.list x).length := by
                  intro x hx
                  obtain ⟨fx, h1, h2, _⟩ := hinv.2.2.2.2.2.2.1 x hx
                  exact nodeLen_eq_valStr st.list x ⟨fx, h1, h2⟩
                have hseq : seqNext st.list ((st.list.node a).next) ts none :=
                  linksOK_suffix_seqNext st.list usC a ts hinv.2.2.2.1
                have htextlen : pc.text.length
                    = pos + (projChain st.list (a :: ts)).length := by
                  have h := hinv.2.2.2.2.2.2.2
                  rw [projChain_append] at h
                  rw [hpct, ← h, List.length_append, hpos]
                have htot : m.index < pos + (projChain st.list (a :: ts)).length := by
                  omega
                have hndsub : (a :: ts).Nodup :=
                  (List.nodup_append.mp hinv.2.2.2.2.1).2.1
                have hlenle : (a :: ts).length ≤ st.list.fresh :=
                  nodup_length_le (a :: ts) st.list.fresh hndsub
                    (fun x hx => (hinv.2.2.2.2.2.1 x (List.mem_append_right _ hx)).2)
                have hfuel1 : ts.length < st.list.fresh + 1 := by
                  simp only [List.length_cons] at hlenle
                  omega
                obtain ⟨es, c2, fs, hsplitFS, heqFS, hgeFS, hltFS⟩ :=
                  findStart_spec st.list ts (st.list.fresh + 1) a pos m.index none
                    hseq (fun x hx => hlenAll x (List.mem_append_right _ hx))
                    htot hposle hfuel1
                have hnla : nodeLen st.list (some a) = strv.length := by
                  simp [nodeLen, hfv, Frag.lengthF]
                rw [hnla] at heqFS
                rw [heqFS] at hterm
                dsimp only at hterm
                rw [Nat.add_sub_cancel] at hterm
                have hmemc2 : c2 ∈ usC ++ a :: ts := by
                  refine List.mem_append_right _ ?_
                  rw [hsplitFS]
                  exact List.mem_append_right _ (List.mem_cons_self _ _)
                obtain ⟨f2, hf2v, hf2OK, hf2P⟩ := hinv.2.2.2.2.2.2.1 c2 hmemc2
                have hidl : (usC ++ es) ++ (c2 :: fs) = usC ++ a :: ts := by
                  rw [hsplitFS]
                  simp
                cases f2 with
                | token tok2 =>
                  rw [hf2v] at hterm
                  dsimp only at hterm
                  rw [if_pos rfl] at hterm
                  injection hterm with h1 h2
                  subst h2
                  refine ⟨es, c2 :: fs, ?_, rfl, ?_, ?_, ?_⟩
                  · rw [← h1, hidl]
                    exact hinv
                  · rw [← h1, projChain_append, List.length_append, hpos]
                  · intro x _
                    rw [← h1]
                  · intro t ts0 tok hvs hval
                    have he1 : a = t := ((List.cons.injEq a ts t ts0).mp hvs).1
                    have he2 : ts = ts0 := ((List.cons.injEq a ts t ts0).mp hvs).2
                    refine ⟨ts0, ?_, ?_⟩
                    · rw [← hsplitFS, he1, he2]
                    · rw [← h1]
                      exact hval
                | str s2 =>
                  rw [hf2v] at hterm
                  dsimp only at hterm
                  rw [if_neg (by simp)] at hterm
                  have hlk2 : linksOK st.list 0 ((usC ++ es) ++ (c2 :: fs)) := by
                    rw [hidl]
                    exact hinv.2.2.2.1
                  have hseq2 : seqNext st.list ((st.list.node c2).next) fs none :=
                    linksOK_suffix_seqNext st.list (usC ++ es) c2 fs hlk2
                  have htail2 : ∀ x ∈ c2 :: fs, ¬ x = st.list.tailA := by
                    intro x hx
                    exact SInv_not_tail P text st.list (usC ++ a :: ts) hinv x
                      (hidl ▸ List.mem_append_right (usC ++ es) hx)
                  have hlen2 : ∀ x ∈ c2 :: fs,
                      nodeLen st.list (some x) = (valStr st.list x).length := by
                    intro x hx
                    exact hlenAll x (hidl ▸ List.mem_append_right (usC ++ es) hx)
                  have hprojsplit : (projChain st.list (a :: ts)).length
                      = (projChain st.list es).length
                        + (projChain st.list (c2 :: fs)).length := by
                    rw [hsplitFS, projChain_append, List.length_append]
                  have htot2 : m.index + m.len ≤ pos + (projChain st.list es).length
                      + (projChain st.list (c2 :: fs)).length := by
                    omega
                  have hfuel2 : fs.length + 1 < st.list.fresh + 1 := by
                    have h1 : (a :: ts).length = es.length + (c2 :: fs).length := by
                      rw [hsplitFS, List.length_append]
                    simp only [List.length_cons] at h1 hlenle
                    omega
                  obtain ⟨zsE, fsE, hsp2, hzlen, heq2, hle2⟩ :=
                    findEnd_spec st.list c2 fs (st.list.fresh + 1)
                      (pos + (projChain st.list es).length) 1 (m.index + m.len)
                      hseq2 htail2 hlen2 htot2 hfuel2 (Or.inr ⟨s2, hf2v⟩)
                  rw [heq2] at hterm
                  dsimp only at hterm
                  have hrc : 1 + zsE.length - 1 = zsE.length := by omega
                  rw [hrc] at hterm
                  cases zsE with
                  | nil => exact absurd hzlen (by simp)
                  | cons z0 zsE' =>
                    have hz0 : c2 = z0 :=
                      ((List.cons.injEq c2 fs z0 (zsE' ++ fsE)).mp hsp2).1
                    have hfs2 : fs = zsE' ++ fsE :=
                      ((List.cons.injEq c2 fs z0 (zsE' ++ fsE)).mp hsp2).2
                    subst hz0
                    cases k with
                    | advance node1 pos1 =>
                      have hidl2 : ((usC ++ es) ++ (c2 :: zsE')) ++ fsE
                          = usC ++ a :: ts := by
                        rw [hsplitFS, hfs2]
                        simp
                      have hinv3 : SInv P text st.list
                          (((usC ++ es) ++ (c2 :: zsE')) ++ fsE) := by
                        rw [hidl2]
                        exact hinv
                      have hpos3 : pos + (projChain st.list es).length
                          = (projChain st.list (usC ++ es)).length := by
                        rw [projChain_append, List.length_append, hpos]
                      have htext3 : (projChain st.list (usC ++ es)
                          ++ projChain st.list (c2 :: zsE'))
                          ++ projChain st.list fsE = text := by
                        rw [← projChain_append, ← projChain_append, hidl2]
                        exact hinv.2.2.2.2.2.2.2
                      have hpct3 : pc.text = (projChain st.list (usC ++ es)
                          ++ projChain st.list (c2 :: zsE'))
                          ++ projChain st.list fsE := by
                        rw [htext3, hpct]
                      have hUlen : (projChain st.list (usC ++ es)).length
                          = pos + (projChain st.list es).length := hpos3.symm
                      have hVstr : jsSlice pc.text
                          (pos + (projChain st.list es).length)
                          (pos + (projChain st.list es).length
                            + (projChain st.list (c2 :: zsE')).length)
                          = projChain st.list (c2 :: zsE') := by
                        rw [hpct3, ← hUlen]
                        exact jsSlice_mid _ _ _
                      have hVlen : m.index - (pos + (projChain st.list es).length)
                          + m.len ≤ (projChain st.list (c2 :: zsE')).length := by
                        omega
                      have hmsV : jsSlice pc.text m.index (m.index + m.len)
                          = jsSlice (projChain st.list (c2 :: zsE'))
                            (m.index - (pos + (projChain st.list es).length))
                            (m.index - (pos + (projChain st.list es).length)
                              + m.len) := by
                        have h5 := jsSlice_inner (projChain st.list (usC ++ es))
                          (projChain st.list (c2 :: zsE')) (projChain st.list fsE)
                          (m.index - (pos + (projChain st.list es).length))
                          (m.index - (pos + (projChain st.list es).length) + m.len)
                          hVlen
                        rw [hUlen] at h5
                        have hb1 : pos + (projChain st.list es).length
                            + (m.index - (pos + (projChain st.list es).length))
                            = m.index := by omega
                        have hb2 : pos + (projChain st.list es).length
                            + (m.index - (pos + (projChain st.list es).length)
                              + m.len) = m.index + m.len := by omega
                        rw [hb1, hb2] at h5
                        rw [hpct3]
                        exact h5
                      have hmslen : (jsSlice pc.text m.index
                          (m.index + m.len)).length = m.len := by
                        rw [hmsV, jsSlice_length _ _ _ (by omega) hVlen]
                        omega
                      have hsplitV : jsSlice (projChain st.list (c2 :: zsE')) 0
                            (m.index - (pos + (projChain st.list es).length))
                          ++ jsSlice pc.text m.index (m.index + m.len)
                          ++ jsSliceFrom (projChain st.list (c2 :: zsE'))
                            (m.index - (pos + (projChain st.list es).length)
                              + (jsSlice pc.text m.index (m.index + m.len)).length)
                          = projChain st.list (c2 :: zsE') := by
                        rw [hmslen, hmsV]
                        exact jsSlice_three_split _ _ _ (by omega)
                      have hstrv_sp : projChain st.list (c2 :: zsE')
                          = jsSlice pc.text (pos + (projChain st.list es).length)
                            (pos + (projChain st.list es).length
                              + (projChain st.list (c2 :: zsE')).length) :=
                        hVstr.symm
                      have hsplit_sp : jsSlice (jsSlice pc.text
                            (pos + (projChain st.list es).length)
                            (pos + (projChain st.list es).length
                              + (projChain st.list (c2 :: zsE')).length)) 0
                            (m.index - (pos + (projChain st.list es).length))
                          ++ jsSlice pc.text m.index (m.index + m.len)
                          ++ jsSliceFrom (jsSlice pc.text
                            (pos + (projChain st.list es).length)
                            (pos + (projChain st.list es).length
                              + (projChain st.list (c2 :: zsE')).length))
                            (m.index - (pos + (projChain st.list es).length)
                              + (jsSlice pc.text m.index (m.index + m.len)).length)
                          = jsSlice pc.text (pos + (projChain st.list es).length)
                            (pos + (projChain st.list es).length
                              + (projChain st.list (c2 :: zsE')).length) := by
                        rw [hVstr]
                        exact hsplitV
                      obtain ⟨ext2, vs1, hS, hN, hP2, hV2, hExtC, hTokC⟩ :=
                        splice_spec P text rc pc st c2 zsE' (usC ++ es) fsE
                          (pos + (projChain st.list es).length)
                          (jsSlice pc.text (pos + (projChain st.list es).length)
                            (pos + (projChain st.list es).length
                              + (projChain st.list (c2 :: zsE')).length))
                          (jsSlice pc.text m.index (m.index + m.len))
                          (m.index - (pos + (projChain st.list es).length))
                          st1 node1 pos1 hrec hpct hPG hPtok hinv3 hpos3
                          hstrv_sp hsplit_sp hterm
                      refine ⟨es ++ ext2, vs1, ?_, hN, ?_, ?_, ?_⟩
                      · have hidl3 : (usC ++ (es ++ ext2)) ++ vs1
                            = ((usC ++ es) ++ ext2) ++ vs1 := by simp
                        rw [hidl3]
                        exact hS
                      · have hidl4 : usC ++ (es ++ ext2) = (usC ++ es) ++ ext2 := by
                          simp
                        rw [hidl4]
                        exact hP2
                      · intro x hx
                        refine hV2 x ?_
                        rcases List.mem_cons.mp hx with h | h
                        · rw [h]
                          exact List.mem_cons_self _ _
                        · exact List.mem_cons_of_mem _ (List.mem_append_left _ h)
                      · intro t ts0 tok hvs hval
                        have he1 : a = t := ((List.cons.injEq a ts t ts0).mp hvs).1
                        rw [← he1, hfv] at hval
                        exact absurd hval (by simp)
                    | brk =>
                      exact absurd (Or.inl (congrArg Prod.snd hterm))
                        (splice_not_brk_ret _ _ _ _ _ _ _ _ _)
                    | ret =>
                      exact absurd (Or.inr (congrArg Prod.snd hterm))
                        (splice_not_brk_ret _ _ _ _ _ _ _ _ _)
                    | fuelK => trivial
                    | errK => trivial
          · rw [if_neg hgr] at hterm
            cases hm : matchPattern pc.pattern 0 strv pc.lookbehind with
            | none =>
              rw [hm] at hterm
              injection hterm with h1 h2
              subst h2
              refine ⟨[], a :: ts, ?_, rfl, ?_, ?_, ?_⟩
              · rw [← h1, List.append_nil]
                exact hinv
              · rw [← h1, List.append_nil]
                exact hpos
              · intro x _
                rw [← h1]
              · intro t ts0 tok hvs hval
                have he1 : a = t := ((List.cons.injEq a ts t ts0).mp hvs).1
                rw [← he1, hfv] at hval
                exact absurd hval (by simp)
            | some m =>
              rw [hm] at hterm
              dsimp only at hterm
              cases k with
              | advance node1 pos1 =>
                have hwfm := matchPattern_wf pc.pattern 0 strv pc.lookbehind m hm
                have hmlen : m.index + m.len ≤ strv.length := hwfm.2
                have hms : (jsSlice strv m.index (m.index + m.len)).length
                    = m.len := by
                  rw [jsSlice_length strv m.index (m.index + m.len) (by omega) hmlen]
                  omega
                have hinv2 : SInv P text st.list ((usC ++ [a]) ++ ts) := by
                  have hidl : (usC ++ [a]) ++ ts = usC ++ a :: ts := by simp
                  rw [hidl]
                  exact hinv
                have hstrva : projChain st.list ([a] : List Nat) = strv := by
                  rw [projChain_cons, projChain_nil, List.append_nil]
                  unfold valStr
                  rw [hfv]
                  rfl
                have hsplit3 : jsSlice strv 0 m.index
                    ++ jsSlice strv m.index (m.index + m.len)
                    ++ jsSliceFrom strv
                      (m.index + (jsSlice strv m.index (m.index + m.len)).length)
                    = strv := by
                  rw [hms]
                  exact jsSlice_three_split strv m.index (m.index + m.len)
                    (by omega)
                obtain ⟨ext2, vs1, hS, hN, hP2, hV2, hExtC, hTokC⟩ :=
                  splice_spec P text rc pc st a [] usC ts pos strv
                    (jsSlice strv m.index (m.index + m.len)) m.index
                    st1 node1 pos1 hrec hpct hPG hPtok hinv2 hpos hstrva
                    hsplit3 hterm
                refine ⟨ext2, vs1, hS, hN, hP2, hV2, ?_⟩
                intro t ts0 tok hvs hval
                have he1 : a = t := ((List.cons.injEq a ts t ts0).mp hvs).1
                rw [← he1, hfv] at hval
                exact absurd hval (by simp)
              | brk =>
                exact absurd (Or.inl (congrArg Prod.snd hterm))
                  (splice_not_brk_ret _ _ _ _ _ _ _ _ _)
              | ret =>
                exact absurd (Or.inr (congrArg Prod.snd hterm))
                  (splice_not_brk_ret _ _ _ _ _ _ _ _ _)
              | fuelK => trivial
              | errK => trivial
end Engine
namespace Engine
set_option maxHeartbeats 1600000 in
theorem cursorLoop_spec (P : TokenV → Prop) (text : Str) (rc : Rec) (pc : PatCtx)
    (hrec : RecOK P rc) (hpct : pc.text = text) (hPG : PGood P pc.grammar)
    (hPtok : ∀ content ms, P (TokenC pc.token content ((pc.aliasO).getD (.str [])) ms))
    (hglob : pc.greedy = true → pc.pattern.globalFlag = true) :
    ∀ (fuel : Nat) (st : MGSt) (usC vsC : List Nat) (curr : Option Nat) (pos : Nat),
    SInv P text st.list (usC ++ vsC) →
    curr = vsC.head? →
    pos = (projChain st.list usC).length →
    ((cursorLoop rc pc fuel st curr pos).2 = .norm ∨
      (cursorLoop rc pc fuel st curr pos).2 = .ret) →
    ∃ ext vsF, SInv P text (cursorLoop rc pc fuel st curr pos).1.list
        ((usC ++ ext) ++ vsF) ∧
      (∀ a ∈ 0 :: usC, ((cursorLoop rc pc fuel st curr pos).1.list.node a).value
        = (st.list.node a).value) ∧
      (∀ t ts tok, vsC = t :: ts → (st.list.node t).value = some (.token tok) →
        ∃ rest1, ext ++ vsF = t :: rest1 ∧
          ((cursorLoop rc pc fuel st curr pos).1.list.node t).value
            = some (.token tok)) := by
  intro fuel
  induction fuel with
  | zero =>
    intro st usC vsC curr pos hinv hcur hpos hout
    rcases hout with h | h <;> exact absurd h (by simp [cursorLoop])
  | succ fuel ih =>
    intro st usC vsC curr pos hinv hcur hpos hout
    by_cases htail : curr = some st.list.tailA
    · rw [cursorLoop, if_pos htail] at hout ⊢
      refine ⟨[], vsC, ?_, ?_, ?_⟩
      · rw [List.append_nil]
        exact hinv
      · intro a _
        rfl
      · intro t ts tok hvs hval
        exact ⟨ts, by rw [List.nil_append, hvs], hval⟩
    · rcases hb : body rc pc st curr pos with ⟨st1, k⟩
      rw [cursorLoop, if_neg htail, hb] at hout ⊢
      have hbs := body_spec P text rc pc st curr pos usC vsC st1 k
        hrec hpct hPG hPtok hglob hinv hcur hpos hb
      cases k with
      | advance node1 pos1 =>
        dsimp only at hout ⊢
        dsimp only at hbs
        obtain ⟨ext, vs1, hS, hN, hP, hF, hT⟩ := hbs
        cases vs1 with
        | nil =>
          have hn1 : node1 = none := hN
          have hpos2 : pos1 + nodeLen st1.list node1
              = (projChain st1.list (usC ++ ext)).length := by
            rw [hn1, nodeLen_none, Nat.add_zero]
            exact hP
          have hcur2 : nodeNext st1.list node1 = (([] : List Nat)).head? := by
            rw [hn1]
            rfl
          have hS2 : SInv P text st1.list ((usC ++ ext) ++ []) := hS
          obtain ⟨ext2, vsF, hS3, hF3, hT3⟩ := ih st1 (usC ++ ext) []
            (nodeNext st1.list node1) (pos1 + nodeLen st1.list node1)
            hS2 hcur2 hpos2 hout
          refine ⟨ext ++ ext2, vsF, ?_, ?_, ?_⟩
          · have hidl : (usC ++ (ext ++ ext2)) ++ vsF
                = (((usC ++ ext) ++ ext2) ++ vsF) := by simp
            rw [hidl]
            exact hS3
          · intro x hx
            rw [hF3 x (by
              rcases List.mem_cons.mp hx with h | h
              · rw [h]
                exact List.mem_cons_self _ _
              · exact List.mem_cons_of_mem _ (List.mem_append_left _ h))]
            exact hF x hx
          · intro t ts tok hvs hval
            obtain ⟨rest1, hr1, hvtok⟩ := hT t ts tok hvs hval
            rw [List.append_nil] at hr1
            have htm : t ∈ 0 :: (usC ++ ext) :=
              List.mem_cons_of_mem _ (List.mem_append_right _
                (by rw [hr1]; exact List.mem_cons_self _ _))
            refine ⟨rest1 ++ ext2 ++ vsF, ?_, ?_⟩
            · rw [hr1]
              simp
            · rw [hF3 t htm]
              exact hvtok
        | cons n rest =>
          have hn1 : node1 = some n := hN
          have hnmem : n ∈ (usC ++ ext) ++ n :: rest :=
            List.mem_append_right _ (List.mem_cons_self _ _)
          obtain ⟨fn, hfn, hfnOK, _⟩ := hS.2.2.2.2.2.2.1 n hnmem
          have hlenn : nodeLen st1.list (some n) = (valStr st1.list n).length :=
            nodeLen_eq_valStr st1.list n ⟨fn, hfn, hfnOK⟩
          have hnext : (st1.list.node n).next = rest.head? :=
            linksOK_next_head st1.list (usC ++ ext) n rest hS.2.2.2.1
          have hcur2 : nodeNext st1.list node1 = rest.head? := by
            rw [hn1]
            exact hnext
          have hpos2 : pos1 + nodeLen st1.list node1
              = (projChain st1.list ((usC ++ ext) ++ [n])).length := by
            rw [hn1, hlenn, projChain_append, projChain_cons, projChain_nil,
              List.append_nil, List.length_append, hP]
          have hS2 : SInv P text st1.list (((usC ++ ext) ++ [n]) ++ rest) := by
            have hidl : ((usC ++ ext) ++ [n]) ++ rest = (usC ++ ext) ++ n :: rest := by
              simp
            rw [hidl]
            exact hS
          obtain ⟨ext2, vsF, hS3, hF3, hT3⟩ := ih st1 ((usC ++ ext) ++ [n]) rest
            (nodeNext st1.list node1) (pos1 + nodeLen st1.list node1)
            hS2 hcur2 hpos2 hout
          refine ⟨ext ++ n :: ext2, vsF, ?_, ?_, ?_⟩
          · have hidl : (usC ++ (ext ++ n :: ext2)) ++ vsF
                = ((((usC ++ ext) ++ [n]) ++ ext2) ++ vsF) := by simp
            rw [hidl]
            exact hS3
          · intro x hx
            rw [hF3 x (by
              rcases List.mem_cons.mp hx with h | h
              · rw [h]
                exact List.mem_cons_self _ _
              · exact List.mem_cons_of_mem _ (List.mem_append_left _
                  (List.mem_append_left _ h)))]
            exact hF x hx
          · intro t ts tok hvs hval
            obtain ⟨rest1, hr1, hvtok⟩ := hT t ts tok hvs hval
            have htin : t ∈ (usC ++ ext) ++ [n] := by
              cases ext with
              | nil =>
                rw [List.nil_append] at hr1
                have he : n = t := ((List.cons.injEq n rest t rest1).mp hr1).1
                rw [← he]
                exact List.mem_append_right _ (List.mem_cons_self _ _)
              | cons e ex =>
                have he : e = t := ((List.cons.injEq e (ex ++ n :: rest) t rest1).mp
                  (by simpa using hr1)).1
                refine List.mem_append_left _ (List.mem_append_right _ ?_)
                rw [← he]
                exact List.mem_cons_self _ _
            have hhead : ∃ rest2, (ext ++ n :: ext2) ++ vsF = t :: rest2 := by
              cases ext with
              | nil =>
                rw [List.nil_append] at hr1
                have he : n = t := ((List.cons.injEq n rest t rest1).mp hr1).1
                exact ⟨ext2 ++ vsF, by rw [← he]; simp⟩
              | cons e ex =>
                have he : e = t := ((List.cons.injEq e (ex ++ n :: rest) t rest1).mp
                  (by simpa using hr1)).1
                exact ⟨(ex ++ n :: ext2) ++ vsF, by rw [← he]; simp⟩
            obtain ⟨rest2, hr2⟩ := hhead
            refine ⟨rest2, hr2, ?_⟩
            rw [hF3 t (List.mem_cons_of_mem _ htin)]
            exact hvtok
      | brk =>
        dsimp only at hout ⊢
        dsimp only at hbs
        subst hbs
        refine ⟨[], vsC, ?_, ?_, ?_⟩
        · rw [List.append_nil]
          exact hinv
        · intro a _
          rfl
        · intro t ts tok hvs hval
          exact ⟨ts, by rw [List.nil_append, hvs], hval⟩
      | ret =>
        dsimp only at hout ⊢
        dsimp only at hbs
        subst hbs
        refine ⟨[], vsC, ?_, ?_, ?_⟩
        · rw [List.append_nil]
          exact hinv
        · intro a _
          rfl
        · intro t ts tok hvs hval
          exact ⟨ts, by rw [List.nil_append, hvs], hval⟩
      | fuelK =>
        dsimp only at hout
        rcases hout with h | h <;> exact absurd h (by simp)
      | errK =>
        dsimp only at hout
        rcases hout with h | h <;> exact absurd h (by simp)
end Engine
